import Mathlib

/-!
Verification of the hour-redistribution core of the Timesheet Autofill Tool
(`redistribute_hours_by_earning` and `get_distribution_weights` in
`App_Timesheet_Autofill_Tool.py`).

The ledger (`02-Deltek.csv`) has identity columns
{Code, Project ID, Activity ID, Award ID, Earning} and one column per
calendar date.  Hours are modelled as exact rationals (the Python code uses
floats; the tolerances of 0.001 in the code are designed to absorb float
noise, so the exact-rational model is the intended semantics).  Python's
`round` is round-half-to-even, modelled faithfully by `roundHalfEven`.

Rows are lists; a DataFrame is a `List Row`; positional indices play the
role of the pandas index (the code re-indexes with `ignore_index=True`
after every concat, so the pandas labels are exactly the positions).
`sort_values` is modelled by a stable insertion sort (pandas' quicksort is
unstable, so tie order is unspecified in the source; all concrete inputs
used below are tie-free).  `groupby` (with its default `sort=True`) is
modelled by `mergeRows`, which sorts the distinct keys.
-/

attribute [local semireducible] Rat.add Rat.mul Rat.inv Rat.sub Rat.ofScientific

/-- A ledger row: identity columns plus one hour entry per date column
(`df_deltek` rows). -/
structure Row where
  code : String
  projectId : String
  activityId : String
  awardId : String
  earning : String
  hours : List ℚ
deriving DecidableEq

/-- Python `round`: round half to even (banker's rounding), as applied to
an exact rational. -/
def roundHalfEven (q : ℚ) : ℤ :=
  if q - ⌊q⌋ < 1/2 then ⌊q⌋
  else if 1/2 < q - ⌊q⌋ then ⌊q⌋ + 1
  else if ⌊q⌋ % 2 = 0 then ⌊q⌋ else ⌊q⌋ + 1

/-- `round(x * 4) / 4` from the source (rounding to the nearest 1/4 hour). -/
def roundQuarter (x : ℚ) : ℚ := (roundHalfEven (4 * x) : ℚ) / 4

/-- A rational is an exact multiple of 0.25. -/
def IsQuarter (q : ℚ) : Prop := ∃ k : ℤ, q = k / 4

instance (q : ℚ) : Decidable (IsQuarter q) :=
  decidable_of_iff ((4 * q).den = 1) <| by
    constructor
    · intro h
      refine ⟨(4 * q).num, ?_⟩
      have h4 : (4 * q : ℚ) = ((4 * q).num : ℚ) := by
        conv_lhs => rw [← Rat.num_div_den (4 * q)]
        rw [h]; simp
      linarith
    · rintro ⟨k, rfl⟩
      have : 4 * ((k : ℚ) / 4) = (k : ℚ) := by ring
      rw [this]
      exact Rat.den_intCast k

/-- The empty row, used as the default for positional lookups. -/
def row0 : Row := ⟨"", "", "", "", "", []⟩

/-- Positional row lookup in a DataFrame. -/
def getRow (l : List Row) (i : ℕ) : Row := l.getD i row0

/-- Pointwise addition of two hour vectors
(`df.loc[idx, date_columns] += additional_hours`). -/
def zipAdd (a b : List ℚ) : List ℚ := List.zipWith (· + ·) a b

/-- `hours_to_redistribute * weight`. -/
def scaleHours (h : List ℚ) (w : ℚ) : List ℚ := h.map (· * w)

/-- Hours of row `r` at date column `d`. -/
def hourAt (r : Row) (d : ℕ) : ℚ := r.hours.getD d 0

/-- Per-(earning, date) total over a set of rows: one cell of
`df.groupby('Earning')[date_columns].sum()`. -/
def sumAt (rows : List Row) (e : String) (d : ℕ) : ℚ :=
  ((rows.filter (fun r => r.earning == e)).map (fun r => hourAt r d)).sum

/-- Stable insertion into a list: `x` is placed before the first element
`y` with `le x y`. -/
def insertBy (le : α → α → Bool) (x : α) : List α → List α
  | [] => [x]
  | y :: ys => if le x y then x :: y :: ys else y :: insertBy le x ys

/-- Stable sort; an element placed earlier in the input stays before equal
elements placed later (`le` must be total for sortedness). -/
def sortBy (le : α → α → Bool) (l : List α) : List α := l.foldr (insertBy le) []

/-! ## Classifier and Target Selector -/

/-- `df_deltek['Prorate'] = df_deltek['Code'].map(prorate_dict).fillna(0)`,
followed by the override `df_deltek.loc[df_deltek['Project ID'] ==
'P100001', 'Prorate'] = -1`.  A Code absent from the table gets flag 0. -/
def prorateOf (table : List (String × ℤ)) (r : Row) : ℤ :=
  if r.projectId = "P100001" then -1 else ((table.lookup r.code).getD 0)

/-- `df_virtual = df_deltek[df_deltek['Prorate'] == 1]`. -/
def virtualRows (table : List (String × ℤ)) (rows : List Row) : List Row :=
  rows.filter (fun r => prorateOf table r == 1)

/-- `df_real = df_deltek[df_deltek['Prorate'] == 0]`. -/
def realRows (table : List (String × ℤ)) (rows : List Row) : List Row :=
  rows.filter (fun r => prorateOf table r == 0)

/-- `df_excepted = df_deltek[df_deltek['Prorate'] == -1]`. -/
def exceptedRows (table : List (String × ℤ)) (rows : List Row) : List Row :=
  rows.filter (fun r => prorateOf table r == (-1 : ℤ))

/-- `df_real['Code'].map(project_selections).fillna(True)`: the selection
defaults to `true` for a Code absent from the selection table. -/
def targetFlag (sel : List (String × Bool)) (r : Row) : Bool :=
  (sel.lookup r.code).getD true

/-- `df_real_selected`. -/
def selectedOf (table : List (String × ℤ)) (sel : List (String × Bool))
    (rows : List Row) : List Row :=
  (realRows table rows).filter (fun r => targetFlag sel r)

/-- `df_real_not_selected` (the Retained rows). -/
def retainedOf (table : List (String × ℤ)) (sel : List (String × Bool))
    (rows : List Row) : List Row :=
  (realRows table rows).filter (fun r => !(targetFlag sel r))

/-! ## Proportional Allocator -/

/-- Total hours of one row across the whole date range
(`df_real[date_columns].sum(axis=1)`). -/
def totalHours (r : Row) : ℚ := r.hours.sum

/-- `get_distribution_weights`: weight = totalHours / Σ totalHours, or the
uniform `1/len(df_real)` when the grand total is zero. -/
def get_distribution_weights (rs : List Row) : List ℚ :=
  let ts := rs.map totalHours
  if ts.sum = 0 then rs.map (fun _ => 1 / (rs.length : ℚ))
  else ts.map (· / ts.sum)

/-- `df_result[df_result['Code'] == code].index[0]` followed by
`df_result.loc[result_idx, date_columns] += additional_hours`: add an hour
vector onto the first row carrying the given Code. -/
def addToFirstCode (c : String) (add : List ℚ) : List Row → List Row
  | [] => []
  | r :: rs =>
    if r.code == c then { r with hours := zipAdd r.hours add } :: rs
    else r :: addToFirstCode c add rs

/-- One iteration of the `for idx, virtual_row in df_virtual.iterrows()`
loop.  Regular earning (`'1'`): for each selected row, its proportional
share of the virtual hours is added onto the first `df_result` row with
the same Code.  Any other earning: for each selected row a new row with
that row's identity but the virtual row's earning is appended, carrying
the proportional hours.  (The source recomputes the weights inside the
non-regular loop, but `df_real_selected` never changes, so the weight
vector is the same at every iteration.) -/
def processVirtualRow (selected : List Row) (v : Row) (result : List Row) :
    List Row :=
  let ws := get_distribution_weights selected
  if v.earning == "1" then
    (selected.zip ws).foldl
      (fun res sw => addToFirstCode sw.1.code (scaleHours v.hours sw.2) res)
      result
  else
    (selected.zip ws).foldl
      (fun res sw =>
        res ++ [{ sw.1 with earning := v.earning, hours := scaleHours v.hours sw.2 }])
      result

/-- The whole virtual-row loop, starting from
`df_result = df_real_selected.copy()`. -/
def allocate (selected : List Row) (virtuals : List Row) : List Row :=
  virtuals.foldl (fun res v => processVirtualRow selected v res) selected

/-! ## Duplicate merge and quarter rounding -/

/-- The identity of a row: the `groupby` key columns (the auxiliary
`Prorate` / `Redistribute_Target` columns are constant over `df_result`,
so grouping by all non-date columns is grouping by this 5-tuple). -/
def rowKey (r : Row) : String × String × String × String × String :=
  (r.code, r.projectId, r.activityId, r.awardId, r.earning)

/-- Lexicographic comparison of group keys (pandas sorts group keys). -/
def keyCmp (a b : String × String × String × String × String) : Ordering :=
  (compare a.1 b.1).then <| (compare a.2.1 b.2.1).then <|
    (compare a.2.2.1 b.2.2.1).then <| (compare a.2.2.2.1 b.2.2.2.1).then
      (compare a.2.2.2.2 b.2.2.2.2)

/-- Sum a list of hour vectors, all of length `D`. -/
def sumHourLists (D : ℕ) (ls : List (List ℚ)) : List ℚ :=
  ls.foldl zipAdd (List.replicate D 0)

/-- `df_result.groupby(groupby_columns, as_index=False)[date_columns].sum()`:
one row per distinct identity, date columns summed, keys sorted. -/
def mergeRows (D : ℕ) (rows : List Row) : List Row :=
  let ks := sortBy (fun a b => (keyCmp a b).isLE) ((rows.map rowKey).dedup)
  ks.map (fun k =>
    { code := k.1, projectId := k.2.1, activityId := k.2.2.1,
      awardId := k.2.2.2.1, earning := k.2.2.2.2,
      hours := sumHourLists D ((rows.filter (fun r => rowKey r == k)).map Row.hours) })

/-- `df_result[date_columns].applymap(lambda x: round(x * 4) / 4)`. -/
def roundAllRows (rows : List Row) : List Row :=
  rows.map (fun r => { r with hours := r.hours.map roundQuarter })

/-! ## Rounding Reconciler -/

/-- Replace the entry of row `i` (positional index) in `df_result`. -/
def modifyAt (i : ℕ) (f : Row → Row) : List Row → List Row
  | [] => []
  | r :: rs =>
    match i with
    | 0 => f r :: rs
    | n + 1 => r :: modifyAt n f rs

/-- Write value `v` into date column `d` of a row. -/
def setHour (d : ℕ) (v : ℚ) (r : Row) : Row := { r with hours := r.hours.set d v }

/-- The pre-allocation hours of the (first) row of
`df_real_selected_original` with the given Code and Earning; 0 when no
such row exists (a row synthesized by prorate). -/
def snapshotHours (snapshot : List Row) (c e : String) (d : ℕ) : ℚ :=
  match (snapshot.filter (fun s => s.code == c && s.earning == e)).head? with
  | some s => hourAt s d
  | none => 0

/-- Rows of `df_result` carrying earning `e`, paired with their positional
index (`earning_projects = df_result[df_result['Earning'] == earning]`). -/
def enumEarning (e : String) (res : List Row) : List (ℕ × Row) :=
  res.enum.filter (fun p => p.2.earning == e)

/-- The `for idx in earning_projects.index:` adjustment loop.  Each list
entry is (positional index, `prorate_diffs` value).  `remaining` is
`remaining_difference`.  Positive remainder: add it all to the first row
and stop.  Negative: subtract the shortfall if this row's received amount
covers it (then stop), otherwise subtract the whole received amount and
carry on; rows with received ≤ 0 are passed over.  Every touched cell is
re-rounded to a quarter hour. -/
def adjustWalk (d : ℕ) : List (ℕ × ℚ) → ℚ → List Row → List Row
  | [], _, res => res
  | (i, recv) :: rest, remaining, res =>
    if |remaining| < 1/1000 then res
    else if 0 < remaining then
      modifyAt i (fun r => setHour d (roundQuarter (hourAt r d + remaining)) r) res
    else if -remaining ≤ recv then
      -- `hours_to_subtract = abs(remaining_difference)`; subtracting it is
      -- adding the (negative) remaining difference
      modifyAt i (fun r => setHour d (roundQuarter (hourAt r d + remaining)) r) res
    else if 0 < recv then
      adjustWalk d rest (remaining + recv)
        (modifyAt i (fun r => setHour d (roundQuarter (hourAt r d - recv)) r) res)
    else adjustWalk d rest remaining res

/-- Repair of one (Earning, Date) cell.  `origS` is the cell of
`original_summary`, `curS` the cell of the (pre-reconciliation)
`prorate_summary`.  `diff > 0`: candidates are sorted by current hours
descending and the whole difference goes to the first one.  `diff < 0`:
for every candidate the received-from-prorate amount is current hours
minus the snapshot hours; candidates with received > 0.001 are kept,
sorted by received descending, and walked. -/
def adjustCell (snapshot : List Row) (e : String) (d : ℕ) (origS curS : ℚ)
    (res : List Row) : List Row :=
  let diff := origS - curS
  if 1/1000 < |diff| then
    if 0 < diff then
      let cands := sortBy (fun a b => decide (hourAt b.2 d ≤ hourAt a.2 d))
        (enumEarning e res)
      adjustWalk d (cands.map (fun p => (p.1, hourAt p.2 d))) diff res
    else
      let withRecv := (enumEarning e res).map
        (fun p => (p.1, hourAt p.2 d - snapshotHours snapshot p.2.code e d))
      let kept := withRecv.filter (fun t => decide (1/1000 < t.2))
      adjustWalk d (sortBy (fun a b => decide (b.2 ≤ a.2)) kept) diff res
  else res

/-- The whole validation loop: earnings of `original_summary` (sorted
group keys of `df_original_for_comparison = concat([df_virtual,
df_real_selected])`), each date column in order; an earning absent from
`prorate_summary` is skipped with a warning.  Both summaries are computed
once, before any adjustment (adjustments at one cell never change another
cell's total, so the stale summary equals the live one). -/
def reconcile (snapshot virtuals selected : List Row) (D : ℕ)
    (res0 : List Row) : List Row :=
  let earnings := sortBy (fun a b => (compare a b).isLE)
    (((virtuals ++ selected).map Row.earning).dedup)
  earnings.foldl
    (fun res e =>
      if (res0.map Row.earning).contains e then
        (List.range D).foldl
          (fun res2 d =>
            adjustCell snapshot e d (sumAt (virtuals ++ selected) e d)
              (sumAt res0 e d) res2)
          res
      else res)
    res0

/-! ## The pipeline -/

/-- The inputs of `redistribute_hours_by_earning`: the ledger rows of
`02-Deltek.csv`, the prorate table of `N4W_Task_Details.xlsx`, the user's
project selection, and the number of date columns. -/
structure LedgerInput where
  rows : List Row
  table : List (String × ℤ)
  sel : List (String × Bool)
  D : ℕ

/-- The reconciled Target-row set (the value of `df_result` just before the
not-selected and excepted rows are concatenated back). -/
def reconciledResult (inp : LedgerInput) : List Row :=
  let virtuals := virtualRows inp.table inp.rows
  let selected := selectedOf inp.table inp.sel inp.rows
  reconcile selected virtuals selected inp.D
    (roundAllRows (mergeRows inp.D (allocate selected virtuals)))

/-- `df_result` right after the duplicate merge and quarter rounding,
before the Rounding Reconciler runs (the `res0` the reconciliation loop
starts from). -/
def mergedResult (inp : LedgerInput) : List Row :=
  roundAllRows (mergeRows inp.D
    (allocate (selectedOf inp.table inp.sel inp.rows)
      (virtualRows inp.table inp.rows)))

/-- `df_original_for_comparison = pd.concat([df_virtual, df_real_selected])`:
the rows whose per-(Earning, Date) totals the Reconciler restores. -/
def originalForComparison (inp : LedgerInput) : List Row :=
  virtualRows inp.table inp.rows ++ selectedOf inp.table inp.sel inp.rows

/-- `redistribute_hours_by_earning`.  `none` models the early `return`s
(empty prorate table, no date columns, no real rows, no selected rows):
the function aborts without writing any output file.  Otherwise the
output ledger is the reconciled Target rows followed by the not-selected
real rows and the excepted rows, hours untouched. -/
def redistribute_hours_by_earning (inp : LedgerInput) : Option (List Row) :=
  if inp.table = [] then none
  else if inp.D = 0 then none
  else if realRows inp.table inp.rows = [] then none
  else if selectedOf inp.table inp.sel inp.rows = [] then none
  else some (reconciledResult inp ++ retainedOf inp.table inp.sel inp.rows ++
    exceptedRows inp.table inp.rows)

/-! ## Well-formedness of inputs -/

/-- A valid input ledger: every row has one hour entry per date column and
hours are non-negative (§3 of the design: "Invariant: hours ≥ 0"). -/
def ValidInput (inp : LedgerInput) : Prop :=
  (∀ r ∈ inp.rows, r.hours.length = inp.D) ∧
  (∀ r ∈ inp.rows, ∀ q ∈ r.hours, 0 ≤ q)

/-- Every hour value of the input ledger is an exact multiple of 0.25. -/
def QuarterInput (inp : LedgerInput) : Prop :=
  ∀ r ∈ inp.rows, ∀ q ∈ r.hours, IsQuarter q

/-- Every hour value of every row of a DataFrame is a multiple of 0.25. -/
def AllQuarter (l : List Row) : Prop :=
  ∀ r ∈ l, ∀ q ∈ r.hours, IsQuarter q

instance (inp : LedgerInput) : Decidable (ValidInput inp) :=
  inferInstanceAs (Decidable ((∀ r ∈ inp.rows, r.hours.length = inp.D) ∧
    (∀ r ∈ inp.rows, ∀ q ∈ r.hours, 0 ≤ q)))

instance (inp : LedgerInput) : Decidable (QuarterInput inp) :=
  inferInstanceAs (Decidable (∀ r ∈ inp.rows, ∀ q ∈ r.hours, IsQuarter q))

instance (l : List Row) : Decidable (AllQuarter l) :=
  inferInstanceAs (Decidable (∀ r ∈ l, ∀ q ∈ r.hours, IsQuarter q))

/-- Two DataFrames have the same row count and, positionally, the same
Code, Earning and number of date columns (the reconciler edits hour cells
in place and never adds, drops or re-labels rows). -/
def SameShape (a b : List Row) : Prop :=
  a.length = b.length ∧ ∀ i < a.length,
    (getRow a i).code = (getRow b i).code ∧
    (getRow a i).earning = (getRow b i).earning ∧
    (getRow a i).hours.length = (getRow b i).hours.length

/-- Proof-internal invariant of the Allocator's accumulator (`df_result`
during the virtual-row loop): every row has one hour entry per date and
non-negative hours, and carries the identity columns of some selected
Target row; and every selected Target row still has a descendant with its
exact identity whose hours dominate its own (the Allocator only adds). -/
def AllocInv (D : ℕ) (selected : List Row) (acc : List Row) : Prop :=
  (∀ a ∈ acc, a.hours.length = D ∧ (∀ q ∈ a.hours, 0 ≤ q) ∧
    ∃ s, s ∈ selected ∧ s.code = a.code ∧ s.projectId = a.projectId ∧
      s.activityId = a.activityId ∧ s.awardId = a.awardId) ∧
  (∀ s ∈ selected, ∃ a, a ∈ acc ∧ rowKey a = rowKey s ∧
    ∀ d, hourAt s d ≤ hourAt a d)

/-! ## Claim-side definitions

These definitions follow the words of the specification (for the
refinement claims C2 and C7); they are compared with the code-side
definitions above. -/

/-- Spec wording (C7): in the regular-category branch, "each target row
receiving virtualHours(date) × weight(targetRow) for every date
independently", onto its own entries, with no new rows created. -/
def regularAllocByWeights (selected : List Row) (v : Row) : List Row :=
  (selected.zip (get_distribution_weights selected)).map
    (fun sw => { sw.1 with hours := zipAdd sw.1.hours (scaleHours v.hours sw.2) })

/-- Spec wording (C2): "the single row carrying that EarningCategory with
the largest current hours on that date" — the first row attaining the
maximum current hours at date `d`. -/
def claimMaxRow (d : ℕ) : List (ℕ × Row) → Option (ℕ × Row)
  | [] => none
  | x :: xs =>
    match claimMaxRow d xs with
    | none => some x
    | some m => if hourAt m.2 d ≤ hourAt x.2 d then some x else some m

/-- Spec wording (C2), negative difference: "walks the sorted list
subtracting either the remaining shortfall (then stopping) or the row's
entire received amount (carrying the remainder onward), rounding after
each subtraction, and skips rows whose received amount is not positive." -/
def claimWalkNeg (d : ℕ) : List (ℕ × ℚ) → ℚ → List Row → List Row
  | [], _, res => res
  | (i, recv) :: rest, shortfall, res =>
    if recv ≤ 0 then claimWalkNeg d rest shortfall res
    else if shortfall ≤ recv then
      modifyAt i (fun r => setHour d (roundQuarter (hourAt r d - shortfall)) r) res
    else
      claimWalkNeg d rest (shortfall - recv)
        (modifyAt i (fun r => setHour d (roundQuarter (hourAt r d - recv)) r) res)

/-- Spec wording (C2): the per-cell repair as claim C2 describes it.
Positive difference: add it all to the first row with the largest current
hours and round to a quarter hour.  Negative difference: compute each
candidate's received amount (current minus snapshot, absent original = 0),
sort by received descending, and walk the list. -/
def claimRepairCell (snapshot : List Row) (e : String) (d : ℕ)
    (origS curS : ℚ) (res : List Row) : List Row :=
  let diff := origS - curS
  if 0 < diff then
    match claimMaxRow d (enumEarning e res) with
    | some p => modifyAt p.1 (fun r => setHour d (roundQuarter (hourAt r d + diff)) r) res
    | none => res
  else
    let withRecv := (enumEarning e res).map
      (fun p => (p.1, hourAt p.2 d - snapshotHours snapshot p.2.code e d))
    claimWalkNeg d (sortBy (fun a b => decide (b.2 ≤ a.2)) withRecv) (-diff) res

/-! ## Concrete inputs used in counterexamples and witnesses -/

/-- C1 counterexample: one selected real row with 0.37 h of regular time
and one virtual regular row with 0.004 h.  0.374 h cannot be represented
on a quarter-hour grid, so conservation fails by 0.124 h > 0.001 h. -/
def exC1 : LedgerInput :=
  { rows := [⟨"A", "PA", "1", "w", "1", [37/100]⟩,
             ⟨"X", "PX", "1", "w", "1", [4/1000]⟩],
    table := [("A", 0), ("X", 1)], sel := [], D := 1 }

/-- C1 witness input: quarter-aligned hours, distinct codes. -/
def exC1w : LedgerInput :=
  { rows := [⟨"A", "PA", "1", "w", "1", [8]⟩,
             ⟨"B", "PB", "1", "w", "1", [2]⟩,
             ⟨"X", "PX", "1", "w", "1", [3/4]⟩,
             ⟨"Y", "PY", "1", "w", "V", [5/2]⟩],
    table := [("A", 0), ("B", 0), ("X", 1), ("Y", 1)], sel := [], D := 1 }

/-- C2 witness cell: one candidate row that received 0.5 h of the 0.25 h
shortfall. -/
def exC2rows : List Row := [⟨"A", "PA", "1", "w", "1", [2]⟩]

/-- C2 witness snapshot: row `A` held 1.5 h before allocation. -/
def exC2snap : List Row := [⟨"A", "PA", "1", "w", "1", [3/2]⟩]

/-- C3 counterexample: a selected row holding 0.77 h before allocation
ends at 0.75 h after rounding and reconciliation. -/
def exC3 : LedgerInput :=
  { rows := [⟨"A", "PA", "1", "w", "1", [77/100]⟩,
             ⟨"X", "PX", "1", "w", "1", [4/1000]⟩],
    table := [("A", 0), ("X", 1)], sel := [], D := 1 }

/-- C3/C5 style witness input: quarter-aligned, with a retained and an
excepted row. -/
def exC3w : LedgerInput :=
  { rows := [⟨"A", "PA", "1", "w", "1", [6]⟩,
             ⟨"B", "PB", "1", "w", "1", [2]⟩,
             ⟨"R", "PR", "1", "w", "1", [5/4]⟩,
             ⟨"E", "P100001", "1", "w", "1", [7/4]⟩,
             ⟨"X", "PX", "1", "w", "1", [1]⟩,
             ⟨"Y", "PY", "1", "w", "V", [2]⟩],
    table := [("A", 0), ("B", 0), ("R", 0), ("E", 0), ("X", 1), ("Y", 1)],
    sel := [("R", false)], D := 1 }

/-- C4 counterexample: a not-selected (Retained) real row with 0.4 h
passes through unrounded, so the output contains a value that is not a
multiple of 0.25. -/
def exC4 : LedgerInput :=
  { rows := [⟨"R", "PR", "1", "w", "1", [2/5]⟩,
             ⟨"A", "PA", "1", "w", "1", [1]⟩,
             ⟨"X", "PX", "1", "w", "1", [1]⟩],
    table := [("R", 0), ("A", 0), ("X", 1)], sel := [("R", false)], D := 1 }

/-- C4 witness input: all input hours quarter-aligned. -/
def exC4w : LedgerInput :=
  { rows := [⟨"R", "PR", "1", "w", "1", [1/2]⟩,
             ⟨"A", "PA", "1", "w", "1", [1]⟩,
             ⟨"E", "P100001", "1", "w", "1", [3/4]⟩,
             ⟨"X", "PX", "1", "w", "1", [1]⟩],
    table := [("R", 0), ("A", 0), ("E", 0), ("X", 1)], sel := [("R", false)], D := 1 }

/-- C5 witness input. -/
def exC5w : LedgerInput :=
  { rows := [⟨"A", "PA", "1", "w", "1", [4]⟩,
             ⟨"R", "PR", "1", "w", "1", [13/10]⟩,
             ⟨"E", "P100001", "1", "w", "1", [9/10]⟩,
             ⟨"X", "PX", "1", "w", "1", [2]⟩],
    table := [("A", 0), ("R", 0), ("E", 0), ("X", 1)], sel := [("R", false)], D := 1 }

/-- C6 counterexample: Code `B` has no prorate entry, yet redistribution
completes and emits `B`'s row (classified Real) instead of aborting. -/
def exC6 : LedgerInput :=
  { rows := [⟨"A", "PA", "1", "w", "1", [1]⟩,
             ⟨"B", "PB", "1", "w", "1", [1]⟩],
    table := [("A", 0)], sel := [], D := 1 }

/-- C6 witness row. -/
def exC6row : Row := ⟨"B", "PB", "1", "w", "1", [1]⟩

/-- C7 counterexample: two selected target rows share Code `A`; the whole
allocation for that Code lands on the first row. -/
def exC7sel : List Row :=
  [⟨"A", "PA", "1", "w", "1", [1]⟩, ⟨"A", "PA", "1", "w", "V", [1]⟩]

/-- C7 counterexample virtual row: 1 h of regular time. -/
def exC7v : Row := ⟨"X", "PX", "1", "w", "1", [1]⟩

/-- C7 witness target rows (distinct codes). -/
def exC7wsel : List Row :=
  [⟨"A", "PA", "1", "w", "1", [3]⟩, ⟨"B", "PB", "1", "w", "1", [1]⟩]

/-- C8 witness: a virtual VACATION row. -/
def exC8v : Row := ⟨"X", "PX", "1", "w", "V", [5]⟩

/-- C8 witness target rows. -/
def exC8sel : List Row :=
  [⟨"A", "PA", "1", "w", "1", [4]⟩, ⟨"B", "PB", "1", "w", "1", [4]⟩]

/-- C9 witness rows. -/
def exC9 : List Row :=
  [⟨"A", "PA", "1", "w", "1", [30]⟩, ⟨"B", "PB", "1", "w", "1", [10]⟩]

/-- C10 witness: a virtual-flagged Code on the reserved project P100001. -/
def exC10 : LedgerInput :=
  { rows := [⟨"A", "PA", "1", "w", "1", [2]⟩,
             ⟨"E", "P100001", "1", "w", "1", [3/2]⟩,
             ⟨"X", "PX", "1", "w", "1", [1]⟩],
    table := [("A", 0), ("E", 1), ("X", 1)], sel := [], D := 1 }

/-- C10 witness row: its Code is flagged Virtual in the table, but its
Project ID is the reserved identifier. -/
def exC10row : Row := ⟨"E", "P100001", "1", "w", "1", [3/2]⟩

/-! # Helper lemmas: rounding -/

theorem le_roundHalfEven (q : ℚ) : ⌊q⌋ ≤ roundHalfEven q := by
  rw [roundHalfEven]; split_ifs <;> omega

theorem roundHalfEven_le_add_one (q : ℚ) : roundHalfEven q ≤ ⌊q⌋ + 1 := by
  rw [roundHalfEven]; split_ifs <;> omega

theorem roundHalfEven_intCast (n : ℤ) : roundHalfEven (n : ℚ) = n := by
  rw [roundHalfEven]
  simp [Int.floor_intCast]

theorem roundHalfEven_eq_of_abs_lt_half {q : ℚ} {n : ℤ} (h : |q - n| < 1/2) :
    roundHalfEven q = n := by
  rw [abs_lt] at h
  rcases le_or_lt (n : ℚ) q with hq | hq
  · have hfl : ⌊q⌋ = n := by
      rw [Int.floor_eq_iff]
      constructor
      · exact_mod_cast hq
      · linarith [h.2]
    rw [roundHalfEven, hfl]
    have : q - (n : ℚ) < 1/2 := by linarith [h.2]
    simp only [this, if_pos]
  · have hfl : ⌊q⌋ = n - 1 := by
      rw [Int.floor_eq_iff]
      constructor
      · push_cast; linarith [h.1]
      · push_cast; linarith
    rw [roundHalfEven, hfl]
    have h1 : ¬ (q - ((n - 1 : ℤ) : ℚ) < 1/2) := by push_cast; linarith [h.1]
    have h2 : (1 : ℚ)/2 < q - ((n - 1 : ℤ) : ℚ) := by push_cast; linarith [h.1]
    rw [if_neg h1, if_pos h2]
    omega

theorem roundHalfEven_mono {x y : ℚ} (h : x ≤ y) :
    roundHalfEven x ≤ roundHalfEven y := by
  have hf : ⌊x⌋ ≤ ⌊y⌋ := Int.floor_le_floor h
  rcases eq_or_lt_of_le hf with heq | hlt
  · have hr : x - ⌊x⌋ ≤ y - ⌊y⌋ := by
      rw [← heq]; linarith
    rw [roundHalfEven, roundHalfEven, ← heq]
    split_ifs <;> first | omega | linarith
  · calc roundHalfEven x ≤ ⌊x⌋ + 1 := roundHalfEven_le_add_one x
      _ ≤ ⌊y⌋ := by omega
      _ ≤ roundHalfEven y := le_roundHalfEven y

theorem roundQuarter_isQuarter (x : ℚ) : IsQuarter (roundQuarter x) :=
  ⟨roundHalfEven (4 * x), rfl⟩

theorem IsQuarter.roundQuarter_eq {x : ℚ} (h : IsQuarter x) : roundQuarter x = x := by
  obtain ⟨k, rfl⟩ := h
  rw [roundQuarter]
  have : 4 * ((k : ℚ) / 4) = (k : ℚ) := by ring
  rw [this, roundHalfEven_intCast]

theorem roundQuarter_sub_small {v ε : ℚ} (hv : IsQuarter v) (hε : |ε| ≤ 1/1000) :
    roundQuarter (v - ε) = v := by
  obtain ⟨k, rfl⟩ := hv
  have habs : |4 * ((k : ℚ) / 4 - ε) - k| < 1/2 := by
    rw [abs_le] at hε
    have heq : 4 * ((k : ℚ) / 4 - ε) - k = -(4 * ε) := by ring
    rw [heq, abs_lt]
    constructor <;> linarith [hε.1, hε.2]
  rw [roundQuarter, roundHalfEven_eq_of_abs_lt_half habs]

theorem roundQuarter_mono {x y : ℚ} (h : x ≤ y) : roundQuarter x ≤ roundQuarter y := by
  rw [roundQuarter, roundQuarter]
  have h1 : roundHalfEven (4 * x) ≤ roundHalfEven (4 * y) :=
    roundHalfEven_mono (by linarith)
  have h2 : (roundHalfEven (4 * x) : ℚ) ≤ (roundHalfEven (4 * y) : ℚ) := by
    exact_mod_cast h1
  linarith

/-! # Helper lemmas: lists, positional updates, sums -/

theorem zipAdd_getD (a b : List ℚ) (d : ℕ) (ha : d < a.length) (hb : d < b.length) :
    (zipAdd a b).getD d 0 = a.getD d 0 + b.getD d 0 := by
  induction a generalizing b d with
  | nil => simp at ha
  | cons x xs ih =>
    cases b with
    | nil => simp at hb
    | cons y ys =>
      cases d with
      | zero => simp [zipAdd]
      | succ n =>
        simp only [zipAdd, List.zipWith_cons_cons, List.getD_cons_succ]
        exact ih ys n (by simpa using ha) (by simpa using hb)

theorem zipAdd_length (a b : List ℚ) : (zipAdd a b).length = min a.length b.length := by
  simp [zipAdd]

theorem mem_zipAdd (a b : List ℚ) (q : ℚ) (h : q ∈ zipAdd a b) :
    ∃ x ∈ a, ∃ y ∈ b, q = x + y := by
  induction a generalizing b with
  | nil => simp [zipAdd] at h
  | cons x xs ih =>
    cases b with
    | nil => simp [zipAdd] at h
    | cons y ys =>
      simp only [zipAdd, List.zipWith_cons_cons, List.mem_cons] at h
      rcases h with rfl | h
      · exact ⟨x, by simp, y, by simp, rfl⟩
      · obtain ⟨x', hx, y', hy, rfl⟩ := ih ys h
        exact ⟨x', by simp [hx], y', by simp [hy], rfl⟩

theorem getD_set_self (l : List ℚ) (i : ℕ) (hi : i < l.length) :
    l.set i (l.getD i 0) = l := by
  induction l generalizing i with
  | nil => simp at hi
  | cons x xs ih =>
    cases i with
    | zero => simp
    | succ n =>
      have h2 := ih n (by simpa using hi)
      simp only [List.getD_cons_succ, List.set_cons_succ, h2]

theorem mem_set_elim (l : List ℚ) (i : ℕ) (v q : ℚ) (h : q ∈ l.set i v) :
    q = v ∨ q ∈ l := by
  induction l generalizing i with
  | nil => simp at h
  | cons x xs ih =>
    cases i with
    | zero =>
      simp only [List.set_cons_zero, List.mem_cons] at h
      rcases h with rfl | h
      · exact Or.inl rfl
      · exact Or.inr (List.mem_cons_of_mem _ h)
    | succ n =>
      simp only [List.set_cons_succ, List.mem_cons] at h
      rcases h with rfl | h
      · exact Or.inr (List.mem_cons_self _ _)
      · rcases ih n h with h' | h'
        · exact Or.inl h'
        · exact Or.inr (List.mem_cons_of_mem _ h')

theorem getD_set_eq (l : List ℚ) (i : ℕ) (v : ℚ) (hi : i < l.length) :
    (l.set i v).getD i 0 = v := by
  induction l generalizing i with
  | nil => simp at hi
  | cons x xs ih =>
    cases i with
    | zero => simp
    | succ n =>
      have h2 := ih n (by simpa using hi)
      simp only [List.set_cons_succ, List.getD_cons_succ, h2]

theorem getD_set_ne (l : List ℚ) (i j : ℕ) (v : ℚ) (hij : i ≠ j) :
    (l.set i v).getD j 0 = l.getD j 0 := by
  induction l generalizing i j with
  | nil => simp
  | cons x xs ih =>
    cases i with
    | zero =>
      cases j with
      | zero => exact absurd rfl hij
      | succ m => simp
    | succ n =>
      cases j with
      | zero => simp
      | succ m => simpa using ih n m (by omega)

theorem modifyAt_length (i : ℕ) (f : Row → Row) (l : List Row) :
    (modifyAt i f l).length = l.length := by
  induction l generalizing i with
  | nil => simp [modifyAt]
  | cons x xs ih =>
    cases i with
    | zero => simp [modifyAt]
    | succ n => simp [modifyAt, ih n]

theorem modifyAt_ge (i : ℕ) (f : Row → Row) (l : List Row) (h : l.length ≤ i) :
    modifyAt i f l = l := by
  induction l generalizing i with
  | nil => simp [modifyAt]
  | cons x xs ih =>
    cases i with
    | zero => simp at h
    | succ n => simp [modifyAt, ih n (by simpa using h)]

theorem getRow_modifyAt_eq (i : ℕ) (f : Row → Row) (l : List Row)
    (hi : i < l.length) : getRow (modifyAt i f l) i = f (getRow l i) := by
  induction l generalizing i with
  | nil => simp at hi
  | cons x xs ih =>
    cases i with
    | zero => simp [modifyAt, getRow]
    | succ n =>
      simp only [modifyAt, getRow, List.getD_cons_succ]
      exact ih n (by simpa using hi)

theorem getRow_modifyAt_ne (i j : ℕ) (f : Row → Row) (l : List Row)
    (hij : i ≠ j) : getRow (modifyAt i f l) j = getRow l j := by
  induction l generalizing i j with
  | nil => simp [modifyAt]
  | cons x xs ih =>
    cases i with
    | zero =>
      cases j with
      | zero => exact absurd rfl hij
      | succ m => simp [modifyAt, getRow]
    | succ n =>
      cases j with
      | zero => simp [modifyAt, getRow]
      | succ m =>
        simp only [modifyAt, getRow, List.getD_cons_succ]
        exact ih n m (by omega)

theorem mem_modifyAt_elim (i : ℕ) (f : Row → Row) (l : List Row) (r : Row)
    (h : r ∈ modifyAt i f l) : (∃ x ∈ l, r = f x) ∨ r ∈ l := by
  induction l generalizing i with
  | nil => simp [modifyAt] at h
  | cons x xs ih =>
    cases i with
    | zero =>
      simp only [modifyAt, List.mem_cons] at h
      rcases h with rfl | h
      · exact Or.inl ⟨x, by simp, rfl⟩
      · exact Or.inr (List.mem_cons_of_mem _ h)
    | succ n =>
      simp only [modifyAt, List.mem_cons] at h
      rcases h with rfl | h
      · exact Or.inr (List.mem_cons_self _ _)
      · rcases ih n h with ⟨y, hy, rfl⟩ | h'
        · exact Or.inl ⟨y, List.mem_cons_of_mem _ hy, rfl⟩
        · exact Or.inr (List.mem_cons_of_mem _ h')

theorem foldl_preserve {α β : Type _} {P : β → Prop} (f : β → α → β)
    (l : List α) (init : β) (h : ∀ b, ∀ a ∈ l, P b → P (f b a)) (h0 : P init) :
    P (l.foldl f init) := by
  induction l generalizing init with
  | nil => simpa using h0
  | cons x xs ih =>
    simp only [List.foldl_cons]
    exact ih (f init x) (fun b a ha hb => h b a (List.mem_cons_of_mem _ ha) hb)
      (h init x (List.mem_cons_self _ _) h0)

/-! # Helper lemmas: the stable insertion sort -/

theorem insertBy_perm (le : α → α → Bool) (x : α) (l : List α) :
    (insertBy le x l).Perm (x :: l) := by
  induction l with
  | nil => exact List.Perm.refl _
  | cons y ys ih =>
    rw [insertBy]
    split_ifs with h
    · exact List.Perm.refl _
    · exact (List.Perm.cons y ih).trans (List.Perm.swap x y ys)

theorem sortBy_perm (le : α → α → Bool) (l : List α) : (sortBy le l).Perm l := by
  induction l with
  | nil => exact List.Perm.refl _
  | cons x xs ih =>
    exact (insertBy_perm le x (sortBy le xs)).trans (List.Perm.cons x ih)

theorem mem_sortBy (le : α → α → Bool) (l : List α) (x : α) :
    x ∈ sortBy le l ↔ x ∈ l := (sortBy_perm le l).mem_iff

theorem insertBy_pairwise_key (key : α → ℚ) (x : α) (l : List α)
    (h : l.Pairwise (fun a b => key b ≤ key a)) :
    (insertBy (fun a b => decide (key b ≤ key a)) x l).Pairwise
      (fun a b => key b ≤ key a) := by
  induction l with
  | nil => simp [insertBy]
  | cons y ys ih =>
    rw [List.pairwise_cons] at h
    rw [insertBy]
    split_ifs with hxy
    · rw [decide_eq_true_eq] at hxy
      refine List.pairwise_cons.mpr ⟨?_, List.pairwise_cons.mpr h⟩
      intro z hz
      rcases List.mem_cons.mp hz with rfl | hz'
      · exact hxy
      · exact le_trans (h.1 z hz') hxy
    · rw [decide_eq_true_eq] at hxy
      push_neg at hxy
      refine List.pairwise_cons.mpr ⟨?_, ih h.2⟩
      intro z hz
      rcases List.mem_cons.mp ((insertBy_perm _ x ys).mem_iff.mp hz) with rfl | h2
      · exact le_of_lt hxy
      · exact h.1 z h2

theorem sortBy_pairwise_key (key : α → ℚ) (l : List α) :
    (sortBy (fun a b => decide (key b ≤ key a)) l).Pairwise
      (fun a b => key b ≤ key a) := by
  induction l with
  | nil => simp [sortBy]
  | cons x xs ih => exact insertBy_pairwise_key key x _ ih

theorem insertBy_all_ge (key : α → ℚ) (x : α) (l : List α)
    (h : ∀ z ∈ l, key z ≤ key x) :
    insertBy (fun a b => decide (key b ≤ key a)) x l = x :: l := by
  cases l with
  | nil => rfl
  | cons y ys =>
    rw [insertBy, if_pos]
    exact decide_eq_true (h y (List.mem_cons_self _ _))

theorem filter_insertBy_key (key : α → ℚ) (p : α → Bool) (x : α) (l : List α)
    (hs : l.Pairwise (fun a b => key b ≤ key a)) :
    (insertBy (fun a b => decide (key b ≤ key a)) x l).filter p =
      if p x then insertBy (fun a b => decide (key b ≤ key a)) x (l.filter p)
      else l.filter p := by
  induction l with
  | nil =>
    rw [insertBy]
    simp only [List.filter_cons, List.filter_nil]
    split_ifs <;> rfl
  | cons y ys ih =>
    rw [List.pairwise_cons] at hs
    by_cases hxy : key y ≤ key x
    · rw [insertBy, if_pos (decide_eq_true hxy)]
      by_cases hpx : p x = true
      · rw [if_pos hpx, List.filter_cons, List.filter_cons, hpx]
        simp only [if_true]
        by_cases hpy : p y = true
        · rw [hpy]
          simp only [if_true]
          rw [insertBy, if_pos (decide_eq_true hxy)]
        · rw [Bool.not_eq_true] at hpy
          rw [hpy]
          simp only [Bool.false_eq_true, if_false]
          rw [insertBy_all_ge]
          intro z hz
          exact le_trans (hs.1 z (List.mem_of_mem_filter hz)) hxy
      · rw [Bool.not_eq_true] at hpx
        rw [hpx]
        simp only [Bool.false_eq_true, if_false, List.filter_cons, hpx]
    · rw [insertBy, if_neg (by simpa using hxy)]
      rw [List.filter_cons]
      by_cases hpy : p y = true
      · rw [hpy]
        simp only [if_true, List.filter_cons, hpy]
        rw [ih hs.2]
        by_cases hpx : p x = true
        · rw [if_pos hpx, if_pos hpx, insertBy, if_neg (by simpa using hxy)]
        · rw [Bool.not_eq_true] at hpx
          rw [hpx]
          simp only [Bool.false_eq_true, if_false, if_true]
      · rw [Bool.not_eq_true] at hpy
        rw [hpy]
        simp only [Bool.false_eq_true, if_false, List.filter_cons, hpy]
        rw [ih hs.2]

theorem filter_sortBy_key (key : α → ℚ) (p : α → Bool) (l : List α) :
    (sortBy (fun a b => decide (key b ≤ key a)) l).filter p =
      sortBy (fun a b => decide (key b ≤ key a)) (l.filter p) := by
  induction l with
  | nil => rfl
  | cons x xs ih =>
    have h1 : sortBy (fun a b => decide (key b ≤ key a)) (x :: xs) =
        insertBy (fun a b => decide (key b ≤ key a)) x
          (sortBy (fun a b => decide (key b ≤ key a)) xs) := rfl
    rw [h1, filter_insertBy_key key p x _ (sortBy_pairwise_key key xs),
      List.filter_cons]
    by_cases hpx : p x = true
    · rw [hpx, ih]
      simp only [if_true]
      rfl
    · rw [Bool.not_eq_true] at hpx
      rw [hpx, ih]
      simp

theorem claimMaxRow_eq_head (d : ℕ) (l : List (ℕ × Row)) :
    claimMaxRow d l =
      (sortBy (fun a b => decide (hourAt b.2 d ≤ hourAt a.2 d)) l).head? := by
  induction l with
  | nil => rfl
  | cons x xs ih =>
    have h1 : sortBy (fun a b => decide (hourAt b.2 d ≤ hourAt a.2 d)) (x :: xs) =
        insertBy (fun a b => decide (hourAt b.2 d ≤ hourAt a.2 d)) x
          (sortBy (fun a b => decide (hourAt b.2 d ≤ hourAt a.2 d)) xs) := rfl
    rw [h1, claimMaxRow, ih]
    cases hs : sortBy (fun a b => decide (hourAt b.2 d ≤ hourAt a.2 d)) xs with
    | nil => rfl
    | cons m rest =>
      simp only [List.head?_cons, insertBy, decide_eq_true_eq]
      split_ifs with hc <;> simp

/-! # Helper lemmas: per-cell sums -/

theorem sumAt_nil (e : String) (d : ℕ) : sumAt [] e d = 0 := rfl

theorem sumAt_cons (r : Row) (l : List Row) (e : String) (d : ℕ) :
    sumAt (r :: l) e d = (if r.earning = e then hourAt r d else 0) + sumAt l e d := by
  rw [sumAt, sumAt, List.filter_cons]
  by_cases h : r.earning = e
  · rw [if_pos h, if_pos (by simpa using h)]
    simp
  · rw [if_neg h, if_neg (by simpa using h)]
    simp

theorem sumAt_append (a b : List Row) (e : String) (d : ℕ) :
    sumAt (a ++ b) e d = sumAt a e d + sumAt b e d := by
  simp [sumAt, List.filter_append]

theorem setHour_earning (d : ℕ) (v : ℚ) (r : Row) :
    (setHour d v r).earning = r.earning := rfl

theorem hourAt_setHour_eq (d : ℕ) (v : ℚ) (r : Row) (hd : d < r.hours.length) :
    hourAt (setHour d v r) d = v := getD_set_eq r.hours d v hd

theorem hourAt_setHour_ne (d d' : ℕ) (v : ℚ) (r : Row) (h : d ≠ d') :
    hourAt (setHour d v r) d' = hourAt r d' := getD_set_ne r.hours d d' v h

theorem sumAt_modifyAt (l : List Row) (i : ℕ) (f : Row → Row) (e : String)
    (d : ℕ) (hi : i < l.length)
    (hearn : (f (getRow l i)).earning = (getRow l i).earning) :
    sumAt (modifyAt i f l) e d =
      sumAt l e d + (if (getRow l i).earning = e
        then hourAt (f (getRow l i)) d - hourAt (getRow l i) d else 0) := by
  induction l generalizing i with
  | nil => simp at hi
  | cons x xs ih =>
    cases i with
    | zero =>
      have hg : getRow (x :: xs) 0 = x := rfl
      rw [hg] at hearn ⊢
      show sumAt (f x :: xs) e d = _
      rw [sumAt_cons, sumAt_cons, hearn]
      by_cases h : x.earning = e
      · rw [if_pos h, if_pos h, if_pos h]; ring
      · rw [if_neg h, if_neg h, if_neg h]; ring
    | succ n =>
      have hg : getRow (x :: xs) (n + 1) = getRow xs n := rfl
      rw [hg] at hearn ⊢
      show sumAt (x :: modifyAt n f xs) e d = _
      rw [sumAt_cons, sumAt_cons, ih n (by simpa using hi) hearn]
      ring

theorem sumAt_modifyAt_setHour_other_col (l : List Row) (i d d' : ℕ) (v : ℚ)
    (e : String) (h : d ≠ d') :
    sumAt (modifyAt i (fun r => setHour d v r) l) e d' = sumAt l e d' := by
  rcases lt_or_le i l.length with hi | hi
  · rw [sumAt_modifyAt l i _ e d' hi (setHour_earning _ _ _)]
    rw [hourAt_setHour_ne d d' v _ h]
    simp
  · rw [modifyAt_ge i _ l hi]

theorem sumAt_modifyAt_other_earning (l : List Row) (i : ℕ) (f : Row → Row)
    (e : String) (d : ℕ)
    (hearn : (f (getRow l i)).earning = (getRow l i).earning)
    (h : (getRow l i).earning ≠ e) :
    sumAt (modifyAt i f l) e d = sumAt l e d := by
  rcases lt_or_le i l.length with hi | hi
  · rw [sumAt_modifyAt l i _ e d hi hearn, if_neg h]
    ring
  · rw [modifyAt_ge i _ l hi]

/-! # Helper lemmas: quarter values are preserved -/

theorem allQuarter_roundAllRows (rows : List Row) : AllQuarter (roundAllRows rows) := by
  intro r hr q hq
  rw [roundAllRows] at hr
  obtain ⟨r', _, rfl⟩ := List.mem_map.mp hr
  obtain ⟨q', _, rfl⟩ := List.mem_map.mp hq
  exact roundQuarter_isQuarter q'

theorem allQuarter_modifyAt_round (l : List Row) (i d : ℕ) (g : Row → ℚ)
    (h : AllQuarter l) :
    AllQuarter (modifyAt i (fun r => setHour d (roundQuarter (g r)) r) l) := by
  intro r hr q hq
  rcases mem_modifyAt_elim i _ l r hr with ⟨y, hy, rfl⟩ | hr'
  · rcases mem_set_elim y.hours d (roundQuarter (g y)) q hq with rfl | hq'
    · exact roundQuarter_isQuarter (g y)
    · exact h y hy q hq'
  · exact h r hr' q hq

theorem adjustWalk_nil (d : ℕ) (rem : ℚ) (res : List Row) :
    adjustWalk d [] rem res = res := rfl

theorem adjustWalk_cons (d i : ℕ) (recv : ℚ) (rest : List (ℕ × ℚ)) (rem : ℚ)
    (res : List Row) :
    adjustWalk d ((i, recv) :: rest) rem res =
      if |rem| < 1/1000 then res
      else if 0 < rem then
        modifyAt i (fun r => setHour d (roundQuarter (hourAt r d + rem)) r) res
      else if -rem ≤ recv then
        modifyAt i (fun r => setHour d (roundQuarter (hourAt r d + rem)) r) res
      else if 0 < recv then
        adjustWalk d rest (rem + recv)
          (modifyAt i (fun r => setHour d (roundQuarter (hourAt r d - recv)) r) res)
      else adjustWalk d rest rem res := rfl

theorem allQuarter_adjustWalk (d : ℕ) (L : List (ℕ × ℚ)) (rem : ℚ)
    (res : List Row) (h : AllQuarter res) :
    AllQuarter (adjustWalk d L rem res) := by
  induction L generalizing rem res with
  | nil => rw [adjustWalk_nil]; exact h
  | cons x rest ih =>
    obtain ⟨i, recv⟩ := x
    rw [adjustWalk_cons]
    by_cases h1 : |rem| < 1/1000
    · rw [if_pos h1]; exact h
    · rw [if_neg h1]
      by_cases h2 : 0 < rem
      · rw [if_pos h2]; exact allQuarter_modifyAt_round _ _ _ _ h
      · rw [if_neg h2]
        by_cases h3 : -rem ≤ recv
        · rw [if_pos h3]; exact allQuarter_modifyAt_round _ _ _ _ h
        · rw [if_neg h3]
          by_cases h4 : 0 < recv
          · rw [if_pos h4]
            exact ih _ _ (allQuarter_modifyAt_round _ _ _ _ h)
          · rw [if_neg h4]; exact ih _ _ h

theorem adjustCell_eq (snapshot : List Row) (e : String) (d : ℕ)
    (origS curS : ℚ) (res : List Row) :
    adjustCell snapshot e d origS curS res =
      if 1/1000 < |origS - curS| then
        if 0 < origS - curS then
          adjustWalk d
            ((sortBy (fun a b => decide (hourAt b.2 d ≤ hourAt a.2 d))
              (enumEarning e res)).map (fun p => (p.1, hourAt p.2 d)))
            (origS - curS) res
        else
          adjustWalk d
            (sortBy (fun a b => decide (b.2 ≤ a.2))
              (((enumEarning e res).map (fun p =>
                (p.1, hourAt p.2 d - snapshotHours snapshot p.2.code e d))).filter
                  (fun t => decide (1/1000 < t.2))))
            (origS - curS) res
      else res := rfl

theorem allQuarter_adjustCell (snapshot : List Row) (e : String) (d : ℕ)
    (origS curS : ℚ) (res : List Row) (h : AllQuarter res) :
    AllQuarter (adjustCell snapshot e d origS curS res) := by
  rw [adjustCell_eq]
  by_cases h1 : 1/1000 < |origS - curS|
  · rw [if_pos h1]
    by_cases h2 : 0 < origS - curS
    · rw [if_pos h2]; exact allQuarter_adjustWalk _ _ _ _ h
    · rw [if_neg h2]; exact allQuarter_adjustWalk _ _ _ _ h
  · rw [if_neg h1]; exact h

theorem allQuarter_reconcile (snapshot virtuals selected : List Row) (D : ℕ)
    (res0 : List Row) (h : AllQuarter res0) :
    AllQuarter (reconcile snapshot virtuals selected D res0) := by
  rw [reconcile]
  apply foldl_preserve
  · intro res e _ hres
    split_ifs with hc
    · apply foldl_preserve
      · intro res2 d _ hres2
        exact allQuarter_adjustCell _ _ _ _ _ _ hres2
      · exact hres
    · exact hres
  · exact h

theorem allQuarter_reconciledResult (inp : LedgerInput) :
    AllQuarter (reconciledResult inp) := by
  rw [reconciledResult]
  exact allQuarter_reconcile _ _ _ _ _ (allQuarter_roundAllRows _)

/-! # Claims C9, C10, C5, C6, C4 -/

theorem length_get_distribution_weights (rs : List Row) :
    (get_distribution_weights rs).length = rs.length := by
  simp only [get_distribution_weights]
  split_ifs <;> simp

/-- C9: for a non-empty Target set, each row's weight is its total hours
over the full date range divided by the sum of all Target rows' totals;
when that sum is zero, each weight is `1/N`. -/
theorem C9_distribution_weights (rs : List Row) (hne : rs ≠ []) (i : ℕ)
    (hi : i < rs.length) :
    ((rs.map totalHours).sum = 0 →
      (get_distribution_weights rs).getD i 0 = 1 / (rs.length : ℚ)) ∧
    ((rs.map totalHours).sum ≠ 0 →
      (get_distribution_weights rs).getD i 0 =
        totalHours (getRow rs i) / (rs.map totalHours).sum) := by
  constructor
  · intro h0
    simp only [get_distribution_weights, if_pos h0]
    rw [List.getD_eq_getElem?_getD, List.getElem?_map,
      List.getElem?_eq_getElem hi]
    rfl
  · intro h0
    simp only [get_distribution_weights, if_neg h0]
    rw [List.getD_eq_getElem?_getD, List.getElem?_map, List.getElem?_map,
      List.getElem?_eq_getElem hi]
    simp only [Option.map_some', Option.getD_some]
    rw [getRow, List.getD_eq_getElem?_getD, List.getElem?_eq_getElem hi]
    rfl

/-- C9 witness: two rows with totals 30 and 10 get weights 3/4 and 1/4. -/
theorem C9_witness :
    exC9 ≠ [] ∧ 1 < exC9.length ∧ (exC9.map totalHours).sum ≠ 0 ∧
    (get_distribution_weights exC9).getD 1 0 =
      totalHours (getRow exC9 1) / (exC9.map totalHours).sum :=
  ⟨by decide, by decide, by decide,
    (C9_distribution_weights exC9 (by decide) 1 (by decide)).2 (by decide)⟩

/-- C10: a row whose Project ID is the reserved identifier P100001 is
classified Excepted whatever its Code's prorate flag says (flag 1 or a
missing entry included), is excluded from the Virtual and Real sets (so it
neither gives nor receives redistributed hours), and reappears unchanged
in the output ledger. -/
theorem C10_reserved_project_excepted (inp : LedgerInput) (r : Row)
    (hr : r ∈ inp.rows) (hp : r.projectId = "P100001") :
    prorateOf inp.table r = -1 ∧
    r ∈ exceptedRows inp.table inp.rows ∧
    r ∉ virtualRows inp.table inp.rows ∧
    r ∉ realRows inp.table inp.rows ∧
    (∀ out, redistribute_hours_by_earning inp = some out → r ∈ out) := by
  have hpro : prorateOf inp.table r = -1 := by rw [prorateOf, if_pos hp]
  refine ⟨hpro, ?_, ?_, ?_, ?_⟩
  · rw [exceptedRows]
    exact List.mem_filter.mpr ⟨hr, by simp [hpro]⟩
  · intro hmem
    have h2 := (List.mem_filter.mp (by rwa [virtualRows] at hmem)).2
    simp [hpro] at h2
  · intro hmem
    have h2 := (List.mem_filter.mp (by rwa [realRows] at hmem)).2
    simp [hpro] at h2
  · intro out hout
    rw [redistribute_hours_by_earning] at hout
    split_ifs at hout
    rw [Option.some_inj] at hout
    subst hout
    apply List.mem_append_right
    rw [exceptedRows]
    exact List.mem_filter.mpr ⟨hr, by simp [hpro]⟩

/-- C10 witness: Code `E` is flagged Virtual (1) in the table, yet its
P100001 row passes through unchanged. -/
theorem C10_witness :
    exC10.table.lookup exC10row.code = some 1 ∧
    exC10row ∈ exC10.rows ∧ exC10row.projectId = "P100001" ∧
    exC10row ∈ exceptedRows exC10.table exC10.rows ∧
    exC10row ∉ virtualRows exC10.table exC10.rows ∧
    (∀ out, redistribute_hours_by_earning exC10 = some out → exC10row ∈ out) := by
  have h := C10_reserved_project_excepted exC10 exC10row (by decide) (by decide)
  exact ⟨by decide, by decide, by decide, h.2.1, h.2.2.1, h.2.2.2.2⟩

/-- C5: the output ledger is exactly the reconciled Target rows followed
by the Retained rows and the Excepted rows, the latter two carried over
from the input with identical hour values at every date (they are rows of
the input ledger, concatenated back only after reconciliation). -/
theorem C5_retained_excepted_unchanged (inp : LedgerInput) (out : List Row)
    (h : redistribute_hours_by_earning inp = some out) :
    out = reconciledResult inp ++ retainedOf inp.table inp.sel inp.rows ++
        exceptedRows inp.table inp.rows ∧
    (∀ r ∈ retainedOf inp.table inp.sel inp.rows, r ∈ inp.rows) ∧
    (∀ r ∈ exceptedRows inp.table inp.rows, r ∈ inp.rows) := by
  refine ⟨?_, ?_, ?_⟩
  · rw [redistribute_hours_by_earning] at h
    split_ifs at h
    exact (Option.some_inj.mp h).symm
  · intro r hr
    rw [retainedOf] at hr
    exact List.mem_of_mem_filter (List.mem_of_mem_filter hr)
  · intro r hr
    rw [exceptedRows] at hr
    exact List.mem_of_mem_filter hr

/-- C5 witness. -/
theorem C5_witness :
    redistribute_hours_by_earning exC5w =
      some ((redistribute_hours_by_earning exC5w).getD []) ∧
    (redistribute_hours_by_earning exC5w).getD [] =
      reconciledResult exC5w ++ retainedOf exC5w.table exC5w.sel exC5w.rows ++
        exceptedRows exC5w.table exC5w.rows :=
  ⟨by decide,
    (C5_retained_excepted_unchanged exC5w
      ((redistribute_hours_by_earning exC5w).getD []) (by decide)).1⟩

/-- C6 counterexample: Code `B` has no entry in the prorate table, yet
`redistribute_hours_by_earning` completes (no abort) and the `B` row is
present in the output, classified Real — the run does not fail with a
fatal configuration error. -/
theorem C6_counterexample :
    exC6.table.lookup "B" = none ∧
    redistribute_hours_by_earning exC6 ≠ none ∧
    exC6row ∈ (redistribute_hours_by_earning exC6).getD [] := by decide

/-- C6 (amended): a Code with no prorate entry is classified Real
(`fillna(0)`) and processing continues; the redistribution aborts with no
output only when the prorate table itself is empty (fails to load). -/
theorem C6_missing_code_defaults_real (inp : LedgerInput) (r : Row)
    (hp : r.projectId ≠ "P100001") (hm : inp.table.lookup r.code = none) :
    prorateOf inp.table r = 0 ∧
    (inp.table = [] → redistribute_hours_by_earning inp = none) := by
  constructor
  · rw [prorateOf, if_neg hp, hm]
    rfl
  · intro h0
    rw [redistribute_hours_by_earning, if_pos h0]

/-- C6 witness. -/
theorem C6_witness :
    exC6row.projectId ≠ "P100001" ∧ exC6.table.lookup exC6row.code = none ∧
    prorateOf exC6.table exC6row = 0 := by
  have h := C6_missing_code_defaults_real exC6 exC6row (by decide) (by decide)
  exact ⟨by decide, by decide, h.1⟩

/-- C4 counterexample: the output for `exC4` exists but contains an hour
value (the Retained row's 0.4 h) that is not a multiple of 0.25. -/
theorem C4_counterexample :
    redistribute_hours_by_earning exC4 ≠ none ∧
    ¬ (∀ r ∈ (redistribute_hours_by_earning exC4).getD [],
        ∀ q ∈ r.hours, IsQuarter q) := by decide

/-- C4 (amended): every hour value of the reconciled Target rows is always
a multiple of 0.25; Retained and Excepted rows keep their input values, so
when every input hour is quarter-aligned, every value of the whole output
ledger is an exact multiple of 0.25. -/
theorem C4_granularity (inp : LedgerInput) (out : List Row)
    (hq : QuarterInput inp) (h : redistribute_hours_by_earning inp = some out) :
    ∀ r ∈ out, ∀ q ∈ r.hours, IsQuarter q := by
  rw [redistribute_hours_by_earning] at h
  split_ifs at h
  rw [Option.some_inj] at h
  subst h
  intro r hr
  rcases List.mem_append.mp hr with hr1 | hr2
  · rcases List.mem_append.mp hr1 with hra | hrb
    · exact allQuarter_reconciledResult inp r hra
    · rw [retainedOf] at hrb
      exact hq r (List.mem_of_mem_filter (List.mem_of_mem_filter hrb))
  · rw [exceptedRows] at hr2
    exact hq r (List.mem_of_mem_filter hr2)

/-- C4 witness. -/
theorem C4_witness :
    QuarterInput exC4w ∧
    ∀ r ∈ (redistribute_hours_by_earning exC4w).getD [],
      ∀ q ∈ r.hours, IsQuarter q :=
  ⟨by decide, C4_granularity exC4w _ (by decide) (by decide)⟩

/-! # Claim C7: the regular-category branch -/

theorem addToFirstCode_cons_ne (c : String) (add : List ℚ) (r : Row)
    (l : List Row) (h : r.code ≠ c) :
    addToFirstCode c add (r :: l) = r :: addToFirstCode c add l := by
  rw [addToFirstCode, if_neg (by simpa using h)]

theorem addToFirstCode_cons_eq (c : String) (add : List ℚ) (r : Row)
    (l : List Row) (h : r.code = c) :
    addToFirstCode c add (r :: l) = { r with hours := zipAdd r.hours add } :: l := by
  rw [addToFirstCode, if_pos (by simpa using h)]

theorem regular_fold_cons_skip (v : Row) (pairs : List (Row × ℚ)) (r : Row)
    (l : List Row) (h : ∀ sw ∈ pairs, sw.1.code ≠ r.code) :
    pairs.foldl
      (fun res sw => addToFirstCode sw.1.code (scaleHours v.hours sw.2) res)
      (r :: l) =
    r :: pairs.foldl
      (fun res sw => addToFirstCode sw.1.code (scaleHours v.hours sw.2) res) l := by
  induction pairs generalizing l with
  | nil => rfl
  | cons p ps ih =>
    simp only [List.foldl_cons]
    rw [addToFirstCode_cons_ne _ _ _ _
      (fun hc => h p (List.mem_cons_self _ _) hc.symm)]
    exact ih (addToFirstCode p.1.code (scaleHours v.hours p.2) l)
      (fun sw hsw => h sw (List.mem_cons_of_mem _ hsw))

theorem regular_fold (v : Row) (pairs : List (Row × ℚ)) (pre extra : List Row)
    (hc : pre.map Row.code = pairs.map (fun sw => sw.1.code))
    (hN : (pairs.map (fun sw => sw.1.code)).Nodup) :
    pairs.foldl
      (fun res sw => addToFirstCode sw.1.code (scaleHours v.hours sw.2) res)
      (pre ++ extra) =
    (pre.zip (pairs.map Prod.snd)).map
      (fun pw => { pw.1 with hours := zipAdd pw.1.hours (scaleHours v.hours pw.2) })
      ++ extra := by
  induction pairs generalizing pre extra with
  | nil =>
    have hpre : pre = [] := by
      have h0 : pre.map Row.code = [] := by simpa using hc
      exact List.map_eq_nil_iff.mp h0
    subst hpre
    simp
  | cons p ps ih =>
    cases pre with
    | nil => simp at hc
    | cons r pre2 =>
      simp only [List.map_cons, List.cons.injEq] at hc
      simp only [List.map_cons, List.nodup_cons] at hN
      simp only [List.foldl_cons, List.cons_append]
      rw [addToFirstCode_cons_eq _ _ _ _ hc.1]
      have hskip : ∀ sw ∈ ps, sw.1.code ≠
          ({ r with hours := zipAdd r.hours (scaleHours v.hours p.2) } : Row).code := by
        intro sw hsw
        show sw.1.code ≠ r.code
        intro heq
        apply hN.1
        rw [← hc.1, ← heq]
        exact List.mem_map.mpr ⟨sw, hsw, rfl⟩
      rw [regular_fold_cons_skip v ps _ _ hskip, ih pre2 extra hc.2 hN.2]
      simp

/-- C7 counterexample: two selected Target rows share Code `A`; under the
code the whole regular allocation for that Code lands on the first row
([2],[1]), not the weight-proportional [1.5],[1.5] the claim promises for
each row. -/
theorem C7_counterexample :
    processVirtualRow exC7sel exC7v exC7sel ≠
      regularAllocByWeights exC7sel exC7v := by decide

/-- C7 (amended): provided the selected Target rows carry pairwise
distinct Codes, the regular-category branch adds
`virtualHours(date) × weight(targetRow)` onto each target row's own
entries (the rows of the result prefix whose codes are those of the
selected rows, in order), leaves any extra rows untouched, and creates no
new rows.  When Codes repeat, the whole allocation for a Code lands on the
first row bearing it. -/
theorem C7_regular_branch (selected extra : List Row) (v : Row)
    (hv : v.earning = "1") (hN : (selected.map Row.code).Nodup) :
    processVirtualRow selected v (selected ++ extra) =
      regularAllocByWeights selected v ++ extra ∧
    (processVirtualRow selected v (selected ++ extra)).length =
      selected.length + extra.length := by
  have hws : (get_distribution_weights selected).length = selected.length :=
    length_get_distribution_weights selected
  have hfst : (selected.zip (get_distribution_weights selected)).map
      (fun sw => sw.1.code) = selected.map Row.code := by
    have h1 : (selected.zip (get_distribution_weights selected)).map Prod.fst =
        selected := List.map_fst_zip _ _ (le_of_eq hws.symm)
    have h2 : ((selected.zip (get_distribution_weights selected)).map
        Prod.fst).map Row.code = selected.map Row.code := by rw [h1]
    rw [← h2, List.map_map]
    rfl
  have hsnd : (selected.zip (get_distribution_weights selected)).map Prod.snd =
      get_distribution_weights selected :=
    List.map_snd_zip _ _ (le_of_eq hws)
  have hmain : processVirtualRow selected v (selected ++ extra) =
      regularAllocByWeights selected v ++ extra := by
    simp only [processVirtualRow]
    rw [if_pos (by simp [hv])]
    rw [regular_fold v _ selected extra hfst.symm (by rw [hfst]; exact hN), hsnd]
    rfl
  refine ⟨hmain, ?_⟩
  rw [hmain]
  simp [regularAllocByWeights, hws]

/-- C7 witness: distinct Codes "A", "B" with weights 3/4 and 1/4. -/
theorem C7_witness :
    exC7v.earning = "1" ∧ (exC7wsel.map Row.code).Nodup ∧
    processVirtualRow exC7wsel exC7v (exC7wsel ++ []) =
      regularAllocByWeights exC7wsel exC7v ++ [] :=
  ⟨by decide, by decide,
    (C7_regular_branch exC7wsel [] exC7v (by decide) (by decide)).1⟩

/-! # Claim C8: the non-regular branch and the duplicate merge -/

theorem foldl_append_singleton {β : Type _} (f : β → Row) (pairs : List β)
    (res : List Row) :
    pairs.foldl (fun res2 sw => res2 ++ [f sw]) res = res ++ pairs.map f := by
  induction pairs generalizing res with
  | nil => simp
  | cons p ps ih => simp [ih]

theorem getD_replicate_zero (D d : ℕ) :
    (List.replicate D (0:ℚ)).getD d 0 = 0 := by
  induction D generalizing d with
  | zero => simp
  | succ n ih =>
    cases d with
    | zero => simp [List.replicate]
    | succ m => simpa [List.replicate] using ih m

theorem foldl_zipAdd_getD (D d : ℕ) (hd : d < D) (ls : List (List ℚ))
    (seed : List ℚ) (hseed : seed.length = D)
    (hls : ∀ l ∈ ls, l.length = D) :
    (ls.foldl zipAdd seed).getD d 0 =
      seed.getD d 0 + (ls.map (fun l => l.getD d 0)).sum := by
  induction ls generalizing seed with
  | nil => simp
  | cons l ls2 ih =>
    simp only [List.foldl_cons, List.map_cons, List.sum_cons]
    have hl : l.length = D := hls l (List.mem_cons_self _ _)
    have hlen : (zipAdd seed l).length = D := by
      rw [zipAdd_length, hseed, hl]
      simp
    rw [ih (zipAdd seed l) hlen (fun x hx => hls x (List.mem_cons_of_mem _ hx))]
    rw [zipAdd_getD seed l d (by omega) (by omega)]
    ring

theorem foldl_zipAdd_length (D : ℕ) (ls : List (List ℚ)) (seed : List ℚ)
    (hseed : seed.length = D) (hls : ∀ l ∈ ls, l.length = D) :
    (ls.foldl zipAdd seed).length = D := by
  induction ls generalizing seed with
  | nil => simpa using hseed
  | cons l ls2 ih =>
    simp only [List.foldl_cons]
    have hl : l.length = D := hls l (List.mem_cons_self _ _)
    exact ih (zipAdd seed l) (by rw [zipAdd_length, hseed, hl]; simp)
      (fun x hx => hls x (List.mem_cons_of_mem _ hx))

theorem sumHourLists_getD (D d : ℕ) (hd : d < D) (ls : List (List ℚ))
    (hls : ∀ l ∈ ls, l.length = D) :
    (sumHourLists D ls).getD d 0 = (ls.map (fun l => l.getD d 0)).sum := by
  rw [sumHourLists, foldl_zipAdd_getD D d hd ls _ (by simp) hls,
    getD_replicate_zero]
  ring

theorem sumHourLists_length (D : ℕ) (ls : List (List ℚ))
    (hls : ∀ l ∈ ls, l.length = D) :
    (sumHourLists D ls).length = D :=
  foldl_zipAdd_length D ls _ (by simp) hls

theorem rowKey_mk (k : String × String × String × String × String) (h : List ℚ) :
    rowKey
      { code := k.1, projectId := k.2.1, activityId := k.2.2.1,
        awardId := k.2.2.2.1, earning := k.2.2.2.2, hours := h } = k := by
  obtain ⟨a, b, c, d2, e⟩ := k
  rfl

theorem filter_map_key (g : (String × String × String × String × String) → Row)
    (hg : ∀ k, rowKey (g k) = k)
    (ks : List (String × String × String × String × String)) (hks : ks.Nodup)
    (k0 : String × String × String × String × String) :
    (ks.map g).filter (fun r => rowKey r == k0) =
      if k0 ∈ ks then [g k0] else [] := by
  induction ks with
  | nil => simp
  | cons a ks2 ih =>
    rw [List.nodup_cons] at hks
    rw [List.map_cons, List.filter_cons]
    by_cases ha : a = k0
    · subst ha
      rw [if_pos (by rw [hg]; exact beq_self_eq_true a)]
      rw [ih hks.2, if_neg hks.1, if_pos (List.mem_cons_self _ _)]
    · rw [if_neg (by rw [hg]; simpa using ha)]
      rw [ih hks.2]
      by_cases hk : k0 ∈ ks2
      · rw [if_pos hk, if_pos (List.mem_cons_of_mem _ hk)]
      · rw [if_neg hk, if_neg (by simp [ha, hk, List.mem_cons]; exact fun h => absurd h.symm ha)]

theorem mergeKeys_nodup (rows : List Row) :
    (sortBy (fun a b => (keyCmp a b).isLE) ((rows.map rowKey).dedup)).Nodup :=
  ((sortBy_perm _ _).nodup_iff).mpr (List.nodup_dedup _)

theorem mem_mergeKeys (rows : List Row)
    (k : String × String × String × String × String) :
    k ∈ sortBy (fun a b => (keyCmp a b).isLE) ((rows.map rowKey).dedup) ↔
      k ∈ rows.map rowKey := by
  rw [mem_sortBy, List.mem_dedup]

theorem mergeRows_sum_key (D : ℕ) (rows : List Row)
    (k : String × String × String × String × String) (d : ℕ)
    (hw : ∀ r ∈ rows, r.hours.length = D) (hd : d < D) :
    (((mergeRows D rows).filter (fun r => rowKey r == k)).map
      (fun r => hourAt r d)).sum =
    ((rows.filter (fun r => rowKey r == k)).map (fun r => hourAt r d)).sum := by
  rw [mergeRows]
  rw [filter_map_key _ (fun k2 => rowKey_mk k2 _) _ (mergeKeys_nodup rows) k]
  by_cases hk : k ∈ sortBy (fun a b => (keyCmp a b).isLE) ((rows.map rowKey).dedup)
  · rw [if_pos hk]
    simp only [List.map_cons, List.map_nil, List.sum_cons, List.sum_nil, add_zero]
    show (sumHourLists D ((rows.filter (fun r => rowKey r == k)).map Row.hours)).getD d 0 = _
    rw [sumHourLists_getD D d hd _ ?_]
    · rw [List.map_map]
      rfl
    · intro l hl
      obtain ⟨r, hr, rfl⟩ := List.mem_map.mp hl
      exact hw r (List.mem_of_mem_filter hr)
  · rw [if_neg hk]
    have hnone : rows.filter (fun r => rowKey r == k) = [] := by
      rw [List.filter_eq_nil_iff]
      intro r hr hcon
      apply hk
      rw [mem_mergeKeys]
      exact List.mem_map.mpr ⟨r, hr, by simpa using hcon⟩
    rw [hnone]

/-- C8: for a virtual row with a non-regular EarningCategory, one row per
selected Target row is synthesized — the target's identity with the
virtual row's EarningCategory — carrying
`virtualHours(date) × weight(targetRow)` at every date; and the
duplicate-merge step sums the date columns of all rows sharing an
identical identity (Code, ProjectID, ActivityID, AwardID,
EarningCategory), preserving each identity's per-date totals. -/
theorem C8_nonregular_synthesis_and_merge (selected : List Row) (v : Row)
    (res : List Row) (hv : v.earning ≠ "1") :
    processVirtualRow selected v res =
      res ++ (selected.zip (get_distribution_weights selected)).map
        (fun sw =>
          { sw.1 with
            earning := v.earning, hours := scaleHours v.hours sw.2 }) ∧
    ∀ (D : ℕ) (rows : List Row)
      (k : String × String × String × String × String) (d : ℕ),
      (∀ r ∈ rows, r.hours.length = D) → d < D →
      (((mergeRows D rows).filter (fun r => rowKey r == k)).map
        (fun r => hourAt r d)).sum =
      ((rows.filter (fun r => rowKey r == k)).map (fun r => hourAt r d)).sum := by
  constructor
  · simp only [processVirtualRow]
    rw [if_neg (by simpa using hv)]
    exact foldl_append_singleton _ _ _
  · intro D rows k d hw hd
    exact mergeRows_sum_key D rows k d hw hd

/-- C8 witness: a VACATION virtual row synthesizes per-target rows and the
merge preserves the VACATION totals. -/
theorem C8_witness :
    exC8v.earning ≠ "1" ∧
    processVirtualRow exC8sel exC8v exC8sel =
      exC8sel ++ (exC8sel.zip (get_distribution_weights exC8sel)).map
        (fun sw =>
          { sw.1 with
            earning := exC8v.earning, hours := scaleHours exC8v.hours sw.2 }) ∧
    (((mergeRows 1 (processVirtualRow exC8sel exC8v exC8sel)).filter
      (fun r => rowKey r == ("A", "PA", "1", "w", "V"))).map
        (fun r => hourAt r 0)).sum =
    (((processVirtualRow exC8sel exC8v exC8sel).filter
      (fun r => rowKey r == ("A", "PA", "1", "w", "V"))).map
        (fun r => hourAt r 0)).sum := by
  have h := C8_nonregular_synthesis_and_merge exC8sel exC8v exC8sel (by decide)
  exact ⟨by decide, h.1,
    h.2 1 (processVirtualRow exC8sel exC8v exC8sel) ("A", "PA", "1", "w", "V") 0
      (by decide) (by decide)⟩

/-! # Claim C2: the per-cell repair follows the described procedure -/

theorem set_ge (l : List ℚ) (i : ℕ) (v : ℚ) (h : l.length ≤ i) :
    l.set i v = l := by
  induction l generalizing i with
  | nil => simp
  | cons x xs ih =>
    cases i with
    | zero => simp at h
    | succ n => simp [ih n (by simpa using h)]

theorem getRow_mem (l : List Row) (i : ℕ) (hi : i < l.length) :
    getRow l i ∈ l := by
  rw [getRow, List.getD_eq_getElem?_getD, List.getElem?_eq_getElem hi]
  exact List.getElem_mem _

theorem modifyAt_fix (i : ℕ) (f : Row → Row) (l : List Row)
    (h : f (getRow l i) = getRow l i) : modifyAt i f l = l := by
  induction l generalizing i with
  | nil => simp [modifyAt]
  | cons x xs ih =>
    cases i with
    | zero =>
      have hx : f x = x := h
      show f x :: xs = x :: xs
      rw [hx]
    | succ n =>
      show x :: modifyAt n f xs = x :: xs
      rw [ih n h]

theorem setHour_round_sub_self (r : Row) (d : ℕ) (ε : ℚ)
    (hq : ∀ q ∈ r.hours, IsQuarter q) (hε : |ε| ≤ 1/1000) :
    setHour d (roundQuarter (hourAt r d - ε)) r = r := by
  rcases lt_or_le d r.hours.length with hd | hd
  · have hqd : IsQuarter (hourAt r d) := by
      apply hq
      rw [hourAt, List.getD_eq_getElem?_getD, List.getElem?_eq_getElem hd]
      exact List.getElem_mem _
    rw [setHour, roundQuarter_sub_small hqd hε]
    show ({ r with hours := r.hours.set d (hourAt r d) } : Row) = r
    rw [hourAt, getD_set_self r.hours d hd]
  · rw [setHour]
    show ({ r with hours := r.hours.set d _ } : Row) = r
    rw [set_ge r.hours d _ hd]

theorem modifyAt_round_sub_self (res : List Row) (i d : ℕ) (ε : ℚ)
    (hq : AllQuarter res) (hε : |ε| ≤ 1/1000) :
    modifyAt i (fun r => setHour d (roundQuarter (hourAt r d - ε)) r) res = res := by
  rcases lt_or_le i res.length with hi | hi
  · apply modifyAt_fix
    exact setHour_round_sub_self _ d ε (hq _ (getRow_mem res i hi)) hε
  · exact modifyAt_ge i _ res hi

theorem claimWalkNeg_nil (d : ℕ) (s : ℚ) (res : List Row) :
    claimWalkNeg d [] s res = res := rfl

theorem claimWalkNeg_cons (d i : ℕ) (recv : ℚ) (rest : List (ℕ × ℚ)) (s : ℚ)
    (res : List Row) :
    claimWalkNeg d ((i, recv) :: rest) s res =
      if recv ≤ 0 then claimWalkNeg d rest s res
      else if s ≤ recv then
        modifyAt i (fun r => setHour d (roundQuarter (hourAt r d - s)) r) res
      else
        claimWalkNeg d rest (s - recv)
          (modifyAt i (fun r => setHour d (roundQuarter (hourAt r d - recv)) r) res) := rfl

theorem claimWalkNeg_small (d : ℕ) (L : List (ℕ × ℚ)) (s : ℚ) (res : List Row)
    (hs0 : 0 < s) (hs : s ≤ 1/1000) (hq : AllQuarter res) :
    claimWalkNeg d L s res = res := by
  induction L generalizing s res with
  | nil => rfl
  | cons x rest ih =>
    obtain ⟨i, recv⟩ := x
    rw [claimWalkNeg_cons]
    by_cases h0 : recv ≤ 0
    · rw [if_pos h0]
      exact ih s res hs0 hs hq
    · rw [if_neg h0]
      by_cases hc : s ≤ recv
      · rw [if_pos hc]
        exact modifyAt_round_sub_self res i d s hq (by rw [abs_of_pos hs0]; exact hs)
      · rw [if_neg hc]
        push_neg at h0 hc
        rw [modifyAt_round_sub_self res i d recv hq
          (by rw [abs_of_pos h0]; linarith)]
        exact ih (s - recv) res (by linarith) (by linarith) hq

theorem claimWalkNeg_allSmall (d : ℕ) (L : List (ℕ × ℚ)) (s : ℚ)
    (res : List Row) (hL : ∀ t ∈ L, t.2 ≤ 1/1000) (hs0 : 0 < s)
    (hq : AllQuarter res) :
    claimWalkNeg d L s res = res := by
  induction L generalizing s res with
  | nil => rfl
  | cons x rest ih =>
    obtain ⟨i, recv⟩ := x
    have hrecv : recv ≤ 1/1000 := hL (i, recv) (List.mem_cons_self _ _)
    rw [claimWalkNeg_cons]
    by_cases h0 : recv ≤ 0
    · rw [if_pos h0]
      exact ih s res (fun t ht => hL t (List.mem_cons_of_mem _ ht)) hs0 hq
    · rw [if_neg h0]
      push_neg at h0
      by_cases hc : s ≤ recv
      · rw [if_pos hc]
        exact modifyAt_round_sub_self res i d s hq
          (by rw [abs_of_pos hs0]; linarith)
      · rw [if_neg hc]
        push_neg at hc
        rw [modifyAt_round_sub_self res i d recv hq
          (by rw [abs_of_pos h0]; linarith)]
        exact ih (s - recv) res (fun t ht => hL t (List.mem_cons_of_mem _ ht))
          (by linarith) hq

theorem adjustWalk_bigEntries_small (d : ℕ) (L : List (ℕ × ℚ)) (s : ℚ)
    (res : List Row) (hL : ∀ t ∈ L, 1/1000 < t.2) (hs0 : 0 < s)
    (hs : s ≤ 1/1000) (hq : AllQuarter res) :
    adjustWalk d L (-s) res = res := by
  cases L with
  | nil => rfl
  | cons x rest =>
    obtain ⟨i, recv⟩ := x
    have hrecv : 1/1000 < recv := hL (i, recv) (List.mem_cons_self _ _)
    rw [adjustWalk_cons]
    by_cases hb : |(-s)| < 1/1000
    · rw [if_pos hb]
    · rw [if_neg hb, if_neg (by linarith), if_pos (by rw [neg_neg]; linarith)]
      have hfun : (fun r => setHour d (roundQuarter (hourAt r d + -s)) r) =
          (fun r => setHour d (roundQuarter (hourAt r d - s)) r) := by
        funext r
        rw [sub_eq_add_neg]
      rw [hfun]
      exact modifyAt_round_sub_self res i d s hq (by rw [abs_of_pos hs0]; exact hs)

theorem walk_equiv (d : ℕ) (L : List (ℕ × ℚ)) :
    L.Pairwise (fun a b => b.2 ≤ a.2) → ∀ (s : ℚ) (res : List Row),
      1/1000 < s → AllQuarter res →
      claimWalkNeg d L s res =
        adjustWalk d (L.filter (fun t => decide (1/1000 < t.2))) (-s) res := by
  induction L with
  | nil =>
    intro _ s res _ _
    rfl
  | cons x rest ih =>
    rintro hsort s res hs hq
    obtain ⟨i, recv⟩ := x
    rw [List.pairwise_cons] at hsort
    by_cases hrecv : 1/1000 < recv
    · rw [List.filter_cons, if_pos (by simpa using hrecv)]
      rw [claimWalkNeg_cons]
      rw [if_neg (show ¬ recv ≤ 0 by push_neg; linarith)]
      rw [adjustWalk_cons]
      rw [if_neg (show ¬ (|(-s)| < 1/1000) by
        rw [abs_neg, abs_of_pos (show (0:ℚ) < s by linarith)]
        push_neg
        linarith)]
      rw [if_neg (show ¬ ((0:ℚ) < -s) by push_neg; linarith)]
      by_cases hcov : s ≤ recv
      · rw [if_pos hcov, if_pos (show -(-s) ≤ recv by rw [neg_neg]; exact hcov)]
        have hfun : (fun r => setHour d (roundQuarter (hourAt r d + -s)) r) =
            (fun r => setHour d (roundQuarter (hourAt r d - s)) r) := by
          funext r
          rw [sub_eq_add_neg]
        rw [hfun]
      · rw [if_neg hcov, if_neg (show ¬ (-(-s) ≤ recv) by rw [neg_neg]; exact hcov),
          if_pos (show (0:ℚ) < recv by linarith)]
        push_neg at hcov
        have harg : -s + recv = -(s - recv) := by ring
        rw [harg]
        have hq2 : AllQuarter (modifyAt i
            (fun r => setHour d (roundQuarter (hourAt r d - recv)) r) res) :=
          allQuarter_modifyAt_round res i d _ hq
        by_cases hs2 : 1/1000 < s - recv
        · exact ih hsort.2 (s - recv) _ hs2 hq2
        · push_neg at hs2
          rw [claimWalkNeg_small d rest (s - recv) _ (by linarith) hs2 hq2,
            adjustWalk_bigEntries_small d _ (s - recv) _ ?_ (by linarith) hs2 hq2]
          intro t ht
          have := List.of_mem_filter ht
          simpa using this
    · push_neg at hrecv
      rw [List.filter_cons, if_neg (by simpa using hrecv)]
      have hrest : rest.filter (fun t => decide (1/1000 < t.2)) = [] := by
        rw [List.filter_eq_nil_iff]
        intro t ht
        simp only [decide_eq_true_eq]
        push_neg
        exact le_trans (hsort.1 t ht) hrecv
      rw [hrest, adjustWalk_nil]
      exact claimWalkNeg_allSmall d ((i, recv) :: rest) s res
        (by
          intro t ht
          rcases List.mem_cons.mp ht with rfl | ht2
          · exact hrecv
          · exact le_trans (hsort.1 t ht2) hrecv)
        (by linarith) hq

theorem claimRepairCell_eq (snapshot : List Row) (e : String) (d : ℕ)
    (origS curS : ℚ) (res : List Row) :
    claimRepairCell snapshot e d origS curS res =
      if 0 < origS - curS then
        match claimMaxRow d (enumEarning e res) with
        | some p => modifyAt p.1
            (fun r => setHour d (roundQuarter (hourAt r d + (origS - curS))) r) res
        | none => res
      else
        claimWalkNeg d
          (sortBy (fun a b => decide (b.2 ≤ a.2))
            ((enumEarning e res).map (fun p =>
              (p.1, hourAt p.2 d - snapshotHours snapshot p.2.code e d))))
          (-(origS - curS)) res := rfl

/-- C2: on the states the Reconciler actually sees (every current hour
value is a multiple of 0.25, which holds after the global quarter
rounding), the per-cell repair of `redistribute_hours_by_earning` computes
exactly the procedure described by the claim: positive difference goes
wholly to the first row with the largest current hours and is re-rounded;
a negative difference is recovered by walking the candidate rows sorted by
received-from-prorate descending, subtracting the remaining shortfall or
the row's whole received amount, rounding after each subtraction, with
non-positive received rows giving nothing.  (The code additionally skips
rows whose received amount is a positive value `≤ 0.001` and stops once
the residual is `< 0.001`; on quarter-aligned states those rows' updates
round back to the unchanged value, so the results coincide.) -/
theorem C2_repair_cell_equiv (snapshot : List Row) (e : String) (d : ℕ)
    (origS curS : ℚ) (res : List Row) (hq : AllQuarter res)
    (hdiff : 1/1000 < |origS - curS|) :
    claimRepairCell snapshot e d origS curS res =
      adjustCell snapshot e d origS curS res := by
  rw [claimRepairCell_eq, adjustCell_eq, if_pos hdiff]
  by_cases hpos : 0 < origS - curS
  · rw [if_pos hpos, if_pos hpos]
    rw [claimMaxRow_eq_head]
    cases hs : sortBy (fun a b => decide (hourAt b.2 d ≤ hourAt a.2 d))
        (enumEarning e res) with
    | nil => rfl
    | cons p rest =>
      have hdiff2 : 1/1000 < origS - curS := by rwa [abs_of_pos hpos] at hdiff
      simp only [List.head?_cons, List.map_cons]
      rw [adjustWalk_cons]
      rw [if_neg (show ¬ (|origS - curS| < 1/1000) by push_neg; exact le_of_lt hdiff)]
      rw [if_pos hpos]
  · rw [if_neg hpos, if_neg hpos]
    have hneg : origS - curS < 0 := by
      rcases lt_or_eq_of_le (not_lt.mp hpos) with h | h
      · exact h
      · exfalso
        rw [h] at hdiff
        norm_num at hdiff
    have hs : 1/1000 < -(origS - curS) := by
      rw [abs_of_neg hneg] at hdiff
      exact hdiff
    rw [walk_equiv d _ (sortBy_pairwise_key (fun t : ℕ × ℚ => t.2) _) _ res hs hq]
    rw [filter_sortBy_key (fun t : ℕ × ℚ => t.2)
      (fun t => decide (1/1000 < t.2))
      ((enumEarning e res).map (fun p =>
        (p.1, hourAt p.2 d - snapshotHours snapshot p.2.code e d)))]
    rw [neg_neg]

/-- C2 witness: a concrete give-back cell (0.25 h too many) repaired
identically by the claim's procedure and the code's. -/
theorem C2_witness :
    AllQuarter exC2rows ∧ 1/1000 < |(7/4 : ℚ) - 2| ∧
    claimRepairCell exC2snap "1" 0 (7/4) 2 exC2rows =
      adjustCell exC2snap "1" 0 (7/4) 2 exC2rows :=
  ⟨by decide, by decide,
    C2_repair_cell_equiv exC2snap "1" 0 (7/4) 2 exC2rows (by decide) (by decide)⟩

/-! # Claims C1 and C3: arithmetic facts about quarter values -/

theorem IsQuarter.zero : IsQuarter (0 : ℚ) := ⟨0, by norm_num⟩

theorem IsQuarter.add {x y : ℚ} (hx : IsQuarter x) (hy : IsQuarter y) :
    IsQuarter (x + y) := by
  obtain ⟨k, rfl⟩ := hx
  obtain ⟨m, rfl⟩ := hy
  refine ⟨k + m, ?_⟩
  push_cast
  ring

theorem IsQuarter.neg {x : ℚ} (hx : IsQuarter x) : IsQuarter (-x) := by
  obtain ⟨k, rfl⟩ := hx
  refine ⟨-k, ?_⟩
  push_cast
  ring

theorem IsQuarter.sub {x y : ℚ} (hx : IsQuarter x) (hy : IsQuarter y) :
    IsQuarter (x - y) := by
  rw [sub_eq_add_neg]
  exact hx.add hy.neg

theorem IsQuarter.eq_zero_of_abs_le {x : ℚ} (hx : IsQuarter x)
    (h : |x| ≤ 1/1000) : x = 0 := by
  obtain ⟨k, rfl⟩ := hx
  have hk : |(k : ℚ)| ≤ 4/1000 := by
    rw [abs_div, abs_of_pos (by norm_num : (0:ℚ) < 4)] at h
    linarith [abs_nonneg (k : ℚ)]
  have hk2 : (k : ℚ) = 0 := by
    have h1 : -1 < (k : ℚ) := by
      rw [abs_le] at hk
      linarith [hk.1]
    have h2 : (k : ℚ) < 1 := by
      rw [abs_le] at hk
      linarith [hk.2]
    have h1' : (-1 : ℤ) < k := by exact_mod_cast h1
    have h2' : k < 1 := by exact_mod_cast h2
    have : k = 0 := by omega
    exact_mod_cast congrArg (fun n : ℤ => (n : ℚ)) this
  rw [hk2]
  norm_num

theorem IsQuarter.quarter_le_of_pos {x : ℚ} (hx : IsQuarter x) (h : 0 < x) :
    1/4 ≤ x := by
  obtain ⟨k, rfl⟩ := hx
  have hk : (0 : ℚ) < k := by linarith
  have hk1 : (1 : ℤ) ≤ k := by exact_mod_cast hk
  have : (1 : ℚ) ≤ (k : ℚ) := by exact_mod_cast hk1
  linarith

theorem IsQuarter.le_zero_of_le_millith {x : ℚ} (hx : IsQuarter x)
    (h : x ≤ 1/1000) : x ≤ 0 := by
  by_contra hpos
  push_neg at hpos
  have := hx.quarter_le_of_pos hpos
  linarith

theorem IsQuarter.gt_millith_of_pos {x : ℚ} (hx : IsQuarter x) (h : 0 < x) :
    1/1000 < x := by
  have := hx.quarter_le_of_pos h
  linarith

theorem getD_nonneg_of_forall (l : List ℚ) (d : ℕ) (h : ∀ q ∈ l, 0 ≤ q) :
    0 ≤ l.getD d 0 := by
  rcases lt_or_le d l.length with hd | hd
  · rw [List.getD_eq_getElem?_getD, List.getElem?_eq_getElem hd]
    exact h _ (List.getElem_mem _)
  · rw [List.getD_eq_getElem?_getD, List.getElem?_eq_none (by omega)]
    rfl

theorem getD_quarter_of_forall (l : List ℚ) (d : ℕ)
    (h : ∀ q ∈ l, IsQuarter q) : IsQuarter (l.getD d 0) := by
  rcases lt_or_le d l.length with hd | hd
  · rw [List.getD_eq_getElem?_getD, List.getElem?_eq_getElem hd]
    exact h _ (List.getElem_mem _)
  · rw [List.getD_eq_getElem?_getD, List.getElem?_eq_none (by omega)]
    exact IsQuarter.zero

/-! # Claims C1 and C3: per-cell sums through positions -/

theorem mem_enumFrom_elim (l : List Row) (n i : ℕ) (r : Row)
    (h : (i, r) ∈ List.enumFrom n l) :
    ∃ j, j < l.length ∧ i = n + j ∧ r = getRow l j := by
  induction l generalizing n with
  | nil => simp at h
  | cons x xs ih =>
    rw [List.enumFrom_cons, List.mem_cons] at h
    rcases h with h | h
    · simp only [Prod.mk.injEq] at h
      obtain ⟨rfl, rfl⟩ := h
      exact ⟨0, by simp, by omega, rfl⟩
    · obtain ⟨j, hj, hi, hr⟩ := ih (n + 1) h
      exact ⟨j + 1, by simpa using hj, by omega, by rw [hr]; rfl⟩

theorem mem_enumFrom_intro (l : List Row) (n j : ℕ) (hj : j < l.length) :
    (n + j, getRow l j) ∈ List.enumFrom n l := by
  induction l generalizing n j with
  | nil => simp at hj
  | cons x xs ih =>
    rw [List.enumFrom_cons, List.mem_cons]
    cases j with
    | zero => exact Or.inl (by simp [getRow])
    | succ m =>
      right
      have := ih (n + 1) m (by simpa using hj)
      have harith : n + 1 + m = n + (m + 1) := by omega
      rw [harith] at this
      exact this

theorem mem_enumEarning_elim (e : String) (res : List Row) (i : ℕ) (r : Row)
    (h : (i, r) ∈ enumEarning e res) :
    i < res.length ∧ r = getRow res i ∧ r.earning = e := by
  rw [enumEarning] at h
  have hmem := List.mem_of_mem_filter h
  have hearn := List.of_mem_filter h
  rw [List.enum] at hmem
  obtain ⟨j, hj, hi, hr⟩ := mem_enumFrom_elim res 0 i r hmem
  refine ⟨by omega, by rw [hr]; congr 1; omega, by simpa using hearn⟩

theorem mem_enumEarning_intro (e : String) (res : List Row) (j : ℕ)
    (hj : j < res.length) (he : (getRow res j).earning = e) :
    (j, getRow res j) ∈ enumEarning e res := by
  rw [enumEarning]
  apply List.mem_filter.mpr
  constructor
  · rw [List.enum]
    have := mem_enumFrom_intro res 0 j hj
    simpa using this
  · simpa using he

theorem enumFrom_filter_map {α : Type _} (f : Row → α) (q : Row → Bool)
    (n : ℕ) (l : List Row) :
    ((List.enumFrom n l).filter (fun p => q p.2)).map (fun p => f p.2) =
      (l.filter q).map f := by
  induction l generalizing n with
  | nil => rfl
  | cons x xs ih =>
    rw [List.enumFrom_cons, List.filter_cons, List.filter_cons]
    by_cases hx : q x = true
    · rw [if_pos (by simpa using hx), if_pos hx]
      simp only [List.map_cons]
      rw [ih (n + 1)]
    · rw [if_neg (by simpa using hx), if_neg hx]
      exact ih (n + 1)

theorem enumEarning_map_snd {α : Type _} (e : String) (res : List Row)
    (f : Row → α) :
    (enumEarning e res).map (fun p => f p.2) =
      (res.filter (fun r => r.earning == e)).map f := by
  rw [enumEarning, List.enum]
  exact enumFrom_filter_map f (fun r => r.earning == e) 0 res

theorem sumAt_eq_enum_sum (res : List Row) (e : String) (d : ℕ) :
    sumAt res e d = ((enumEarning e res).map (fun p => hourAt p.2 d)).sum := by
  rw [sumAt]
  exact congrArg List.sum (enumEarning_map_snd e res (fun r => hourAt r d)).symm

theorem enumEarning_fst_nodup (e : String) (res : List Row) :
    ((enumEarning e res).map Prod.fst).Nodup := by
  have h1 : (enumEarning e res).Sublist res.enum := List.filter_sublist _
  have h2 : ((enumEarning e res).map Prod.fst).Sublist (res.enum.map Prod.fst) :=
    h1.map _
  apply h2.nodup
  rw [List.enum_map_fst]
  exact List.nodup_range _

theorem sumAt_congr (a b : List Row) (e : String) (d : ℕ)
    (hlen : a.length = b.length)
    (hearn : ∀ i < a.length, (getRow a i).earning = (getRow b i).earning)
    (hval : ∀ i < a.length, (getRow a i).earning = e →
      hourAt (getRow a i) d = hourAt (getRow b i) d) :
    sumAt a e d = sumAt b e d := by
  induction a generalizing b with
  | nil =>
    cases b with
    | nil => rfl
    | cons y ys => simp at hlen
  | cons x xs ih =>
    cases b with
    | nil => simp at hlen
    | cons y ys =>
      have h0e : x.earning = y.earning := hearn 0 (by simp)
      rw [sumAt_cons, sumAt_cons, h0e]
      have htail : sumAt xs e d = sumAt ys e d := by
        apply ih ys (by simpa using hlen)
        · intro i hi
          exact hearn (i + 1) (by simpa using hi)
        · intro i hi he2
          exact hval (i + 1) (by simpa using hi) he2
      rw [htail]
      by_cases hxe : y.earning = e
      · rw [if_pos hxe]
        have hv0 : hourAt x d = hourAt y d :=
          hval 0 (by simp) (by show x.earning = e; rw [h0e]; exact hxe)
        rw [hv0, if_pos hxe]
      · rw [if_neg hxe, if_neg hxe]

theorem sum_map_sub {α : Type _} (l : List α) (f g : α → ℚ) :
    (l.map (fun x => f x - g x)).sum = (l.map f).sum - (l.map g).sum := by
  induction l with
  | nil => simp
  | cons x xs ih =>
    simp only [List.map_cons, List.sum_cons, ih]
    ring

theorem sum_map_filter_split {α : Type _} (l : List α) (p : α → Bool)
    (f : α → ℚ) :
    (l.map f).sum = ((l.filter p).map f).sum +
      ((l.filter (fun x => !(p x))).map f).sum := by
  induction l with
  | nil => simp
  | cons x xs ih =>
    rw [List.map_cons, List.sum_cons, List.filter_cons, List.filter_cons]
    by_cases hx : p x = true
    · rw [if_pos hx, if_neg (by simp [hx])]
      simp only [List.map_cons, List.sum_cons]
      rw [ih]
      ring
    · rw [if_neg hx, if_pos (by simp [Bool.not_eq_true] at hx; simp [hx])]
      simp only [List.map_cons, List.sum_cons]
      rw [ih]
      ring

theorem sum_nonpos_list (l : List ℚ) (h : ∀ x ∈ l, x ≤ 0) : l.sum ≤ 0 := by
  induction l with
  | nil => simp
  | cons x xs ih =>
    rw [List.sum_cons]
    have h1 := h x (List.mem_cons_self _ _)
    have h2 := ih (fun y hy => h y (List.mem_cons_of_mem _ hy))
    linarith

theorem sum_nonneg_list (l : List ℚ) (h : ∀ x ∈ l, 0 ≤ x) : 0 ≤ l.sum := by
  induction l with
  | nil => simp
  | cons x xs ih =>
    rw [List.sum_cons]
    have h1 := h x (List.mem_cons_self _ _)
    have h2 := ih (fun y hy => h y (List.mem_cons_of_mem _ hy))
    linarith

/-! # Claims C1 and C3: frame and accounting lemmas for the repair walk -/

theorem hourAt_modifyAt_other_col (res : List Row) (i j d d' : ℕ)
    (w : Row → ℚ) (hdd : d ≠ d') :
    hourAt (getRow (modifyAt i (fun r => setHour d (w r) r) res) j) d' =
      hourAt (getRow res j) d' := by
  rcases lt_or_le i res.length with hi | hi
  · by_cases hij : i = j
    · subst hij
      rw [getRow_modifyAt_eq i _ res hi]
      exact hourAt_setHour_ne d d' _ _ hdd
    · rw [getRow_modifyAt_ne i j _ res hij]
  · rw [modifyAt_ge i _ res hi]

theorem adjustWalk_other_col (d : ℕ) (L : List (ℕ × ℚ)) (rem : ℚ)
    (res : List Row) (j d' : ℕ) (hdd : d ≠ d') :
    hourAt (getRow (adjustWalk d L rem res) j) d' = hourAt (getRow res j) d' := by
  induction L generalizing rem res with
  | nil => rw [adjustWalk_nil]
  | cons x rest ih =>
    obtain ⟨i, recv⟩ := x
    rw [adjustWalk_cons]
    by_cases h1 : |rem| < 1/1000
    · rw [if_pos h1]
    · rw [if_neg h1]
      by_cases h2 : 0 < rem
      · rw [if_pos h2]
        exact hourAt_modifyAt_other_col res i j d d' _ hdd
      · rw [if_neg h2]
        by_cases h3 : -rem ≤ recv
        · rw [if_pos h3]
          exact hourAt_modifyAt_other_col res i j d d' _ hdd
        · rw [if_neg h3]
          by_cases h4 : 0 < recv
          · rw [if_pos h4, ih]
            exact hourAt_modifyAt_other_col res i j d d' _ hdd
          · rw [if_neg h4, ih]

theorem adjustWalk_not_mem_pos (d : ℕ) (L : List (ℕ × ℚ)) (rem : ℚ)
    (res : List Row) (j : ℕ) (hj : j ∉ L.map Prod.fst) :
    getRow (adjustWalk d L rem res) j = getRow res j := by
  induction L generalizing rem res with
  | nil => rw [adjustWalk_nil]
  | cons x rest ih =>
    obtain ⟨i, recv⟩ := x
    simp only [List.map_cons, List.mem_cons] at hj
    push_neg at hj
    have hij : i ≠ j := fun h => hj.1 h.symm
    have hrest : j ∉ rest.map Prod.fst := hj.2
    rw [adjustWalk_cons]
    by_cases h1 : |rem| < 1/1000
    · rw [if_pos h1]
    · rw [if_neg h1]
      by_cases h2 : 0 < rem
      · rw [if_pos h2]
        exact getRow_modifyAt_ne i j _ res hij
      · rw [if_neg h2]
        by_cases h3 : -rem ≤ recv
        · rw [if_pos h3]
          exact getRow_modifyAt_ne i j _ res hij
        · rw [if_neg h3]
          by_cases h4 : 0 < recv
          · rw [if_pos h4, ih _ _ hrest]
            exact getRow_modifyAt_ne i j _ res hij
          · rw [if_neg h4, ih _ _ hrest]

theorem sameShape_modifyAt_setHour (res res0 : List Row) (i d : ℕ)
    (w : Row → ℚ) (h : SameShape res res0) :
    SameShape (modifyAt i (fun r => setHour d (w r) r) res) res0 := by
  obtain ⟨hlen, hf⟩ := h
  refine ⟨by rw [modifyAt_length]; exact hlen, ?_⟩
  intro j hj
  rw [modifyAt_length] at hj
  rcases lt_or_le i res.length with hi | hi
  · by_cases hij : i = j
    · subst hij
      rw [getRow_modifyAt_eq i _ res hi]
      obtain ⟨h1, h2, h3⟩ := hf i hi
      exact ⟨h1, h2, by rw [setHour]; simpa using h3⟩
    · rw [getRow_modifyAt_ne i j _ res hij]
      exact hf j hj
  · rw [modifyAt_ge i _ res hi]
    exact hf j hj

theorem sameShape_adjustWalk (d : ℕ) (L : List (ℕ × ℚ)) (rem : ℚ)
    (res res0 : List Row) (h : SameShape res res0) :
    SameShape (adjustWalk d L rem res) res0 := by
  induction L generalizing rem res with
  | nil => rw [adjustWalk_nil]; exact h
  | cons x rest ih =>
    obtain ⟨i, recv⟩ := x
    rw [adjustWalk_cons]
    by_cases h1 : |rem| < 1/1000
    · rw [if_pos h1]; exact h
    · rw [if_neg h1]
      by_cases h2 : 0 < rem
      · rw [if_pos h2]
        exact sameShape_modifyAt_setHour res res0 i d _ h
      · rw [if_neg h2]
        by_cases h3 : -rem ≤ recv
        · rw [if_pos h3]
          exact sameShape_modifyAt_setHour res res0 i d _ h
        · rw [if_neg h3]
          by_cases h4 : 0 < recv
          · rw [if_pos h4]
            exact ih _ _ (sameShape_modifyAt_setHour res res0 i d _ h)
          · rw [if_neg h4]
            exact ih _ _ h

theorem hourAt_quarter (res : List Row) (i d : ℕ) (hq : AllQuarter res)
    (hi : i < res.length) : IsQuarter (hourAt (getRow res i) d) :=
  getD_quarter_of_forall _ d (hq _ (getRow_mem res i hi))

theorem adjustWalk_sum_add (e : String) (d i : ℕ) (recv : ℚ)
    (rest : List (ℕ × ℚ)) (s : ℚ) (res : List Row)
    (hi : i < res.length) (he : (getRow res i).earning = e)
    (hd : d < (getRow res i).hours.length)
    (hqi : IsQuarter (hourAt (getRow res i) d))
    (hqs : IsQuarter s) (hs : 1/1000 < s) :
    sumAt (adjustWalk d ((i, recv) :: rest) s res) e d = sumAt res e d + s := by
  rw [adjustWalk_cons]
  have h1 : ¬ (|s| < 1/1000) := by
    rw [abs_of_pos (by linarith)]
    linarith
  rw [if_neg h1, if_pos (show 0 < s by linarith)]
  rw [sumAt_modifyAt res i
    (fun r => setHour d (roundQuarter (hourAt r d + s)) r) e d hi rfl,
    if_pos he]
  have hv : hourAt (setHour d (roundQuarter (hourAt (getRow res i) d + s))
      (getRow res i)) d = hourAt (getRow res i) d + s := by
    rw [hourAt_setHour_eq _ _ _ hd]
    exact (hqi.add hqs).roundQuarter_eq
  rw [hv]
  ring

theorem adjustWalk_sum_sub (e : String) (d : ℕ) (L : List (ℕ × ℚ)) (s : ℚ)
    (res : List Row)
    (hq : AllQuarter res)
    (hqs : IsQuarter s) (hs : 1/1000 < s)
    (hL : ∀ p ∈ L, p.1 < res.length ∧ (getRow res p.1).earning = e ∧
      d < (getRow res p.1).hours.length ∧ IsQuarter p.2 ∧ 1/1000 < p.2)
    (hcov : s ≤ (L.map Prod.snd).sum) :
    sumAt (adjustWalk d L (-s) res) e d = sumAt res e d - s := by
  induction L generalizing s res with
  | nil =>
    exfalso
    simp only [List.map_nil, List.sum_nil] at hcov
    linarith
  | cons x rest ih =>
    obtain ⟨i, recv⟩ := x
    obtain ⟨hi, he, hd, hqr, hr⟩ := hL (i, recv) (List.mem_cons_self _ _)
    have hLrest := fun p hp => hL p (List.mem_cons_of_mem _ hp)
    rw [adjustWalk_cons]
    have h1 : ¬ (|(-s)| < 1/1000) := by
      rw [abs_neg, abs_of_pos (by linarith)]
      linarith
    rw [if_neg h1, if_neg (show ¬ (0 < -s) by linarith)]
    by_cases h3 : -(-s) ≤ recv
    · rw [if_pos h3]
      rw [sumAt_modifyAt res i
        (fun r => setHour d (roundQuarter (hourAt r d + -s)) r) e d hi rfl,
        if_pos he]
      have hv : hourAt (setHour d (roundQuarter (hourAt (getRow res i) d + -s))
          (getRow res i)) d = hourAt (getRow res i) d + -s := by
        rw [hourAt_setHour_eq _ _ _ hd]
        exact ((hourAt_quarter res i d hq hi).add hqs.neg).roundQuarter_eq
      rw [hv]
      ring
    · rw [if_neg h3, if_pos (show 0 < recv by linarith)]
      set res' := modifyAt i
        (fun r => setHour d (roundQuarter (hourAt r d - recv)) r) res with hres'
      have hq' : AllQuarter res' :=
        allQuarter_modifyAt_round res i d (fun r => hourAt r d - recv) hq
      have hsum' : sumAt res' e d = sumAt res e d - recv := by
        rw [hres', sumAt_modifyAt res i
          (fun r => setHour d (roundQuarter (hourAt r d - recv)) r) e d hi rfl,
          if_pos he]
        have hv : hourAt (setHour d (roundQuarter (hourAt (getRow res i) d - recv))
            (getRow res i)) d = hourAt (getRow res i) d - recv := by
          rw [hourAt_setHour_eq _ _ _ hd]
          exact ((hourAt_quarter res i d hq hi).sub hqr).roundQuarter_eq
        rw [hv]
        ring
      have hlen' : res'.length = res.length := modifyAt_length i _ res
      have hrowfix : ∀ j, j < res.length →
          (getRow res' j).earning = (getRow res j).earning ∧
          (getRow res' j).hours.length = (getRow res j).hours.length := by
        intro j hj
        by_cases hij : i = j
        · subst hij
          rw [hres', getRow_modifyAt_eq i _ res hi]
          exact ⟨rfl, by rw [setHour]; simp⟩
        · rw [hres', getRow_modifyAt_ne i j _ res hij]
          exact ⟨rfl, rfl⟩
      have harith : -s + recv = -(s - recv) := by ring
      rw [harith]
      have hs' : 1/1000 < s - recv :=
        (hqs.sub hqr).gt_millith_of_pos (by linarith)
      have hrec := ih (s - recv) res' hq' (hqs.sub hqr) hs'
        (fun p hp => by
          obtain ⟨hp1, hp2, hp3, hp4, hp5⟩ := hLrest p hp
          refine ⟨by rw [hlen']; exact hp1, ?_, ?_, hp4, hp5⟩
          · rw [(hrowfix p.1 hp1).1]; exact hp2
          · rw [(hrowfix p.1 hp1).2]; exact hp3)
        (by
          simp only [List.map_cons, List.sum_cons] at hcov
          linarith)
      rw [hrec, hsum']
      ring

theorem adjustWalk_floor (d : ℕ) (L : List (ℕ × ℚ)) (rem : ℚ)
    (res : List Row) (floorOf : ℕ → ℚ)
    (hq : AllQuarter res)
    (hfq : ∀ i, IsQuarter (floorOf i))
    (hnd : (L.map Prod.fst).Nodup)
    (hL : ∀ p ∈ L, p.1 < res.length ∧ d < (getRow res p.1).hours.length ∧
      floorOf p.1 + p.2 ≤ hourAt (getRow res p.1) d)
    (j : ℕ)
    (hjf : floorOf j ≤ hourAt (getRow res j) d) :
    floorOf j ≤ hourAt (getRow (adjustWalk d L rem res) j) d := by
  induction L generalizing rem res with
  | nil => rw [adjustWalk_nil]; exact hjf
  | cons x rest ih =>
    obtain ⟨i, recv⟩ := x
    obtain ⟨hi, hd, hfloor⟩ := hL (i, recv) (List.mem_cons_self _ _)
    have hLrest := fun p hp => hL p (List.mem_cons_of_mem _ hp)
    simp only [List.map_cons, List.nodup_cons] at hnd
    obtain ⟨hnoti, hndrest⟩ := hnd
    have hqi : IsQuarter (hourAt (getRow res i) d) := hourAt_quarter res i d hq hi
    rw [adjustWalk_cons]
    by_cases h1 : |rem| < 1/1000
    · rw [if_pos h1]; exact hjf
    · rw [if_neg h1]
      by_cases h2 : 0 < rem
      · rw [if_pos h2]
        by_cases hij : i = j
        · subst hij
          rw [getRow_modifyAt_eq i _ res hi, hourAt_setHour_eq _ _ _ hd]
          calc floorOf i ≤ hourAt (getRow res i) d := hjf
            _ = roundQuarter (hourAt (getRow res i) d) := hqi.roundQuarter_eq.symm
            _ ≤ roundQuarter (hourAt (getRow res i) d + rem) :=
              roundQuarter_mono (by linarith)
        · rw [getRow_modifyAt_ne i j _ res hij]; exact hjf
      · rw [if_neg h2]
        by_cases h3 : -rem ≤ recv
        · rw [if_pos h3]
          by_cases hij : i = j
          · subst hij
            rw [getRow_modifyAt_eq i _ res hi, hourAt_setHour_eq _ _ _ hd]
            calc floorOf i = roundQuarter (floorOf i) :=
                (hfq i).roundQuarter_eq.symm
              _ ≤ roundQuarter (hourAt (getRow res i) d + rem) :=
                roundQuarter_mono (by linarith)
          · rw [getRow_modifyAt_ne i j _ res hij]; exact hjf
        · rw [if_neg h3]
          by_cases h4 : 0 < recv
          · rw [if_pos h4]
            set res' := modifyAt i
              (fun r => setHour d (roundQuarter (hourAt r d - recv)) r) res
              with hres'
            have hq' : AllQuarter res' :=
              allQuarter_modifyAt_round res i d (fun r => hourAt r d - recv) hq
            have hfixed : ∀ k, k ≠ i → getRow res' k = getRow res k := by
              intro k hk
              rw [hres', getRow_modifyAt_ne i k _ res (fun h => hk h.symm)]
            have hati : hourAt (getRow res' i) d =
                roundQuarter (hourAt (getRow res i) d - recv) := by
              rw [hres', getRow_modifyAt_eq i _ res hi, hourAt_setHour_eq _ _ _ hd]
            apply ih (rem + recv) res' hq' hndrest
            · intro p hp
              have hpi : p.1 ≠ i := by
                intro hcontra
                exact hnoti (hcontra ▸ List.mem_map_of_mem Prod.fst hp)
              obtain ⟨hp1, hp2, hp3⟩ := hLrest p hp
              rw [hfixed p.1 hpi]
              exact ⟨by rw [hres', modifyAt_length]; exact hp1, hp2, hp3⟩
            · by_cases hij : i = j
              · subst hij
                rw [hati]
                calc floorOf i = roundQuarter (floorOf i) :=
                    (hfq i).roundQuarter_eq.symm
                  _ ≤ roundQuarter (hourAt (getRow res i) d - recv) :=
                    roundQuarter_mono (by linarith)
              · rw [hfixed j (fun h => hij h.symm)]; exact hjf
          · rw [if_neg h4]
            exact ih rem res hq hndrest hLrest hjf

/-! # Claims C1 and C3: quarter sums, snapshots, and the snapshot budget -/

theorem IsQuarter.list_sum (l : List ℚ) (h : ∀ x ∈ l, IsQuarter x) :
    IsQuarter l.sum := by
  induction l with
  | nil => simpa using IsQuarter.zero
  | cons x xs ih =>
    rw [List.sum_cons]
    exact (h x (List.mem_cons_self _ _)).add
      (ih fun y hy => h y (List.mem_cons_of_mem _ hy))

theorem sumAt_quarter (l : List Row) (e : String) (d : ℕ) (h : AllQuarter l) :
    IsQuarter (sumAt l e d) := by
  rw [sumAt]
  apply IsQuarter.list_sum
  intro x hx
  obtain ⟨r, hr, rfl⟩ := List.mem_map.mp hx
  exact getD_quarter_of_forall _ d (h r (List.mem_of_mem_filter hr))

theorem sumAt_nonneg (l : List Row) (e : String) (d : ℕ)
    (h : ∀ r ∈ l, ∀ q ∈ r.hours, 0 ≤ q) : 0 ≤ sumAt l e d := by
  rw [sumAt]
  apply sum_nonneg_list
  intro x hx
  obtain ⟨r, hr, rfl⟩ := List.mem_map.mp hx
  exact getD_nonneg_of_forall _ d (h r (List.mem_of_mem_filter hr))

theorem head?_filter_decomp {α : Type _} (p : α → Bool) (l : List α) (a : α)
    (h : (l.filter p).head? = some a) :
    ∃ pre post, l = pre ++ a :: post ∧ (∀ x ∈ pre, p x = false) ∧
      p a = true := by
  induction l with
  | nil => simp at h
  | cons x xs ih =>
    rw [List.filter_cons] at h
    by_cases hx : p x = true
    · rw [if_pos hx] at h
      simp only [List.head?_cons, Option.some.injEq] at h
      subst h
      exact ⟨[], xs, rfl, by simp, hx⟩
    · rw [if_neg hx] at h
      obtain ⟨pre, post, rfl, hpre, hpa⟩ := ih h
      refine ⟨x :: pre, post, rfl, ?_, hpa⟩
      intro y hy
      rcases List.mem_cons.mp hy with rfl | hy2
      · simpa using hx
      · exact hpre y hy2

theorem snapshotHours_quarter (snap : List Row) (c e : String) (d : ℕ)
    (h : AllQuarter snap) : IsQuarter (snapshotHours snap c e d) := by
  rw [snapshotHours]
  cases hh : (snap.filter (fun s => s.code == c && s.earning == e)).head? with
  | none => exact IsQuarter.zero
  | some s =>
    obtain ⟨pre, post, heq, _, _⟩ := head?_filter_decomp _ snap s hh
    have hs : s ∈ snap := by rw [heq]; simp
    exact getD_quarter_of_forall _ d (h s hs)

theorem snapshotHours_nonneg (snap : List Row) (c e : String) (d : ℕ)
    (h : ∀ r ∈ snap, ∀ q ∈ r.hours, 0 ≤ q) : 0 ≤ snapshotHours snap c e d := by
  rw [snapshotHours]
  cases hh : (snap.filter (fun s => s.code == c && s.earning == e)).head? with
  | none => exact le_refl 0
  | some s =>
    obtain ⟨pre, post, heq, _, _⟩ := head?_filter_decomp _ snap s hh
    have hs : s ∈ snap := by rw [heq]; simp
    exact getD_nonneg_of_forall _ d (h s hs)

theorem filter_middle_false {α : Type _} (p : α → Bool) (pre post : List α)
    (t : α) (ht : p t = false) :
    (pre ++ t :: post).filter p = (pre ++ post).filter p := by
  rw [List.filter_append, List.filter_append, List.filter_cons,
    if_neg (by simp [ht])]

theorem snap_sum_le (snap : List Row) (e : String) (d : ℕ) (L : List String)
    (hnd : L.Nodup) (hnn : ∀ r ∈ snap, ∀ q ∈ r.hours, 0 ≤ q) :
    (L.map (fun c => snapshotHours snap c e d)).sum ≤
      ((snap.filter (fun s => s.earning == e)).map (fun t => hourAt t d)).sum := by
  induction L generalizing snap with
  | nil =>
    simp only [List.map_nil, List.sum_nil]
    apply sum_nonneg_list
    intro x hx
    obtain ⟨r, hr, rfl⟩ := List.mem_map.mp hx
    exact getD_nonneg_of_forall _ d (hnn r (List.mem_of_mem_filter hr))
  | cons c L2 ih =>
    rw [List.nodup_cons] at hnd
    obtain ⟨hcL, hndL⟩ := hnd
    rw [List.map_cons, List.sum_cons]
    cases hh : (snap.filter (fun s => s.code == c && s.earning == e)).head? with
    | none =>
      have hzero : snapshotHours snap c e d = 0 := by rw [snapshotHours, hh]
      rw [hzero, zero_add]
      exact ih snap hndL hnn
    | some t =>
      have hval : snapshotHours snap c e d = hourAt t d := by
        rw [snapshotHours, hh]
      obtain ⟨pre, post, heq, hpre, hpt⟩ := head?_filter_decomp _ snap t hh
      simp only [Bool.and_eq_true, beq_iff_eq] at hpt
      obtain ⟨htc, hte⟩ := hpt
      have hmemsub : ∀ x ∈ pre ++ post, x ∈ snap := by
        intro x hx
        rw [heq]
        rcases List.mem_append.mp hx with hx | hx
        · exact List.mem_append.mpr (Or.inl hx)
        · exact List.mem_append.mpr (Or.inr (List.mem_cons_of_mem _ hx))
      have hsnapfix : ∀ c' ∈ L2, snapshotHours (pre ++ post) c' e d =
          snapshotHours snap c' e d := by
        intro c' hc'
        have hne : t.code ≠ c' := by
          rw [htc]
          intro hcon
          exact hcL (hcon ▸ hc')
        rw [snapshotHours, snapshotHours, heq,
          filter_middle_false _ pre post t (by simp [hne])]
      have hrhs : ((snap.filter (fun s => s.earning == e)).map
          (fun t2 => hourAt t2 d)).sum =
          hourAt t d + (((pre ++ post).filter (fun s => s.earning == e)).map
            (fun t2 => hourAt t2 d)).sum := by
        rw [heq, List.filter_append, List.filter_cons,
          if_pos (by simpa using hte), List.filter_append]
        simp only [List.map_append, List.sum_append, List.map_cons,
          List.sum_cons]
        ring
      have hmap : (L2.map (fun c' => snapshotHours snap c' e d)).sum =
          (L2.map (fun c' => snapshotHours (pre ++ post) c' e d)).sum := by
        apply congrArg List.sum
        apply List.map_congr_left
        intro c' hc'
        exact (hsnapfix c' hc').symm
      rw [hval, hrhs, hmap]
      have := ih (pre ++ post) hndL (fun r hr => hnn r (hmemsub r hr))
      linarith

/-! # Claims C1 and C3: cell-level repair lemmas -/

theorem sameShape_refl (l : List Row) : SameShape l l :=
  ⟨rfl, fun i _ => ⟨rfl, rfl, rfl⟩⟩

theorem sameShape_trans {a b c : List Row} (h1 : SameShape a b)
    (h2 : SameShape b c) : SameShape a c := by
  obtain ⟨hl1, hf1⟩ := h1
  obtain ⟨hl2, hf2⟩ := h2
  refine ⟨hl1.trans hl2, fun i hi => ?_⟩
  obtain ⟨x1, x2, x3⟩ := hf1 i hi
  obtain ⟨y1, y2, y3⟩ := hf2 i (hl1 ▸ hi)
  exact ⟨x1.trans y1, x2.trans y2, x3.trans y3⟩

theorem sameShape_adjustCell (snapshot : List Row) (e : String) (d : ℕ)
    (origS curS : ℚ) (res res0 : List Row) (h : SameShape res res0) :
    SameShape (adjustCell snapshot e d origS curS res) res0 := by
  rw [adjustCell_eq]
  by_cases h1 : 1/1000 < |origS - curS|
  · rw [if_pos h1]
    by_cases h2 : 0 < origS - curS
    · rw [if_pos h2]; exact sameShape_adjustWalk _ _ _ _ _ h
    · rw [if_neg h2]; exact sameShape_adjustWalk _ _ _ _ _ h
  · rw [if_neg h1]; exact h

theorem adjustCell_row_untouched (snapshot : List Row) (e : String) (d : ℕ)
    (origS curS : ℚ) (res : List Row) (j : ℕ)
    (hj : (getRow res j).earning ≠ e) :
    getRow (adjustCell snapshot e d origS curS res) j = getRow res j := by
  rw [adjustCell_eq]
  by_cases h1 : 1/1000 < |origS - curS|
  · rw [if_pos h1]
    by_cases h2 : 0 < origS - curS
    · rw [if_pos h2]
      apply adjustWalk_not_mem_pos
      intro hmem
      rw [List.map_map] at hmem
      obtain ⟨p, hp, hpj⟩ := List.mem_map.mp hmem
      have hp2 := (mem_sortBy _ _ p).mp hp
      obtain ⟨_, hpr, hpe⟩ := mem_enumEarning_elim e res p.1 p.2 hp2
      apply hj
      have : p.1 = j := hpj
      rw [← this, ← hpr, hpe]
    · rw [if_neg h2]
      apply adjustWalk_not_mem_pos
      intro hmem
      obtain ⟨p, hp, hpj⟩ := List.mem_map.mp hmem
      have hp2 := (mem_sortBy _ _ p).mp hp
      have hp3 := List.mem_of_mem_filter hp2
      rw [List.mem_map] at hp3
      obtain ⟨q, hq, hqp⟩ := hp3
      obtain ⟨_, hqr, hqe⟩ := mem_enumEarning_elim e res q.1 q.2 hq
      apply hj
      have hq1 : q.1 = j := by rw [← hpj, ← hqp]
      rw [← hq1, ← hqr, hqe]
  · rw [if_neg h1]

theorem sumAt_adjustCell_other_col (snapshot : List Row) (e : String)
    (d : ℕ) (origS curS : ℚ) (res : List Row) (e' : String) (d' : ℕ)
    (hdd : d ≠ d') :
    sumAt (adjustCell snapshot e d origS curS res) e' d' = sumAt res e' d' := by
  have hsh : SameShape (adjustCell snapshot e d origS curS res) res :=
    sameShape_adjustCell snapshot e d origS curS res res (sameShape_refl res)
  apply sumAt_congr _ _ e' d' hsh.1 (fun i hi => (hsh.2 i hi).2.1)
  intro i hi _
  rw [adjustCell_eq]
  by_cases h1 : 1/1000 < |origS - curS|
  · rw [if_pos h1]
    by_cases h2 : 0 < origS - curS
    · rw [if_pos h2]
      exact adjustWalk_other_col d _ _ res i d' hdd
    · rw [if_neg h2]
      exact adjustWalk_other_col d _ _ res i d' hdd
  · rw [if_neg h1]

theorem sumAt_adjustCell_other_earning (snapshot : List Row) (e : String)
    (d : ℕ) (origS curS : ℚ) (res : List Row) (e' : String) (d' : ℕ)
    (hee : e' ≠ e) :
    sumAt (adjustCell snapshot e d origS curS res) e' d' = sumAt res e' d' := by
  have hsh : SameShape (adjustCell snapshot e d origS curS res) res :=
    sameShape_adjustCell snapshot e d origS curS res res (sameShape_refl res)
  apply sumAt_congr _ _ e' d' hsh.1 (fun i hi => (hsh.2 i hi).2.1)
  intro i hi hie
  have hine : (getRow res i).earning ≠ e := by
    rw [← (hsh.2 i hi).2.1, hie]
    exact hee
  rw [adjustCell_row_untouched snapshot e d origS curS res i hine]

theorem sortBy_ne_nil {α : Type _} (le : α → α → Bool) (l : List α)
    (h : l ≠ []) : sortBy le l ≠ [] := by
  intro hcon
  apply h
  have hp := sortBy_perm le l
  rw [hcon] at hp
  exact hp.symm.eq_nil

theorem adjustCell_sum (snapshot : List Row) (e : String) (d : ℕ)
    (origS : ℚ) (res : List Row)
    (hq : AllQuarter res)
    (horig : IsQuarter origS)
    (hdlen : ∀ i, i < res.length → (getRow res i).earning = e →
      d < (getRow res i).hours.length)
    (hex : ∃ i, i < res.length ∧ (getRow res i).earning = e)
    (hsnapq : AllQuarter snapshot)
    (hbudget : ((res.filter (fun r => r.earning == e)).map
      (fun r => snapshotHours snapshot r.code e d)).sum ≤ origS) :
    sumAt (adjustCell snapshot e d origS (sumAt res e d) res) e d = origS := by
  set curS := sumAt res e d with hcur
  have hcurq : IsQuarter curS := sumAt_quarter res e d hq
  have hdiffq : IsQuarter (origS - curS) := horig.sub hcurq
  rw [adjustCell_eq]
  by_cases h1 : 1/1000 < |origS - curS|
  swap
  · rw [if_neg h1]
    push_neg at h1
    have := hdiffq.eq_zero_of_abs_le h1
    linarith
  rw [if_pos h1]
  by_cases h2 : 0 < origS - curS
  · rw [if_pos h2]
    have hs : 1/1000 < origS - curS := by rwa [abs_of_pos h2] at h1
    obtain ⟨i0, hi0, he0⟩ := hex
    have hne : enumEarning e res ≠ [] := by
      intro hcon
      have := mem_enumEarning_intro e res i0 hi0 he0
      rw [hcon] at this
      exact absurd this (List.not_mem_nil _)
    cases hc : sortBy (fun a b => decide (hourAt b.2 d ≤ hourAt a.2 d))
        (enumEarning e res) with
    | nil => exact absurd hc (sortBy_ne_nil _ _ hne)
    | cons p rest =>
      rw [List.map_cons]
      have hp : p ∈ enumEarning e res := by
        apply (mem_sortBy _ _ p).mp
        rw [hc]
        exact List.mem_cons_self _ _
      obtain ⟨hp1, hp2, hp3⟩ := mem_enumEarning_elim e res p.1 p.2 hp
      have hearn : (getRow res p.1).earning = e := by rw [← hp2]; exact hp3
      rw [adjustWalk_sum_add e d p.1 (hourAt p.2 d) _ (origS - curS) res hp1
        hearn (hdlen p.1 hp1 hearn) (hourAt_quarter res p.1 d hq hp1) hdiffq hs]
      rw [← hcur]
      ring
  · rw [if_neg h2]
    push_neg at h2
    set s := curS - origS with hsdef
    have hs : 1/1000 < s := by
      rw [abs_of_nonpos (by linarith)] at h1
      rw [hsdef]
      linarith
    have hsq : IsQuarter s := hcurq.sub horig
    have harith : origS - curS = -s := by rw [hsdef]; ring
    rw [harith]
    set withRecv := (enumEarning e res).map
      (fun p => (p.1, hourAt p.2 d - snapshotHours snapshot p.2.code e d))
      with hwr
    set kept := withRecv.filter (fun t => decide (1/1000 < t.2)) with hk
    have hmemfacts : ∀ p ∈ sortBy (fun a b => decide (b.2 ≤ a.2)) kept,
        p.1 < res.length ∧ (getRow res p.1).earning = e ∧
        d < (getRow res p.1).hours.length ∧ IsQuarter p.2 ∧ 1/1000 < p.2 := by
      intro p hp
      have hp2 := (mem_sortBy _ _ p).mp hp
      have hbig : 1/1000 < p.2 := by
        have := List.of_mem_filter hp2
        simpa using this
      have hp3 := List.mem_of_mem_filter hp2
      rw [hwr, List.mem_map] at hp3
      obtain ⟨q2, hq2, hqp⟩ := hp3
      obtain ⟨hq1, hqr, hqe⟩ := mem_enumEarning_elim e res q2.1 q2.2 hq2
      have hearn : (getRow res q2.1).earning = e := by rw [← hqr]; exact hqe
      have hpq1 : p.1 = q2.1 := by rw [← hqp]
      have hpq2 : p.2 = hourAt q2.2 d - snapshotHours snapshot q2.2.code e d := by
        rw [← hqp]
      refine ⟨by rw [hpq1]; exact hq1, by rw [hpq1]; exact hearn,
        by rw [hpq1]; exact hdlen q2.1 hq1 hearn, ?_, hbig⟩
      rw [hpq2, hqr]
      exact (hourAt_quarter res q2.1 d hq hq1).sub
        (snapshotHours_quarter snapshot (getRow res q2.1).code e d hsnapq)
    have hcov : s ≤
        ((sortBy (fun a b => decide (b.2 ≤ a.2)) kept).map Prod.snd).sum := by
      have hperm : ((sortBy (fun a b => decide (b.2 ≤ a.2)) kept).map
          Prod.snd).Perm (kept.map Prod.snd) :=
        (sortBy_perm _ kept).map _
      rw [hperm.sum_eq]
      have hsplit := sum_map_filter_split withRecv
        (fun t => decide (1/1000 < t.2)) Prod.snd
      have hdropped : ((withRecv.filter
          (fun t => !(decide (1/1000 < t.2)))).map Prod.snd).sum ≤ 0 := by
        apply sum_nonpos_list
        intro x hx
        obtain ⟨t, ht, rfl⟩ := List.mem_map.mp hx
        have htle : ¬ (1/1000 < t.2) := by
          have := List.of_mem_filter ht
          simpa using this
        have htw := List.mem_of_mem_filter ht
        rw [hwr, List.mem_map] at htw
        obtain ⟨q2, hq2, hqt⟩ := htw
        obtain ⟨hq1, hqr, hqe⟩ := mem_enumEarning_elim e res q2.1 q2.2 hq2
        have ht2 : t.2 = hourAt q2.2 d - snapshotHours snapshot q2.2.code e d := by
          rw [← hqt]
        have htq : IsQuarter t.2 := by
          rw [ht2, hqr]
          exact (hourAt_quarter res q2.1 d hq hq1).sub
            (snapshotHours_quarter snapshot (getRow res q2.1).code e d hsnapq)
        exact htq.le_zero_of_le_millith (by linarith)
      have hwrsum : (withRecv.map Prod.snd).sum = curS -
          ((res.filter (fun r => r.earning == e)).map
            (fun r => snapshotHours snapshot r.code e d)).sum := by
        rw [hwr, List.map_map]
        show ((enumEarning e res).map
          (fun p => hourAt p.2 d - snapshotHours snapshot p.2.code e d)).sum = _
        rw [sum_map_sub (enumEarning e res) (fun p => hourAt p.2 d)
          (fun p => snapshotHours snapshot p.2.code e d)]
        rw [← sumAt_eq_enum_sum res e d]
        rw [enumEarning_map_snd e res
          (fun r => snapshotHours snapshot r.code e d)]
      linarith
    rw [adjustWalk_sum_sub e d _ s res hq hsq hs hmemfacts hcov]
    linarith

theorem adjustCell_floor (snapshot : List Row) (e : String) (d : ℕ)
    (origS curS : ℚ) (res : List Row) (j : ℕ)
    (hq : AllQuarter res)
    (hsnapq : AllQuarter snapshot)
    (hdlen : ∀ i, i < res.length → (getRow res i).earning = e →
      d < (getRow res i).hours.length)
    (hjf : snapshotHours snapshot (getRow res j).code e d ≤
      hourAt (getRow res j) d) :
    snapshotHours snapshot (getRow res j).code e d ≤
      hourAt (getRow (adjustCell snapshot e d origS curS res) j) d := by
  rw [adjustCell_eq]
  by_cases h1 : 1/1000 < |origS - curS|
  swap
  · rw [if_neg h1]; exact hjf
  rw [if_pos h1]
  by_cases h2 : 0 < origS - curS
  · rw [if_pos h2]
    cases hc : sortBy (fun a b => decide (hourAt b.2 d ≤ hourAt a.2 d))
        (enumEarning e res) with
    | nil => rw [List.map_nil, adjustWalk_nil]; exact hjf
    | cons p rest =>
      rw [List.map_cons, adjustWalk_cons]
      have hnabs : ¬ (|origS - curS| < 1/1000) := by
        rw [abs_of_pos h2]
        rw [abs_of_pos h2] at h1
        linarith
      rw [if_neg hnabs, if_pos h2]
      have hp : p ∈ enumEarning e res := by
        apply (mem_sortBy _ _ p).mp
        rw [hc]
        exact List.mem_cons_self _ _
      obtain ⟨hp1, hp2, hp3⟩ := mem_enumEarning_elim e res p.1 p.2 hp
      have hearn : (getRow res p.1).earning = e := by rw [← hp2]; exact hp3
      by_cases hij : p.1 = j
      · rw [← hij] at hjf ⊢
        rw [getRow_modifyAt_eq p.1 _ res hp1,
          hourAt_setHour_eq _ _ _ (hdlen p.1 hp1 hearn)]
        have hqv : IsQuarter (hourAt (getRow res p.1) d) :=
          hourAt_quarter res p.1 d hq hp1
        calc snapshotHours snapshot (getRow res p.1).code e d
            ≤ hourAt (getRow res p.1) d := hjf
          _ = roundQuarter (hourAt (getRow res p.1) d) :=
            hqv.roundQuarter_eq.symm
          _ ≤ roundQuarter (hourAt (getRow res p.1) d + (origS - curS)) :=
            roundQuarter_mono (by linarith)
      · rw [getRow_modifyAt_ne p.1 j _ res hij]
        exact hjf
  · rw [if_neg h2]
    refine adjustWalk_floor d _ _ res
      (fun i => snapshotHours snapshot (getRow res i).code e d) hq
      (fun i => snapshotHours_quarter snapshot _ e d hsnapq) ?_ ?_ j hjf
    · have hkeptnd : ((((enumEarning e res).map (fun p =>
          (p.1, hourAt p.2 d - snapshotHours snapshot p.2.code e d))).filter
            (fun t => decide (1/1000 < t.2))).map Prod.fst).Nodup := by
        have hsub : ((((enumEarning e res).map (fun p =>
            (p.1, hourAt p.2 d - snapshotHours snapshot p.2.code e d))).filter
              (fun t => decide (1/1000 < t.2))).map Prod.fst).Sublist
            (((enumEarning e res).map (fun p =>
              (p.1, hourAt p.2 d - snapshotHours snapshot p.2.code e d))).map
                Prod.fst) :=
          (List.filter_sublist _).map _
        apply hsub.nodup
        rw [List.map_map]
        exact enumEarning_fst_nodup e res
      have hperm := ((sortBy_perm (fun a b => decide (b.2 ≤ a.2))
        (((enumEarning e res).map (fun p =>
          (p.1, hourAt p.2 d - snapshotHours snapshot p.2.code e d))).filter
            (fun t => decide (1/1000 < t.2)))).map Prod.fst)
      exact hperm.nodup_iff.mpr hkeptnd
    · intro p hp
      have hp2 := (mem_sortBy _ _ p).mp hp
      have hp3 := List.mem_of_mem_filter hp2
      rw [List.mem_map] at hp3
      obtain ⟨q2, hq2, hqp⟩ := hp3
      obtain ⟨hq1, hqr, hqe⟩ := mem_enumEarning_elim e res q2.1 q2.2 hq2
      have hearn : (getRow res q2.1).earning = e := by rw [← hqr]; exact hqe
      have hpq1 : p.1 = q2.1 := by rw [← hqp]
      have hpq2 : p.2 = hourAt q2.2 d - snapshotHours snapshot q2.2.code e d := by
        rw [← hqp]
      refine ⟨by rw [hpq1]; exact hq1,
        by rw [hpq1]; exact hdlen q2.1 hq1 hearn, ?_⟩
      rw [hpq1, hpq2, hqr]
      linarith

theorem hourAt_adjustCell_other_col (snapshot : List Row) (e : String)
    (d : ℕ) (origS curS : ℚ) (res : List Row) (j d' : ℕ) (hdd : d ≠ d') :
    hourAt (getRow (adjustCell snapshot e d origS curS res) j) d' =
      hourAt (getRow res j) d' := by
  rw [adjustCell_eq]
  by_cases h1 : 1/1000 < |origS - curS|
  · rw [if_pos h1]
    by_cases h2 : 0 < origS - curS
    · rw [if_pos h2]
      exact adjustWalk_other_col d _ _ res j d' hdd
    · rw [if_neg h2]
      exact adjustWalk_other_col d _ _ res j d' hdd
  · rw [if_neg h1]

theorem filter_map_code_congr (a b : List Row) (f : String → ℚ) (e : String)
    (hlen : a.length = b.length)
    (hpt : ∀ i < a.length, (getRow a i).earning = (getRow b i).earning ∧
      (getRow a i).code = (getRow b i).code) :
    (a.filter (fun r => r.earning == e)).map (fun r => f r.code) =
      (b.filter (fun r => r.earning == e)).map (fun r => f r.code) := by
  induction a generalizing b with
  | nil =>
    cases b with
    | nil => rfl
    | cons y ys => simp at hlen
  | cons x xs ih =>
    cases b with
    | nil => simp at hlen
    | cons y ys =>
      have h0 := hpt 0 (by simp)
      have h0e : x.earning = y.earning := h0.1
      have h0c : x.code = y.code := h0.2
      have htail : (xs.filter (fun r => r.earning == e)).map
          (fun r => f r.code) =
          (ys.filter (fun r => r.earning == e)).map (fun r => f r.code) := by
        apply ih ys (by simpa using hlen)
        intro i hi
        exact hpt (i + 1) (by simpa using hi)
      rw [List.filter_cons, List.filter_cons]
      by_cases hxe : x.earning = e
      · rw [if_pos (by simpa using hxe),
          if_pos (by rw [← h0e]; simpa using hxe)]
        simp only [List.map_cons]
        rw [htail, h0c]
      · rw [if_neg (by simpa using hxe),
          if_neg (by rw [← h0e]; simpa using hxe)]
        exact htail

theorem dates_fold (snapshot res0 : List Row) (D : ℕ) (e : String)
    (O : ℕ → ℚ) (ds : List ℕ) (res : List Row)
    (hnd : ds.Nodup)
    (hds : ∀ d ∈ ds, d < D)
    (hsh : SameShape res res0)
    (hq : AllQuarter res)
    (hsnapq : AllQuarter snapshot)
    (hlen0 : ∀ i, i < res0.length → (getRow res0 i).hours.length = D)
    (hOq : ∀ d ∈ ds, IsQuarter (O d))
    (hbudget : ∀ d ∈ ds, ((res0.filter (fun r => r.earning == e)).map
      (fun r => snapshotHours snapshot r.code e d)).sum ≤ O d)
    (hex : ∃ j, j < res0.length ∧ (getRow res0 j).earning = e)
    (hsums : ∀ d ∈ ds, sumAt res e d = sumAt res0 e d)
    (hfl : ∀ j, j < res0.length → ∀ d',
      snapshotHours snapshot (getRow res0 j).code (getRow res0 j).earning d' ≤
        hourAt (getRow res j) d') :
    SameShape (ds.foldl (fun r2 d =>
        adjustCell snapshot e d (O d) (sumAt res0 e d) r2) res) res0 ∧
    AllQuarter (ds.foldl (fun r2 d =>
        adjustCell snapshot e d (O d) (sumAt res0 e d) r2) res) ∧
    (∀ d ∈ ds, sumAt (ds.foldl (fun r2 d2 =>
        adjustCell snapshot e d2 (O d2) (sumAt res0 e d2) r2) res) e d = O d) ∧
    (∀ e', e' ≠ e → ∀ d', sumAt (ds.foldl (fun r2 d2 =>
        adjustCell snapshot e d2 (O d2) (sumAt res0 e d2) r2) res) e' d' =
        sumAt res e' d') ∧
    (∀ d', d' ∉ ds → sumAt (ds.foldl (fun r2 d2 =>
        adjustCell snapshot e d2 (O d2) (sumAt res0 e d2) r2) res) e d' =
        sumAt res e d') ∧
    (∀ j, j < res0.length → ∀ d',
      snapshotHours snapshot (getRow res0 j).code (getRow res0 j).earning d' ≤
        hourAt (getRow (ds.foldl (fun r2 d2 =>
          adjustCell snapshot e d2 (O d2) (sumAt res0 e d2) r2) res) j) d') := by
  induction ds generalizing res with
  | nil =>
    refine ⟨hsh, hq, by simp, fun e' _ d' => rfl, fun d' _ => rfl, hfl⟩
  | cons d rest ih =>
    rw [List.nodup_cons] at hnd
    obtain ⟨hdrest, hndrest⟩ := hnd
    have hdD : d < D := hds d (List.mem_cons_self _ _)
    simp only [List.foldl_cons]
    set st1 := adjustCell snapshot e d (O d) (sumAt res0 e d) res with hst1
    have hsh1 : SameShape st1 res0 :=
      sameShape_adjustCell snapshot e d _ _ res res0 hsh
    have hq1 : AllQuarter st1 := allQuarter_adjustCell snapshot e d _ _ res hq
    have hdlenres : ∀ i, i < res.length → (getRow res i).earning = e →
        d < (getRow res i).hours.length := by
      intro i hi _
      rw [(hsh.2 i hi).2.2, hlen0 i (by rw [← hsh.1]; exact hi)]
      exact hdD
    have hexres : ∃ i, i < res.length ∧ (getRow res i).earning = e := by
      obtain ⟨j, hj, hje⟩ := hex
      refine ⟨j, by rw [hsh.1]; exact hj, ?_⟩
      rw [(hsh.2 j (by rw [hsh.1]; exact hj)).2.1]
      exact hje
    have hbudres : ((res.filter (fun r => r.earning == e)).map
        (fun r => snapshotHours snapshot r.code e d)).sum ≤ O d := by
      rw [filter_map_code_congr res res0
        (fun c => snapshotHours snapshot c e d) e hsh.1
        (fun i hi => ⟨(hsh.2 i hi).2.1, (hsh.2 i hi).1⟩)]
      exact hbudget d (List.mem_cons_self _ _)
    have hsum1 : sumAt st1 e d = O d := by
      rw [hst1, ← hsums d (List.mem_cons_self _ _)]
      exact adjustCell_sum snapshot e d (O d) res hq
        (hOq d (List.mem_cons_self _ _)) hdlenres hexres hsnapq hbudres
    have hothersum1 : ∀ e', e' ≠ e → ∀ d',
        sumAt st1 e' d' = sumAt res e' d' := by
      intro e' he' d'
      by_cases hdd : d = d'
      · subst hdd
        exact sumAt_adjustCell_other_earning snapshot e d _ _ res e' d he'
      · exact sumAt_adjustCell_other_col snapshot e d _ _ res e' d' hdd
    have hothercol1 : ∀ d', d ≠ d' → sumAt st1 e d' = sumAt res e d' := by
      intro d' hdd
      exact sumAt_adjustCell_other_col snapshot e d _ _ res e d' hdd
    have hfl1 : ∀ j, j < res0.length → ∀ d',
        snapshotHours snapshot (getRow res0 j).code (getRow res0 j).earning d' ≤
          hourAt (getRow st1 j) d' := by
      intro j hj d'
      have hjres : j < res.length := by rw [hsh.1]; exact hj
      by_cases hje : (getRow res0 j).earning = e
      · by_cases hdd : d = d'
        · subst hdd
          have hjf : snapshotHours snapshot (getRow res j).code e d ≤
              hourAt (getRow res j) d := by
            rw [(hsh.2 j hjres).1]
            have := hfl j hj d
            rw [hje] at this
            exact this
          have := adjustCell_floor snapshot e d (O d) (sumAt res0 e d) res j
            hq hsnapq hdlenres hjf
          rw [(hsh.2 j hjres).1] at this
          rw [hje]
          exact this
        · rw [hourAt_adjustCell_other_col snapshot e d _ _ res j d' hdd]
          exact hfl j hj d'
      · have hne : (getRow res j).earning ≠ e := by
          rw [(hsh.2 j hjres).2.1]
          exact hje
        rw [hst1, adjustCell_row_untouched snapshot e d _ _ res j hne]
        exact hfl j hj d'
    have hsumsrest : ∀ d2 ∈ rest, sumAt st1 e d2 = sumAt res0 e d2 := by
      intro d2 hd2
      rw [hothercol1 d2 (fun h => hdrest (h ▸ hd2))]
      exact hsums d2 (List.mem_cons_of_mem _ hd2)
    obtain ⟨ihsh, ihq, ihc, ihother, ihnot, ihfl⟩ := ih st1 hndrest
      (fun d2 hd2 => hds d2 (List.mem_cons_of_mem _ hd2)) hsh1 hq1
      (fun d2 hd2 => hOq d2 (List.mem_cons_of_mem _ hd2))
      (fun d2 hd2 => hbudget d2 (List.mem_cons_of_mem _ hd2))
      hsumsrest hfl1
    refine ⟨ihsh, ihq, ?_, ?_, ?_, ihfl⟩
    · intro d2 hd2
      rcases List.mem_cons.mp hd2 with rfl | hd2r
      · rw [ihnot d2 hdrest]
        exact hsum1
      · exact ihc d2 hd2r
    · intro e' he' d'
      rw [ihother e' he' d']
      exact hothersum1 e' he' d'
    · intro d' hd'
      have hd'ne : d ≠ d' := by
        intro h
        exact hd' (h ▸ List.mem_cons_self _ _)
      have hd'r : d' ∉ rest := fun h => hd' (List.mem_cons_of_mem _ h)
      rw [ihnot d' hd'r]
      exact hothercol1 d' hd'ne

theorem mem_getRow (l : List Row) (r : Row) (h : r ∈ l) :
    ∃ j, j < l.length ∧ getRow l j = r := by
  obtain ⟨i, hi, hg⟩ := List.mem_iff_getElem.mp h
  refine ⟨i, hi, ?_⟩
  rw [getRow, List.getD_eq_getElem?_getD, List.getElem?_eq_getElem hi]
  exact hg

theorem earnings_fold (snapshot res0 VS : List Row) (D : ℕ)
    (es : List String) (res : List Row)
    (hnd : es.Nodup)
    (hsh : SameShape res res0)
    (hq : AllQuarter res)
    (hsnapq : AllQuarter snapshot)
    (hlen0 : ∀ i, i < res0.length → (getRow res0 i).hours.length = D)
    (hOq : ∀ e d, IsQuarter (sumAt VS e d))
    (hbudget : ∀ e ∈ es, ∀ d, d < D →
      ((res0.filter (fun r => r.earning == e)).map
        (fun r => snapshotHours snapshot r.code e d)).sum ≤ sumAt VS e d)
    (hsums : ∀ e ∈ es, ∀ d, sumAt res e d = sumAt res0 e d)
    (hfl : ∀ j, j < res0.length → ∀ d',
      snapshotHours snapshot (getRow res0 j).code (getRow res0 j).earning d' ≤
        hourAt (getRow res j) d') :
    SameShape (es.foldl (fun r2 e =>
        if (res0.map Row.earning).contains e then
          (List.range D).foldl (fun r3 d =>
            adjustCell snapshot e d (sumAt VS e d) (sumAt res0 e d) r3) r2
        else r2) res) res0 ∧
    AllQuarter (es.foldl (fun r2 e =>
        if (res0.map Row.earning).contains e then
          (List.range D).foldl (fun r3 d =>
            adjustCell snapshot e d (sumAt VS e d) (sumAt res0 e d) r3) r2
        else r2) res) ∧
    (∀ e ∈ es, (res0.map Row.earning).contains e → ∀ d, d < D →
      sumAt (es.foldl (fun r2 e2 =>
        if (res0.map Row.earning).contains e2 then
          (List.range D).foldl (fun r3 d2 =>
            adjustCell snapshot e2 d2 (sumAt VS e2 d2) (sumAt res0 e2 d2) r3) r2
        else r2) res) e d = sumAt VS e d) ∧
    (∀ e ∈ es, ¬ ((res0.map Row.earning).contains e = true) → ∀ d,
      sumAt (es.foldl (fun r2 e2 =>
        if (res0.map Row.earning).contains e2 then
          (List.range D).foldl (fun r3 d2 =>
            adjustCell snapshot e2 d2 (sumAt VS e2 d2) (sumAt res0 e2 d2) r3) r2
        else r2) res) e d = sumAt res0 e d) ∧
    (∀ e, e ∉ es → ∀ d,
      sumAt (es.foldl (fun r2 e2 =>
        if (res0.map Row.earning).contains e2 then
          (List.range D).foldl (fun r3 d2 =>
            adjustCell snapshot e2 d2 (sumAt VS e2 d2) (sumAt res0 e2 d2) r3) r2
        else r2) res) e d = sumAt res e d) ∧
    (∀ j, j < res0.length → ∀ d',
      snapshotHours snapshot (getRow res0 j).code (getRow res0 j).earning d' ≤
        hourAt (getRow (es.foldl (fun r2 e2 =>
          if (res0.map Row.earning).contains e2 then
            (List.range D).foldl (fun r3 d2 =>
              adjustCell snapshot e2 d2 (sumAt VS e2 d2) (sumAt res0 e2 d2) r3)
              r2
          else r2) res) j) d') := by
  induction es generalizing res with
  | nil =>
    exact ⟨hsh, hq, by simp, by simp, fun e _ d => rfl, hfl⟩
  | cons e rest ih =>
    rw [List.nodup_cons] at hnd
    obtain ⟨herest, hndrest⟩ := hnd
    simp only [List.foldl_cons]
    by_cases hguard : (res0.map Row.earning).contains e = true
    · rw [if_pos hguard]
      have hex : ∃ j, j < res0.length ∧ (getRow res0 j).earning = e := by
        have hmem : e ∈ res0.map Row.earning := by
          have := hguard
          rw [List.contains_eq_any_beq] at this
          rw [List.any_eq_true] at this
          obtain ⟨x, hx, hbeq⟩ := this
          rw [show e = x from by simpa using hbeq]
          exact hx
        obtain ⟨r, hr, hre⟩ := List.mem_map.mp hmem
        obtain ⟨j, hj, hgr⟩ := mem_getRow res0 r hr
        exact ⟨j, hj, by rw [hgr]; exact hre⟩
      obtain ⟨sh1, q1, c1, other1, not1, fl1⟩ := dates_fold snapshot res0 D e
        (fun d => sumAt VS e d) (List.range D) res (List.nodup_range D)
        (fun d hd => List.mem_range.mp hd) hsh hq hsnapq hlen0
        (fun d _ => hOq e d)
        (fun d hd => hbudget e (List.mem_cons_self _ _) d (List.mem_range.mp hd))
        hex (fun d _ => hsums e (List.mem_cons_self _ _) d) hfl
      set st1 := (List.range D).foldl (fun r3 d =>
        adjustCell snapshot e d (sumAt VS e d) (sumAt res0 e d) r3) res with hst1
      have hsumsrest : ∀ e2 ∈ rest, ∀ d, sumAt st1 e2 d = sumAt res0 e2 d := by
        intro e2 he2 d
        have hne : e2 ≠ e := fun h => herest (h ▸ he2)
        rw [other1 e2 hne d]
        exact hsums e2 (List.mem_cons_of_mem _ he2) d
      obtain ⟨ihsh, ihq, ih3, ih4, ih6, ihfl⟩ := ih st1 hndrest sh1 q1
        (fun e2 he2 => hbudget e2 (List.mem_cons_of_mem _ he2))
        hsumsrest fl1
      refine ⟨ihsh, ihq, ?_, ?_, ?_, ihfl⟩
      · intro e2 he2 hg2 d hd
        rcases List.mem_cons.mp he2 with rfl | he2r
        · rw [ih6 e2 herest d]
          exact c1 d (List.mem_range.mpr hd)
        · exact ih3 e2 he2r hg2 d hd
      · intro e2 he2 hg2 d
        rcases List.mem_cons.mp he2 with rfl | he2r
        · exact absurd hguard hg2
        · exact ih4 e2 he2r hg2 d
      · intro e2 he2 d
        have hne : e2 ≠ e := by
          intro h
          exact he2 (h ▸ List.mem_cons_self _ _)
        have he2r : e2 ∉ rest := fun h => he2 (List.mem_cons_of_mem _ h)
        rw [ih6 e2 he2r d]
        exact other1 e2 hne d
    · rw [if_neg hguard]
      obtain ⟨ihsh, ihq, ih3, ih4, ih6, ihfl⟩ := ih res hndrest hsh hq
        (fun e2 he2 => hbudget e2 (List.mem_cons_of_mem _ he2))
        (fun e2 he2 => hsums e2 (List.mem_cons_of_mem _ he2)) hfl
      refine ⟨ihsh, ihq, ?_, ?_, ?_, ihfl⟩
      · intro e2 he2 hg2 d hd
        rcases List.mem_cons.mp he2 with rfl | he2r
        · exact absurd hg2 hguard
        · exact ih3 e2 he2r hg2 d hd
      · intro e2 he2 hg2 d
        rcases List.mem_cons.mp he2 with rfl | he2r
        · rw [ih6 e2 herest d]
          exact hsums e2 (List.mem_cons_self _ _) d
        · exact ih4 e2 he2r hg2 d
      · intro e2 he2 d
        have he2r : e2 ∉ rest := fun h => he2 (List.mem_cons_of_mem _ h)
        exact ih6 e2 he2r d

theorem reconcile_master (snapshot virtuals selected res0 : List Row) (D : ℕ)
    (hq0 : AllQuarter res0)
    (hsnapq : AllQuarter snapshot)
    (hlen0 : ∀ i, i < res0.length → (getRow res0 i).hours.length = D)
    (hOq : ∀ e d, IsQuarter (sumAt (virtuals ++ selected) e d))
    (hbudget : ∀ e, ∀ d, d < D →
      ((res0.filter (fun r => r.earning == e)).map
        (fun r => snapshotHours snapshot r.code e d)).sum ≤
        sumAt (virtuals ++ selected) e d)
    (hfl0 : ∀ j, j < res0.length → ∀ d',
      snapshotHours snapshot (getRow res0 j).code (getRow res0 j).earning d' ≤
        hourAt (getRow res0 j) d') :
    SameShape (reconcile snapshot virtuals selected D res0) res0 ∧
    AllQuarter (reconcile snapshot virtuals selected D res0) ∧
    (∀ e, e ∈ (virtuals ++ selected).map Row.earning →
      (res0.map Row.earning).contains e → ∀ d, d < D →
      sumAt (reconcile snapshot virtuals selected D res0) e d =
        sumAt (virtuals ++ selected) e d) ∧
    (∀ j, j < res0.length → ∀ d',
      snapshotHours snapshot (getRow res0 j).code (getRow res0 j).earning d' ≤
        hourAt (getRow (reconcile snapshot virtuals selected D res0) j) d') := by
  rw [reconcile]
  have hnd : (sortBy (fun a b => (compare a b).isLE)
      (((virtuals ++ selected).map Row.earning).dedup)).Nodup :=
    ((sortBy_perm _ _).nodup_iff).mpr (List.nodup_dedup _)
  obtain ⟨hsh, hq, h3, h4, h6, hfl⟩ := earnings_fold snapshot res0
    (virtuals ++ selected) D
    (sortBy (fun a b => (compare a b).isLE)
      (((virtuals ++ selected).map Row.earning).dedup)) res0 hnd
    (sameShape_refl res0) hq0 hsnapq hlen0 hOq
    (fun e _ d hd => hbudget e d hd) (fun e _ d => rfl) hfl0
  refine ⟨hsh, hq, ?_, hfl⟩
  intro e he hg d hd
  have hees : e ∈ sortBy (fun a b => (compare a b).isLE)
      (((virtuals ++ selected).map Row.earning).dedup) := by
    rw [mem_sortBy, List.mem_dedup]
    exact he
  exact h3 e hees hg d hd

/-! # Claims C1 and C3: the Allocator invariant -/

theorem getD_zero_of_le (l : List ℚ) (d : ℕ) (h : l.length ≤ d) :
    l.getD d 0 = 0 := by
  rw [List.getD_eq_getElem?_getD, List.getElem?_eq_none (by omega)]
  rfl

theorem weights_nonneg (rs : List Row)
    (hnn : ∀ r ∈ rs, ∀ q ∈ r.hours, 0 ≤ q)
    (w : ℚ) (hw : w ∈ get_distribution_weights rs) : 0 ≤ w := by
  rw [get_distribution_weights] at hw
  by_cases hz : (rs.map totalHours).sum = 0
  · rw [if_pos hz] at hw
    obtain ⟨r, _, rfl⟩ := List.mem_map.mp hw
    have : (0 : ℚ) ≤ (rs.length : ℚ) := by positivity
    positivity
  · rw [if_neg hz] at hw
    obtain ⟨t, ht, rfl⟩ := List.mem_map.mp hw
    have htn : 0 ≤ t := by
      obtain ⟨r, hr, rfl⟩ := List.mem_map.mp ht
      exact sum_nonneg_list _ (hnn r hr)
    have hsn : 0 ≤ (rs.map totalHours).sum := by
      apply sum_nonneg_list
      intro x hx
      obtain ⟨r, hr, rfl⟩ := List.mem_map.mp hx
      exact sum_nonneg_list _ (hnn r hr)
    exact div_nonneg htn hsn

theorem addToFirstCode_mem_elim (c : String) (add : List ℚ) (l : List Row)
    (r : Row) (h : r ∈ addToFirstCode c add l) :
    (∃ y ∈ l, r = { y with hours := zipAdd y.hours add }) ∨ r ∈ l := by
  induction l with
  | nil => simp [addToFirstCode] at h
  | cons y ys ih =>
    rw [addToFirstCode] at h
    by_cases hy : y.code == c
    · rw [if_pos hy] at h
      rcases List.mem_cons.mp h with rfl | h2
      · exact Or.inl ⟨y, List.mem_cons_self _ _, rfl⟩
      · exact Or.inr (List.mem_cons_of_mem _ h2)
    · rw [if_neg hy] at h
      rcases List.mem_cons.mp h with rfl | h2
      · exact Or.inr (List.mem_cons_self _ _)
      · rcases ih h2 with ⟨y2, hy2, rfl⟩ | h3
        · exact Or.inl ⟨y2, List.mem_cons_of_mem _ hy2, rfl⟩
        · exact Or.inr (List.mem_cons_of_mem _ h3)

theorem addToFirstCode_witness (c : String) (add : List ℚ)
    (haddnn : ∀ q ∈ add, 0 ≤ q) (l : List Row)
    (hlen : ∀ r ∈ l, r.hours.length = add.length)
    (a : Row) (ha : a ∈ l) :
    ∃ a', a' ∈ addToFirstCode c add l ∧ rowKey a' = rowKey a ∧
      ∀ d, hourAt a d ≤ hourAt a' d := by
  induction l with
  | nil => simp at ha
  | cons y ys ih =>
    rw [addToFirstCode]
    by_cases hy : y.code == c
    · rw [if_pos hy]
      rcases List.mem_cons.mp ha with rfl | ha2
      · refine ⟨{ a with hours := zipAdd a.hours add },
          List.mem_cons_self _ _, rfl, ?_⟩
        intro d
        show a.hours.getD d 0 ≤ (zipAdd a.hours add).getD d 0
        have hal : a.hours.length = add.length :=
          hlen a (List.mem_cons_self _ _)
        rcases lt_or_le d a.hours.length with hd | hd
        · rw [zipAdd_getD a.hours add d hd (by omega)]
          have : 0 ≤ add.getD d 0 := getD_nonneg_of_forall add d haddnn
          linarith
        · rw [getD_zero_of_le a.hours d hd,
            getD_zero_of_le (zipAdd a.hours add) d
              (by rw [zipAdd_length]; omega)]
      · exact ⟨a, List.mem_cons_of_mem _ ha2, rfl, fun d => le_refl _⟩
    · rw [if_neg hy]
      rcases List.mem_cons.mp ha with rfl | ha2
      · exact ⟨a, List.mem_cons_self _ _, rfl, fun d => le_refl _⟩
      · obtain ⟨a', ha', hk, hh⟩ :=
          ih (fun r hr => hlen r (List.mem_cons_of_mem _ hr)) ha2
        exact ⟨a', List.mem_cons_of_mem _ ha', hk, hh⟩

theorem addToFirstCode_inv (selected : List Row) (D : ℕ) (c : String)
    (add : List ℚ) (haddlen : add.length = D) (haddnn : ∀ q ∈ add, 0 ≤ q)
    (acc : List Row) (hinv : AllocInv D selected acc) :
    AllocInv D selected (addToFirstCode c add acc) := by
  obtain ⟨h1, h2⟩ := hinv
  constructor
  · intro r hr
    rcases addToFirstCode_mem_elim c add acc r hr with ⟨y, hy, rfl⟩ | hr2
    · obtain ⟨hyl, hyn, s, hs, hsc, hsp, hsa, hsw⟩ := h1 y hy
      refine ⟨?_, ?_, s, hs, hsc, hsp, hsa, hsw⟩
      · show (zipAdd y.hours add).length = D
        rw [zipAdd_length, hyl, haddlen]
        simp
      · intro q hq
        obtain ⟨x, hx, z, hz, rfl⟩ := mem_zipAdd y.hours add q hq
        have hx2 := hyn x hx
        have hz2 := haddnn z hz
        linarith
    · exact h1 r hr2
  · intro s hs
    obtain ⟨a, ha, hk, hh⟩ := h2 s hs
    obtain ⟨a', ha', hk', hh'⟩ := addToFirstCode_witness c add haddnn acc
      (fun r hr => by rw [(h1 r hr).1, haddlen]) a ha
    exact ⟨a', ha', by rw [hk', hk], fun d => le_trans (hh d) (hh' d)⟩

theorem processVirtualRow_inv (selected : List Row) (D : ℕ) (v : Row)
    (hsel_nn : ∀ s ∈ selected, ∀ q ∈ s.hours, 0 ≤ q)
    (hv_len : v.hours.length = D)
    (hv_nn : ∀ q ∈ v.hours, 0 ≤ q)
    (acc : List Row) (hinv : AllocInv D selected acc) :
    AllocInv D selected (processVirtualRow selected v acc) := by
  simp only [processVirtualRow]
  by_cases hv : v.earning == "1"
  · rw [if_pos hv]
    apply foldl_preserve _ _ _ ?_ hinv
    intro b sw hsw hb
    apply addToFirstCode_inv selected D sw.1.code (scaleHours v.hours sw.2)
      ?_ ?_ b hb
    · show (v.hours.map _).length = D
      rw [List.length_map]
      exact hv_len
    · intro q hq
      obtain ⟨x, hx, rfl⟩ := List.mem_map.mp hq
      exact mul_nonneg (hv_nn x hx)
        (weights_nonneg selected hsel_nn sw.2 (List.of_mem_zip hsw).2)
  · rw [if_neg hv]
    rw [foldl_append_singleton (fun sw : Row × ℚ =>
      { code := sw.1.code, projectId := sw.1.projectId,
        activityId := sw.1.activityId, awardId := sw.1.awardId,
        earning := v.earning, hours := scaleHours v.hours sw.2 }) _ acc]
    obtain ⟨h1, h2⟩ := hinv
    constructor
    · intro r hr
      rcases List.mem_append.mp hr with hr1 | hr2
      · exact h1 r hr1
      · obtain ⟨sw, hsw, rfl⟩ := List.mem_map.mp hr2
        refine ⟨?_, ?_, sw.1, (List.of_mem_zip hsw).1, rfl, rfl, rfl, rfl⟩
        · show (v.hours.map _).length = D
          rw [List.length_map]
          exact hv_len
        · intro q hq
          obtain ⟨x, hx, rfl⟩ := List.mem_map.mp hq
          exact mul_nonneg (hv_nn x hx)
            (weights_nonneg selected hsel_nn sw.2 (List.of_mem_zip hsw).2)
    · intro s hs
      obtain ⟨a, ha, hk, hh⟩ := h2 s hs
      exact ⟨a, List.mem_append.mpr (Or.inl ha), hk, hh⟩

theorem allocate_inv (selected virtuals : List Row) (D : ℕ)
    (hsel_len : ∀ s ∈ selected, s.hours.length = D)
    (hsel_nn : ∀ s ∈ selected, ∀ q ∈ s.hours, 0 ≤ q)
    (hv_len : ∀ v ∈ virtuals, v.hours.length = D)
    (hv_nn : ∀ v ∈ virtuals, ∀ q ∈ v.hours, 0 ≤ q) :
    AllocInv D selected (allocate selected virtuals) := by
  rw [allocate]
  apply foldl_preserve _ _ _ ?_ ?_
  · intro b v hv hb
    exact processVirtualRow_inv selected D v hsel_nn (hv_len v hv)
      (hv_nn v hv) b hb
  · constructor
    · intro a ha
      exact ⟨hsel_len a ha, hsel_nn a ha, a, ha, rfl, rfl, rfl, rfl⟩
    · intro s hs
      exact ⟨s, hs, rfl, fun d => le_refl _⟩

/-! # Claims C1 and C3: facts about the merged, rounded DataFrame -/

theorem mergeRows_hours_length (D : ℕ) (A : List Row)
    (hlen : ∀ a ∈ A, a.hours.length = D) :
    ∀ m ∈ mergeRows D A, m.hours.length = D := by
  intro m hm
  simp only [mergeRows] at hm
  obtain ⟨k, hk, rfl⟩ := List.mem_map.mp hm
  show (sumHourLists D _).length = D
  apply sumHourLists_length
  intro l hl
  obtain ⟨r, hr, rfl⟩ := List.mem_map.mp hl
  exact hlen r (List.mem_of_mem_filter hr)

theorem mergeRows_getD (D : ℕ) (A : List Row)
    (hlen : ∀ a ∈ A, a.hours.length = D)
    (m : Row) (hm : m ∈ mergeRows D A) (d : ℕ) (hd : d < D) :
    hourAt m d = ((A.filter (fun r => rowKey r == rowKey m)).map
      (fun r => hourAt r d)).sum := by
  simp only [mergeRows] at hm
  obtain ⟨k, hk, rfl⟩ := List.mem_map.mp hm
  rw [rowKey_mk]
  show (sumHourLists D _).getD d 0 = _
  rw [sumHourLists_getD D d hd _ (fun l hl => by
    obtain ⟨r, hr, rfl⟩ := List.mem_map.mp hl
    exact hlen r (List.mem_of_mem_filter hr))]
  rw [List.map_map]
  rfl

theorem mergeRows_provenance (D : ℕ) (A selected : List Row)
    (hprov : ∀ a ∈ A, ∃ s, s ∈ selected ∧ s.code = a.code ∧
      s.projectId = a.projectId ∧ s.activityId = a.activityId ∧
      s.awardId = a.awardId)
    (m : Row) (hm : m ∈ mergeRows D A) :
    ∃ s, s ∈ selected ∧ s.code = m.code ∧ s.projectId = m.projectId ∧
      s.activityId = m.activityId ∧ s.awardId = m.awardId := by
  simp only [mergeRows] at hm
  obtain ⟨k, hk, rfl⟩ := List.mem_map.mp hm
  rw [mem_mergeKeys] at hk
  obtain ⟨a, ha, hak⟩ := List.mem_map.mp hk
  obtain ⟨s, hs, h1, h2, h3, h4⟩ := hprov a ha
  subst hak
  exact ⟨s, hs, h1, h2, h3, h4⟩

theorem mergeRows_keys_nodup (D : ℕ) (A : List Row) :
    ((mergeRows D A).map rowKey).Nodup := by
  simp only [mergeRows]
  rw [List.map_map]
  apply List.Nodup.map_on ?_ (mergeKeys_nodup A)
  intro x hx y hy hxy
  simp only [Function.comp] at hxy
  rw [rowKey_mk, rowKey_mk] at hxy
  exact hxy

theorem mergeRows_filter_codes_nodup (D : ℕ) (A selected : List Row)
    (e : String)
    (hprov : ∀ a ∈ A, ∃ s, s ∈ selected ∧ s.code = a.code ∧
      s.projectId = a.projectId ∧ s.activityId = a.activityId ∧
      s.awardId = a.awardId)
    (hnd : (selected.map Row.code).Nodup) :
    (((mergeRows D A).filter (fun r => r.earning == e)).map Row.code).Nodup := by
  have hpw : (mergeRows D A).Pairwise (fun r1 r2 => rowKey r1 ≠ rowKey r2) :=
    (List.pairwise_map).mp (mergeRows_keys_nodup D A)
  have hpwf : ((mergeRows D A).filter (fun r => r.earning == e)).Pairwise
      (fun r1 r2 => rowKey r1 ≠ rowKey r2) :=
    hpw.sublist (List.filter_sublist _)
  have hgoal : ((mergeRows D A).filter (fun r => r.earning == e)).Pairwise
      (fun r1 r2 => r1.code ≠ r2.code) := by
    apply List.Pairwise.imp_of_mem ?_ hpwf
    intro r1 r2 h1 h2 hkey hcode
    apply hkey
    have he1 : r1.earning = e := by simpa using List.of_mem_filter h1
    have he2 : r2.earning = e := by simpa using List.of_mem_filter h2
    obtain ⟨s1, hs1, c1, p1, a1, w1⟩ := mergeRows_provenance D A selected
      hprov r1 (List.mem_of_mem_filter h1)
    obtain ⟨s2, hs2, c2, p2, a2, w2⟩ := mergeRows_provenance D A selected
      hprov r2 (List.mem_of_mem_filter h2)
    have hs12 : s1 = s2 := by
      apply List.inj_on_of_nodup_map hnd hs1 hs2
      rw [c1, c2, hcode]
    show (r1.code, r1.projectId, r1.activityId, r1.awardId, r1.earning) =
      (r2.code, r2.projectId, r2.activityId, r2.awardId, r2.earning)
    have hp : r1.projectId = r2.projectId := by rw [← p1, hs12, p2]
    have ha : r1.activityId = r2.activityId := by rw [← a1, hs12, a2]
    have hw : r1.awardId = r2.awardId := by rw [← w1, hs12, w2]
    rw [hcode, hp, ha, hw, he1, he2]
  exact (List.pairwise_map).mpr hgoal

theorem mergeRows_floor (D : ℕ) (A selected : List Row)
    (hinv : AllocInv D selected A)
    (hnd : (selected.map Row.code).Nodup)
    (hsel_len : ∀ s ∈ selected, s.hours.length = D)
    (m : Row) (hm : m ∈ mergeRows D A) (d : ℕ) :
    snapshotHours selected m.code m.earning d ≤ hourAt m d := by
  obtain ⟨h1, h2⟩ := hinv
  have hlenA : ∀ a ∈ A, a.hours.length = D := fun a ha => (h1 a ha).1
  have hmlen : m.hours.length = D := mergeRows_hours_length D A hlenA m hm
  rcases lt_or_le d D with hd | hd
  · rw [mergeRows_getD D A hlenA m hm d hd, snapshotHours]
    cases hh : (selected.filter
        (fun s => s.code == m.code && s.earning == m.earning)).head? with
    | none =>
      show (0:ℚ) ≤ _
      apply sum_nonneg_list
      intro x hx
      obtain ⟨a, ha, rfl⟩ := List.mem_map.mp hx
      exact getD_nonneg_of_forall _ d ((h1 a (List.mem_of_mem_filter ha)).2.1)
    | some s0 =>
      show hourAt s0 d ≤ _
      obtain ⟨pre, post, heq, hpre, hps⟩ := head?_filter_decomp _ selected s0 hh
      have hs0 : s0 ∈ selected := by rw [heq]; simp
      simp only [Bool.and_eq_true, beq_iff_eq] at hps
      obtain ⟨hc0, he0⟩ := hps
      obtain ⟨a, ha, hak, hdom⟩ := h2 s0 hs0
      obtain ⟨sm, hsm, cm, pm, am, wm⟩ := mergeRows_provenance D A selected
        (fun a2 ha2 => (h1 a2 ha2).2.2) m hm
      have hsms0 : sm = s0 := by
        apply List.inj_on_of_nodup_map hnd hsm hs0
        rw [cm, hc0]
      rw [hsms0] at pm am wm
      have hkey : rowKey s0 = rowKey m := by
        show (s0.code, s0.projectId, s0.activityId, s0.awardId, s0.earning) =
          (m.code, m.projectId, m.activityId, m.awardId, m.earning)
        rw [hc0, he0, pm, am, wm]
      have hafilter : a ∈ A.filter (fun r => rowKey r == rowKey m) := by
        apply List.mem_filter.mpr
        refine ⟨ha, ?_⟩
        rw [hak, hkey]
        exact beq_self_eq_true _
      calc hourAt s0 d ≤ hourAt a d := hdom d
        _ ≤ _ := by
          apply List.single_le_sum ?_ _ (List.mem_map.mpr ⟨a, hafilter, rfl⟩)
          intro x hx
          obtain ⟨a2, ha2, rfl⟩ := List.mem_map.mp hx
          exact getD_nonneg_of_forall _ d
            ((h1 a2 (List.mem_of_mem_filter ha2)).2.1)
  · have hm0 : hourAt m d = 0 := getD_zero_of_le m.hours d (by omega)
    rw [hm0, snapshotHours]
    cases hh : (selected.filter
        (fun s => s.code == m.code && s.earning == m.earning)).head? with
    | none => exact le_refl 0
    | some s0 =>
      show hourAt s0 d ≤ (0:ℚ)
      obtain ⟨pre, post, heq, hpre, hps⟩ := head?_filter_decomp _ selected s0 hh
      have hs0 : s0 ∈ selected := by rw [heq]; simp
      rw [hourAt, getD_zero_of_le s0.hours d (by rw [hsel_len s0 hs0]; omega)]

/-! # Claims C1 and C3: every input earning survives into the merged frame -/

theorem addToFirstCode_earning (c : String) (add : List ℚ) (l : List Row)
    (e : String) (h : ∃ a ∈ l, a.earning = e) :
    ∃ a ∈ addToFirstCode c add l, a.earning = e := by
  obtain ⟨a, ha, hae⟩ := h
  induction l with
  | nil => simp at ha
  | cons y ys ih =>
    rw [addToFirstCode]
    by_cases hy : y.code == c
    · rw [if_pos hy]
      rcases List.mem_cons.mp ha with rfl | ha2
      · exact ⟨{ a with hours := zipAdd a.hours add },
          List.mem_cons_self _ _, hae⟩
      · exact ⟨a, List.mem_cons_of_mem _ ha2, hae⟩
    · rw [if_neg hy]
      rcases List.mem_cons.mp ha with rfl | ha2
      · exact ⟨a, List.mem_cons_self _ _, hae⟩
      · obtain ⟨a', ha', hae'⟩ := ih ha2
        exact ⟨a', List.mem_cons_of_mem _ ha', hae'⟩

theorem processVirtualRow_presence (selected : List Row) (v : Row)
    (acc : List Row) (e : String) (h : ∃ a ∈ acc, a.earning = e) :
    ∃ a ∈ processVirtualRow selected v acc, a.earning = e := by
  simp only [processVirtualRow]
  by_cases hv : v.earning == "1"
  · rw [if_pos hv]
    exact @foldl_preserve (Row × ℚ) (List Row)
      (fun l => ∃ a ∈ l, a.earning = e)
      (fun res sw => addToFirstCode sw.1.code (scaleHours v.hours sw.2) res)
      (selected.zip (get_distribution_weights selected)) acc
      (fun b sw _ hb =>
        addToFirstCode_earning sw.1.code (scaleHours v.hours sw.2) b e hb) h
  · rw [if_neg hv]
    exact @foldl_preserve (Row × ℚ) (List Row)
      (fun l => ∃ a ∈ l, a.earning = e)
      (fun res sw => res ++
        [{ code := sw.1.code, projectId := sw.1.projectId,
           activityId := sw.1.activityId, awardId := sw.1.awardId,
           earning := v.earning, hours := scaleHours v.hours sw.2 }])
      (selected.zip (get_distribution_weights selected)) acc
      (fun b sw _ hb => by
        obtain ⟨a, ha, hae⟩ := hb
        exact ⟨a, List.mem_append.mpr (Or.inl ha), hae⟩) h

theorem processVirtualRow_new_earning (selected : List Row) (v : Row)
    (acc : List Row) (hve : ¬ ((v.earning == "1") = true))
    (hsel : selected ≠ []) :
    ∃ a ∈ processVirtualRow selected v acc, a.earning = v.earning := by
  simp only [processVirtualRow]
  rw [if_neg hve]
  rw [foldl_append_singleton (fun sw : Row × ℚ =>
    { code := sw.1.code, projectId := sw.1.projectId,
      activityId := sw.1.activityId, awardId := sw.1.awardId,
      earning := v.earning, hours := scaleHours v.hours sw.2 }) _ acc]
  have hzlen : (selected.zip (get_distribution_weights selected)).length =
      selected.length := by
    rw [List.length_zip, length_get_distribution_weights]
    simp
  have hzne : (selected.zip (get_distribution_weights selected)).length ≠ 0 := by
    rw [hzlen]
    intro hcon
    exact hsel (List.length_eq_zero.mp hcon)
  obtain ⟨sw, hsw⟩ := List.exists_mem_of_length_pos
    (show 0 < (selected.zip (get_distribution_weights selected)).length by
      omega)
  refine ⟨{ code := sw.1.code, projectId := sw.1.projectId,
            activityId := sw.1.activityId, awardId := sw.1.awardId,
            earning := v.earning, hours := scaleHours v.hours sw.2 },
    List.mem_append.mpr (Or.inr (List.mem_map.mpr ⟨sw, hsw, rfl⟩)), rfl⟩

theorem foldl_presence_virtual (selected : List Row) (vs : List Row) (v : Row)
    (hv : v ∈ vs) (hve : ¬ ((v.earning == "1") = true)) (hsel : selected ≠ [])
    (acc : List Row) :
    ∃ a ∈ vs.foldl (fun res w => processVirtualRow selected w res) acc,
      a.earning = v.earning := by
  induction vs generalizing acc with
  | nil => simp at hv
  | cons w ws ih =>
    simp only [List.foldl_cons]
    rcases List.mem_cons.mp hv with rfl | hv2
    · exact @foldl_preserve Row (List Row)
        (fun l => ∃ a ∈ l, a.earning = v.earning)
        (fun res w2 => processVirtualRow selected w2 res) ws
        (processVirtualRow selected v acc)
        (fun b w2 _ hb => processVirtualRow_presence selected w2 b v.earning hb)
        (processVirtualRow_new_earning selected v acc hve hsel)
    · exact ih hv2 _

theorem allocate_presence (selected virtuals : List Row) (e : String)
    (hinit : ∃ a ∈ selected, a.earning = e) :
    ∃ a ∈ allocate selected virtuals, a.earning = e := by
  rw [allocate]
  exact @foldl_preserve Row (List Row) (fun l => ∃ a ∈ l, a.earning = e)
    (fun res v => processVirtualRow selected v res) virtuals selected
    (fun b v _ hb => processVirtualRow_presence selected v b e hb) hinit

theorem allocate_presence_virtual (selected virtuals : List Row) (v : Row)
    (hv : v ∈ virtuals) (hve : ¬ ((v.earning == "1") = true))
    (hsel : selected ≠ []) :
    ∃ a ∈ allocate selected virtuals, a.earning = v.earning := by
  rw [allocate]
  exact foldl_presence_virtual selected virtuals v hv hve hsel selected

/-! # Claims C1 and C3: rounding frame and the assembled pipeline facts -/

theorem getRow_map (f : Row → Row) (rows : List Row) (j : ℕ)
    (hj : j < rows.length) : getRow (rows.map f) j = f (getRow rows j) := by
  rw [getRow, getRow, List.getD_eq_getElem?_getD, List.getD_eq_getElem?_getD,
    List.getElem?_eq_getElem hj,
    List.getElem?_eq_getElem (show j < (rows.map f).length by simpa using hj)]
  simp

theorem hourAt_map_roundQuarter (r : Row) (d : ℕ) :
    hourAt { r with hours := r.hours.map roundQuarter } d =
      roundQuarter (hourAt r d) := by
  show (r.hours.map roundQuarter).getD d 0 = roundQuarter (r.hours.getD d 0)
  rcases lt_or_le d r.hours.length with hd | hd
  · rw [List.getD_eq_getElem?_getD,
      List.getElem?_eq_getElem (show d < (r.hours.map roundQuarter).length
        by simpa using hd),
      List.getD_eq_getElem?_getD, List.getElem?_eq_getElem hd]
    simp
  · rw [getD_zero_of_le _ d (by simpa using hd), getD_zero_of_le _ d hd]
    exact (IsQuarter.roundQuarter_eq IsQuarter.zero).symm

theorem mergeRows_presence (D : ℕ) (A : List Row) (e : String)
    (h : ∃ a ∈ A, a.earning = e) : ∃ m ∈ mergeRows D A, m.earning = e := by
  obtain ⟨a, ha, hae⟩ := h
  have hk : rowKey a ∈ sortBy (fun x y => (keyCmp x y).isLE)
      ((A.map rowKey).dedup) := by
    rw [mem_mergeKeys]
    exact List.mem_map_of_mem rowKey ha
  simp only [mergeRows]
  exact ⟨_, List.mem_map_of_mem _ hk, hae⟩

theorem roundAllRows_presence (rows : List Row) (e : String)
    (h : ∃ m ∈ rows, m.earning = e) :
    ∃ r ∈ roundAllRows rows, r.earning = e := by
  obtain ⟨m, hm, hme⟩ := h
  rw [roundAllRows]
  exact ⟨_, List.mem_map_of_mem _ hm, hme⟩

theorem roundAllRows_filter_map_code (rows : List Row) (e : String) :
    ((roundAllRows rows).filter (fun r => r.earning == e)).map Row.code =
      (rows.filter (fun r => r.earning == e)).map Row.code := by
  rw [roundAllRows]
  induction rows with
  | nil => rfl
  | cons x xs ih =>
    rw [List.map_cons, List.filter_cons, List.filter_cons]
    by_cases hx : x.earning == e
    · rw [if_pos (by simpa using hx), if_pos hx]
      simp only [List.map_cons]
      rw [ih]
    · rw [if_neg (by simpa using hx), if_neg hx]
      exact ih

theorem redistribute_some_elim (inp : LedgerInput) (out : List Row)
    (h : redistribute_hours_by_earning inp = some out) :
    inp.table ≠ [] ∧ inp.D ≠ 0 ∧ realRows inp.table inp.rows ≠ [] ∧
    selectedOf inp.table inp.sel inp.rows ≠ [] ∧
    out = reconciledResult inp ++ retainedOf inp.table inp.sel inp.rows ++
      exceptedRows inp.table inp.rows := by
  rw [redistribute_hours_by_earning] at h
  split_ifs at h with h1 h2 h3 h4
  all_goals simp at h
  refine ⟨h1, h2, h3, h4, ?_⟩
  rw [← List.append_assoc] at h
  exact h.symm

theorem mergedResult_guard (inp : LedgerInput)
    (hsel : selectedOf inp.table inp.sel inp.rows ≠ [])
    (hreg : (∃ v ∈ virtualRows inp.table inp.rows, v.earning = "1") →
      ∃ s ∈ selectedOf inp.table inp.sel inp.rows, s.earning = "1")
    (e : String) (he : e ∈ (originalForComparison inp).map Row.earning) :
    ((mergedResult inp).map Row.earning).contains e := by
  have hpres : ∃ r ∈ mergedResult inp, r.earning = e := by
    rw [originalForComparison] at he
    obtain ⟨r, hr, hre⟩ := List.mem_map.mp he
    rcases List.mem_append.mp hr with hrv | hrs
    · by_cases h1 : (r.earning == "1") = true
      · have hr1 : r.earning = "1" := by simpa using h1
        obtain ⟨s, hs, hse⟩ := hreg ⟨r, hrv, hr1⟩
        apply roundAllRows_presence
        apply mergeRows_presence
        apply allocate_presence
        exact ⟨s, hs, by rw [hse, ← hr1, hre]⟩
      · apply roundAllRows_presence
        apply mergeRows_presence
        obtain ⟨a, ha, hae⟩ := allocate_presence_virtual
          (selectedOf inp.table inp.sel inp.rows)
          (virtualRows inp.table inp.rows) r hrv h1 hsel
        exact ⟨a, ha, by rw [hae, hre]⟩
    · apply roundAllRows_presence
      apply mergeRows_presence
      apply allocate_presence
      exact ⟨r, hrs, hre⟩
  obtain ⟨r, hr, hre⟩ := hpres
  rw [List.contains_eq_any_beq, List.any_eq_true]
  refine ⟨e, ?_, by simp⟩
  rw [← hre]
  exact List.mem_map_of_mem Row.earning hr

theorem pipeline_facts (inp : LedgerInput)
    (hv : ValidInput inp) (hq : QuarterInput inp)
    (hnd : ((selectedOf inp.table inp.sel inp.rows).map Row.code).Nodup) :
    SameShape (reconciledResult inp) (mergedResult inp) ∧
    AllQuarter (reconciledResult inp) ∧
    (∀ e, e ∈ (originalForComparison inp).map Row.earning →
      ((mergedResult inp).map Row.earning).contains e → ∀ d, d < inp.D →
      sumAt (reconciledResult inp) e d =
        sumAt (originalForComparison inp) e d) ∧
    (∀ j, j < (mergedResult inp).length → ∀ d',
      snapshotHours (selectedOf inp.table inp.sel inp.rows)
        (getRow (mergedResult inp) j).code
        (getRow (mergedResult inp) j).earning d' ≤
        hourAt (getRow (reconciledResult inp) j) d') := by
  have hselsub : ∀ s ∈ selectedOf inp.table inp.sel inp.rows, s ∈ inp.rows :=
    fun s hs => List.mem_of_mem_filter (List.mem_of_mem_filter hs)
  have hvirsub : ∀ v ∈ virtualRows inp.table inp.rows, v ∈ inp.rows :=
    fun v hv2 => List.mem_of_mem_filter hv2
  have hsel_len : ∀ s ∈ selectedOf inp.table inp.sel inp.rows,
      s.hours.length = inp.D := fun s hs => hv.1 s (hselsub s hs)
  have hsel_nn : ∀ s ∈ selectedOf inp.table inp.sel inp.rows,
      ∀ q ∈ s.hours, 0 ≤ q := fun s hs => hv.2 s (hselsub s hs)
  have hsel_q : AllQuarter (selectedOf inp.table inp.sel inp.rows) :=
    fun s hs => hq s (hselsub s hs)
  have hvir_len : ∀ v ∈ virtualRows inp.table inp.rows,
      v.hours.length = inp.D := fun v hv2 => hv.1 v (hvirsub v hv2)
  have hvir_nn : ∀ v ∈ virtualRows inp.table inp.rows,
      ∀ q ∈ v.hours, 0 ≤ q := fun v hv2 => hv.2 v (hvirsub v hv2)
  have hinv := allocate_inv (selectedOf inp.table inp.sel inp.rows)
    (virtualRows inp.table inp.rows) inp.D hsel_len hsel_nn hvir_len hvir_nn
  have hlenA : ∀ a ∈ allocate (selectedOf inp.table inp.sel inp.rows)
      (virtualRows inp.table inp.rows), a.hours.length = inp.D :=
    fun a ha => (hinv.1 a ha).1
  have hprov : ∀ a ∈ allocate (selectedOf inp.table inp.sel inp.rows)
      (virtualRows inp.table inp.rows),
      ∃ s, s ∈ selectedOf inp.table inp.sel inp.rows ∧ s.code = a.code ∧
        s.projectId = a.projectId ∧ s.activityId = a.activityId ∧
        s.awardId = a.awardId := fun a ha => (hinv.1 a ha).2.2
  have hres0len : ∀ r ∈ mergedResult inp, r.hours.length = inp.D := by
    intro r hr
    simp only [mergedResult, roundAllRows] at hr
    obtain ⟨m, hm, rfl⟩ := List.mem_map.mp hr
    show (m.hours.map roundQuarter).length = inp.D
    rw [List.length_map]
    exact mergeRows_hours_length inp.D _ hlenA m hm
  have hlen0 : ∀ i, i < (mergedResult inp).length →
      (getRow (mergedResult inp) i).hours.length = inp.D :=
    fun i hi => hres0len _ (getRow_mem _ _ hi)
  have hq0 : AllQuarter (mergedResult inp) := allQuarter_roundAllRows _
  have hOq : ∀ e d, IsQuarter (sumAt (originalForComparison inp) e d) := by
    intro e d
    apply sumAt_quarter
    intro r hr
    rcases List.mem_append.mp hr with h | h
    · exact hq r (hvirsub r h)
    · exact hq r (hselsub r h)
  have hbudget : ∀ e, ∀ d, d < inp.D →
      (((mergedResult inp).filter (fun r => r.earning == e)).map
        (fun r => snapshotHours (selectedOf inp.table inp.sel inp.rows)
          r.code e d)).sum ≤ sumAt (originalForComparison inp) e d := by
    intro e d _
    have h1 : ((mergedResult inp).filter (fun r => r.earning == e)).map
        (fun r => snapshotHours (selectedOf inp.table inp.sel inp.rows)
          r.code e d) =
        (((mergedResult inp).filter (fun r => r.earning == e)).map
          Row.code).map
          (fun c => snapshotHours (selectedOf inp.table inp.sel inp.rows)
            c e d) := by
      rw [List.map_map]
      rfl
    rw [h1]
    have h2 : ((mergedResult inp).filter (fun r => r.earning == e)).map
        Row.code = ((mergeRows inp.D (allocate
          (selectedOf inp.table inp.sel inp.rows)
          (virtualRows inp.table inp.rows))).filter
            (fun r => r.earning == e)).map Row.code := by
      simp only [mergedResult]
      exact roundAllRows_filter_map_code _ e
    rw [h2]
    have h3 := snap_sum_le (selectedOf inp.table inp.sel inp.rows) e d
      (((mergeRows inp.D (allocate (selectedOf inp.table inp.sel inp.rows)
        (virtualRows inp.table inp.rows))).filter
          (fun r => r.earning == e)).map Row.code)
      (mergeRows_filter_codes_nodup inp.D _
        (selectedOf inp.table inp.sel inp.rows) e hprov hnd) hsel_nn
    have h4 : sumAt (selectedOf inp.table inp.sel inp.rows) e d ≤
        sumAt (originalForComparison inp) e d := by
      rw [originalForComparison, sumAt_append]
      have := sumAt_nonneg (virtualRows inp.table inp.rows) e d hvir_nn
      linarith
    calc _ ≤ sumAt (selectedOf inp.table inp.sel inp.rows) e d := h3
      _ ≤ _ := h4
  have hfl0 : ∀ j, j < (mergedResult inp).length → ∀ d',
      snapshotHours (selectedOf inp.table inp.sel inp.rows)
        (getRow (mergedResult inp) j).code
        (getRow (mergedResult inp) j).earning d' ≤
        hourAt (getRow (mergedResult inp) j) d' := by
    intro j hj d'
    have hjM : j < (mergeRows inp.D (allocate
        (selectedOf inp.table inp.sel inp.rows)
        (virtualRows inp.table inp.rows))).length := by
      simp only [mergedResult, roundAllRows] at hj
      simpa using hj
    have hget : getRow (mergedResult inp) j =
        { getRow (mergeRows inp.D (allocate
            (selectedOf inp.table inp.sel inp.rows)
            (virtualRows inp.table inp.rows))) j with
          hours := (getRow (mergeRows inp.D (allocate
            (selectedOf inp.table inp.sel inp.rows)
            (virtualRows inp.table inp.rows))) j).hours.map roundQuarter } := by
      simp only [mergedResult, roundAllRows]
      exact getRow_map _ _ j hjM
    rw [hget]
    show snapshotHours _ (getRow (mergeRows inp.D _) j).code
      (getRow (mergeRows inp.D _) j).earning d' ≤ _
    rw [hourAt_map_roundQuarter]
    have hfloor := mergeRows_floor inp.D _
      (selectedOf inp.table inp.sel inp.rows) hinv hnd hsel_len
      (getRow _ j) (getRow_mem _ j hjM) d'
    calc snapshotHours _ _ _ d'
        = roundQuarter (snapshotHours (selectedOf inp.table inp.sel inp.rows)
            (getRow (mergeRows inp.D _) j).code
            (getRow (mergeRows inp.D _) j).earning d') :=
          (IsQuarter.roundQuarter_eq (snapshotHours_quarter _ _ _ _
            hsel_q)).symm
      _ ≤ roundQuarter (hourAt (getRow (mergeRows inp.D _) j) d') :=
          roundQuarter_mono hfloor
  obtain ⟨m1, m2, m3, m4⟩ := reconcile_master
    (selectedOf inp.table inp.sel inp.rows)
    (virtualRows inp.table inp.rows)
    (selectedOf inp.table inp.sel inp.rows)
    (mergedResult inp) inp.D hq0 hsel_q hlen0 hOq hbudget hfl0
  exact ⟨m1, m2, m3, m4⟩

theorem snapshotHours_self (selected : List Row)
    (hnd : (selected.map Row.code).Nodup) (s : Row) (hs : s ∈ selected)
    (d : ℕ) : snapshotHours selected s.code s.earning d = hourAt s d := by
  rw [snapshotHours]
  cases hh : (selected.filter
      (fun t => t.code == s.code && t.earning == s.earning)).head? with
  | none =>
    exfalso
    have hmem : s ∈ selected.filter
        (fun t => t.code == s.code && t.earning == s.earning) :=
      List.mem_filter.mpr ⟨hs, by simp⟩
    rw [List.head?_eq_none_iff.mp hh] at hmem
    exact List.not_mem_nil s hmem
  | some t =>
    show hourAt t d = hourAt s d
    obtain ⟨pre, post, heq, hpre, hpt⟩ := head?_filter_decomp _ selected t hh
    have ht : t ∈ selected := by rw [heq]; simp
    simp only [Bool.and_eq_true, beq_iff_eq] at hpt
    have hts : t = s := List.inj_on_of_nodup_map hnd ht hs hpt.1
    rw [hts]

/-- C1 counterexample: on a valid ledger whose hours are not quarter-hour
multiples (a selected Target row with 0.37 h and a Virtual regular row
with 0.004 h), the run completes but the per-(Earning, Date) total of the
reconciled Target rows misses the pre-allocation total of Virtual plus
selected Target rows by 0.124 h, far beyond the claimed 0.001 h
tolerance. -/
theorem C1_counterexample :
    ValidInput exC1 ∧
    redistribute_hours_by_earning exC1 ≠ none ∧
    1/1000 < |sumAt (originalForComparison exC1) "1" 0 -
      sumAt (reconciledResult exC1) "1" 0| := by
  refine ⟨by decide, by decide, by decide⟩

/-- C1 (amended): when every input hour is a multiple of 0.25, the
selected Target rows carry pairwise distinct Codes, and any regular
(Earning '1') Virtual row is matched by at least one selected Target row
with Earning '1', a completed run conserves every (EarningCategory, Date)
total exactly: the sum over the reconciled Target rows equals the sum
over the Virtual plus selected Target rows before allocation, for every
EarningCategory present in those rows and every date column.  Retained
and Excepted rows are excluded from both sides. -/
theorem C1_conservation (inp : LedgerInput) (out : List Row)
    (hv : ValidInput inp) (hq : QuarterInput inp)
    (hnd : ((selectedOf inp.table inp.sel inp.rows).map Row.code).Nodup)
    (hreg : (∃ v ∈ virtualRows inp.table inp.rows, v.earning = "1") →
      ∃ s ∈ selectedOf inp.table inp.sel inp.rows, s.earning = "1")
    (hout : redistribute_hours_by_earning inp = some out)
    (e : String) (he : e ∈ (originalForComparison inp).map Row.earning)
    (d : ℕ) (hd : d < inp.D) :
    sumAt (reconciledResult inp) e d =
      sumAt (originalForComparison inp) e d := by
  obtain ⟨_, _, _, hsel, _⟩ := redistribute_some_elim inp out hout
  obtain ⟨_, _, h3, _⟩ := pipeline_facts inp hv hq hnd
  exact h3 e he (mergedResult_guard inp hsel hreg e he) d hd

/-- C1 witness: a quarter-aligned ledger with two selected Target rows
and two Virtual rows (one regular, one VACATION); the regular total
8 + 2 + 0.75 = 10.75 is conserved exactly. -/
theorem C1_witness :
    sumAt (reconciledResult exC1w) "1" 0 =
      sumAt (originalForComparison exC1w) "1" 0 :=
  C1_conservation exC1w
    (reconciledResult exC1w ++ retainedOf exC1w.table exC1w.sel exC1w.rows ++
      exceptedRows exC1w.table exC1w.rows)
    (by decide) (by decide) (by decide) (by decide) (by decide)
    "1" (by decide) 0 (by decide)

/-- C3 counterexample: a valid ledger where the selected Target row `A`
holds 0.77 h before allocation; after allocation, rounding and
reconciliation the row with the same identity holds 0.75 h — below its
pre-allocation baseline, although the Reconciler only took back what the
Allocator added on the quarter grid. -/
theorem C3_counterexample :
    ValidInput exC3 ∧
    (⟨"A", "PA", "1", "w", "1", [77/100]⟩ : Row) ∈
      selectedOf exC3.table exC3.sel exC3.rows ∧
    (⟨"A", "PA", "1", "w", "1", [3/4]⟩ : Row) ∈ reconciledResult exC3 ∧
    rowKey (⟨"A", "PA", "1", "w", "1", [3/4]⟩ : Row) =
      rowKey (⟨"A", "PA", "1", "w", "1", [77/100]⟩ : Row) ∧
    hourAt (⟨"A", "PA", "1", "w", "1", [3/4]⟩ : Row) 0 <
      hourAt (⟨"A", "PA", "1", "w", "1", [77/100]⟩ : Row) 0 := by
  refine ⟨by decide, by decide, by decide, by decide, by decide⟩

/-- C3 (amended): when every input hour is a multiple of 0.25 and the
selected Target rows carry pairwise distinct Codes, no reconciled Target
row ever falls below the pre-allocation hours of the selected Target row
with the same identity, at any date. -/
theorem C3_monotonic_floor (inp : LedgerInput)
    (hv : ValidInput inp) (hq : QuarterInput inp)
    (hnd : ((selectedOf inp.table inp.sel inp.rows).map Row.code).Nodup)
    (s : Row) (hs : s ∈ selectedOf inp.table inp.sel inp.rows)
    (r : Row) (hr : r ∈ reconciledResult inp)
    (hkey : rowKey r = rowKey s) (d : ℕ) :
    hourAt s d ≤ hourAt r d := by
  obtain ⟨hsh, _, _, hfl⟩ := pipeline_facts inp hv hq hnd
  obtain ⟨j, hj, hgr⟩ := mem_getRow (reconciledResult inp) r hr
  have hj0 : j < (mergedResult inp).length := by
    rw [← hsh.1]
    exact hj
  have hcode : (getRow (mergedResult inp) j).code = r.code := by
    rw [← hgr]
    exact ((hsh.2 j hj).1).symm
  have hearn : (getRow (mergedResult inp) j).earning = r.earning := by
    rw [← hgr]
    exact ((hsh.2 j hj).2.1).symm
  have hbound := hfl j hj0 d
  rw [hcode, hearn, hgr] at hbound
  have hc : r.code = s.code := congrArg (fun k => k.1) hkey
  have he : r.earning = s.earning := congrArg (fun k => k.2.2.2.2) hkey
  rw [hc, he] at hbound
  rw [← snapshotHours_self (selectedOf inp.table inp.sel inp.rows) hnd s hs d]
  exact hbound

/-- C3 witness: in a quarter-aligned ledger the selected row `A` with 6 h
ends at 6.75 h ≥ 6 h after reconciliation. -/
theorem C3_witness :
    hourAt (⟨"A", "PA", "1", "w", "1", [6]⟩ : Row) 0 ≤
      hourAt (⟨"A", "PA", "1", "w", "1", [27/4]⟩ : Row) 0 :=
  C3_monotonic_floor exC3w (by decide) (by decide) (by decide)
    ⟨"A", "PA", "1", "w", "1", [6]⟩ (by decide)
    ⟨"A", "PA", "1", "w", "1", [27/4]⟩ (by decide) (by decide) 0
